import Mathlib

/-!
Verification of the MST computation engine of the Minimum-Spanning-Tree-Generator
repository (`Code/src/mst_algorithms.py` and `Code/src/mst_animation.py`).

The Python engine is shallowly embedded as pure Lean functions:

* the `MSTAlgorithms` class becomes a structure holding the node count, the edge
  list, the adjacency array and the two integer metrics (`edge_comparisons`,
  `iterations`);  the floating-point wall-clock `runtime` attribute is modelled
  separately by `runtimeMs` applied to two readings of a monotone clock;
* the constructor's node remapping sends the NetworkX node labels to dense
  0-based indices, so the embedding takes the graph directly as a node count
  `n` and a list of `(u, v, weight)` triples with `u, v < n`;
* Python's `heapq` priority queue is modelled as a list kept sorted by the
  lexicographic key `(weight, node)` (`heapPush` inserts in order, popping takes
  the head); in every state reachable by `prim_mst` no two queue entries share
  a `(weight, node)` key, so this agrees with the binary heap of the source;
* the insertion-ordered Python dict `in_heap` is modelled as an association
  list (`lookupD` / `insertD` / `eraseD`); the `del in_heap[u]` statement,
  which raises `KeyError` when `u` is absent, is modelled by an `Except` branch
  (`PrimFailure.keyError`); the unbounded `while heap:` loop takes explicit
  fuel, with `PrimFailure.outOfFuel` marking exhaustion (proved unreachable);
* the recursive `find` of the union-find takes fuel `parent.length`, which is
  proved sufficient under the union-find invariant;
* the two Python error strings `"Graph is empty"` and
  `"Graph is unconnected—partial MST returned"` are represented by the
  conditions `Condition.emptyGraph` and `Condition.unconnected`.
-/

namespace MST

/-- An edge `(u, v, w)`: endpoints `u`, `v` and positive integer weight `w`,
as produced by the constructor's `self.edges_list`. -/
abbrev Edge := Nat × Nat × Nat

/-- State of the `MSTAlgorithms` engine: graph snapshot plus integer metrics.
Mirrors the attributes set in `MSTAlgorithms.__init__` / `reset_metrics`. -/
structure MSTAlgorithms where
  num_nodes : Nat
  edges_list : List Edge
  adj_list : Array (List (Nat × Nat))
  edge_comparisons : Nat
  iterations : Nat
deriving Repr

/-- Adjacency construction from `__init__`: for each `(u, v, w)` in
`edges_list`, append `(v, w)` to `adj_list[u]` and `(u, w)` to `adj_list[v]`. -/
def buildAdj (n : Nat) (edges : List Edge) : Array (List (Nat × Nat)) :=
  edges.foldl
    (fun a e =>
      let a1 := a.modify e.1 (fun l => l ++ [(e.2.1, e.2.2)])
      a1.modify e.2.1 (fun l => l ++ [(e.1, e.2.2)]))
    (Array.mkArray n [])

/-- The engine constructor `MSTAlgorithms.__init__`, after the node-label
remapping to dense indices: snapshot the node count and edge list, build the
adjacency lists, and reset the metrics. -/
def mkEngine (n : Nat) (edges : List Edge) : MSTAlgorithms :=
  ⟨n, edges, buildAdj n edges, 0, 0⟩

/-- The method `reset_metrics`: clear the integer counters before a run
(the wall-clock `runtime` attribute is modelled separately by `runtimeMs`). -/
def reset_metrics (s : MSTAlgorithms) : MSTAlgorithms :=
  { s with edge_comparisons := 0, iterations := 0 }

/-- The `runtime` metric: `(time.perf_counter() - start_time) * 1000` given the
two readings `t0 ≤ t1` of the monotone high-resolution clock. -/
def runtimeMs (t0 t1 : ℚ) : ℚ := (t1 - t0) * 1000

/-- The tri-state error conditions returned alongside results:
`emptyGraph` stands for the string `"Graph is empty"`, `unconnected` for
`"Graph is unconnected—partial MST returned"`. -/
inductive Condition where
  | emptyGraph
  | unconnected
deriving DecidableEq, Repr

/-- Python `int.bit_length`. -/
def bitLength (m : Nat) : Nat := if m = 0 then 0 else Nat.log2 m + 1

/-! ### Union-Find (`MSTAlgorithms.find` / `MSTAlgorithms.union`) -/

/-- The recursive `find` with path compression, with explicit fuel:
`if parent[i] != i: parent[i] = find(parent, parent[i]); return parent[i]`.
Out-of-range reads default to `i` itself (they never occur in runs on
well-formed graphs). -/
def ufFind : Nat → List Nat → Nat → List Nat × Nat
  | 0, p, i => (p, i)
  | fuel + 1, p, i =>
    if p.getD i i = i then (p, i)
    else
      let r := ufFind fuel p (p.getD i i)
      (r.1.set i r.2, r.2)

/-- `find(parent, i)` with fuel `parent.length`, which is proved sufficient
under the union-find invariant (`ufModels`). -/
def find (p : List Nat) (i : Nat) : List Nat × Nat := ufFind p.length p i

/-- The method `union(parent, rank, x, y)`: find both roots, return if equal,
otherwise attach the lower-rank root below the higher-rank one, bumping the
rank on ties. -/
def union (p rank : List Nat) (x y : Nat) : List Nat × List Nat :=
  let fx := find p x
  let fy := find fx.1 y
  let p2 := fy.1
  if fx.2 = fy.2 then (p2, rank)
  else
    let pq := if rank.getD fx.2 0 < rank.getD fy.2 0 then (fy.2, fx.2) else (fx.2, fy.2)
    let p3 := p2.set pq.2 pq.1
    let rank2 :=
      if rank.getD pq.1 0 = rank.getD pq.2 0 then rank.set pq.1 (rank.getD pq.1 0 + 1)
      else rank
    (p3, rank2)

/-! ### Kruskal's algorithm (`MSTAlgorithms.kruskal_mst`) -/

/-- The comparison used by `sorted(self.edges_list, key=lambda x: x[2])`. -/
def wtLe (a b : Edge) : Bool := a.2.2 ≤ b.2.2

/-- Python's stable `sorted` by weight, as a stable merge sort. -/
def sortEdges (l : List Edge) : List Edge := l.mergeSort wtLe

/-- Loop state of `kruskal_mst`: union-find arrays, accepted edges, metrics. -/
structure KState where
  parent : List Nat
  rank : List Nat
  mst_edges : List Edge
  iterations : Nat
  edge_comparisons : Nat
deriving Repr

/-- One iteration of the `for u, v, weight in edges:` loop of `kruskal_mst`. -/
def kruskalStep (st : KState) (e : Edge) : KState :=
  let st1 := { st with iterations := st.iterations + 1 }
  let fx := find st1.parent e.1
  let fy := find fx.1 e.2.1
  let st2 := { st1 with parent := fy.1, edge_comparisons := st1.edge_comparisons + 1 }
  if fx.2 ≠ fy.2 then
    let ur := union st2.parent st2.rank fx.2 fy.2
    { st2 with parent := ur.1, rank := ur.2, mst_edges := st2.mst_edges ++ [e] }
  else st2

/-- The method `kruskal_mst`: reset metrics; return `([], emptyGraph)` for zero
nodes; otherwise sort the edges by weight, charge the approximate sorting
comparisons `E * (E.bit_length() - 1)`, run the union-find loop, and return
the accepted edges with no error. -/
def kruskal_mst (s0 : MSTAlgorithms) : MSTAlgorithms × List Edge × Option Condition :=
  let s := reset_metrics s0
  if s.num_nodes = 0 then (s, ([], some Condition.emptyGraph))
  else
    let edges := sortEdges s.edges_list
    let s1 := { s with
      edge_comparisons := s.edge_comparisons + edges.length * (bitLength edges.length - 1) }
    let init : KState :=
      ⟨List.range s1.num_nodes, List.replicate s1.num_nodes 0, [], s1.iterations,
        s1.edge_comparisons⟩
    let fin := edges.foldl kruskalStep init
    ({ s1 with edge_comparisons := fin.edge_comparisons, iterations := fin.iterations },
      (fin.mst_edges, none))

/-! ### Prim's algorithm (`MSTAlgorithms.prim_mst`) -/

/-- A priority-queue entry `(weight, node, parent)` as pushed by `prim_mst`;
the parent is `none` only for the initial sentinel `(0, 0, None)`. -/
abbrev HeapEntry := Nat × Nat × Option Nat

/-- Comparison on queue entries by the lexicographic key `(weight, node)`.
In every reachable state of `prim_mst` the `(weight, node)` keys of queue
entries are pairwise distinct, so the parent component never takes part in a
comparison — exactly as in the Python tuples fed to `heapq`. -/
def heapLe (a b : HeapEntry) : Bool := a.1 < b.1 || (a.1 == b.1 && a.2.1 ≤ b.2.1)

/-- `heappush`: insert an entry keeping the queue sorted by `heapLe`. -/
def heapPush (e : HeapEntry) : List HeapEntry → List HeapEntry
  | [] => [e]
  | x :: xs => if heapLe e x then e :: x :: xs else x :: heapPush e xs

/-- Dict read `in_heap[v]` / membership test `v in in_heap`. -/
def lookupD (m : List (Nat × Nat)) (k : Nat) : Option Nat :=
  (m.find? (fun kv => kv.1 == k)).map (·.2)

/-- Dict write `in_heap[v] = w`: overwrite in place, or append a new binding. -/
def insertD (m : List (Nat × Nat)) (k v : Nat) : List (Nat × Nat) :=
  if (m.find? (fun kv => kv.1 == k)).isSome then
    m.map (fun kv => if kv.1 == k then (k, v) else kv)
  else m ++ [(k, v)]

/-- Dict deletion `del in_heap[u]` (on a present key). -/
def eraseD (m : List (Nat × Nat)) (k : Nat) : List (Nat × Nat) :=
  m.filter (fun kv => kv.1 != k)

/-- Loop state of `prim_mst`. -/
structure PState where
  visited : Finset Nat
  heap : List HeapEntry
  in_heap : List (Nat × Nat)
  mst_edges : List Edge
  iterations : Nat
  edge_comparisons : Nat

/-- Failure modes of the embedded `prim_mst`: `keyError` models the Python
`KeyError` that `del in_heap[u]` would raise on a missing key, `outOfFuel`
marks exhaustion of the explicit fuel of the `while heap:` loop.  Both are
proved unreachable on well-formed inputs. -/
inductive PrimFailure where
  | keyError
  | outOfFuel
deriving DecidableEq, Repr

/-- Body of the `for v, w in self.adj_list[u]:` relaxation loop: push to the
queue and update `in_heap` when `v` is unvisited and either has no recorded
candidate or a strictly lighter edge was found. -/
def relaxStep (u : Nat) (st : PState) (vw : Nat × Nat) : PState :=
  if vw.1 ∈ st.visited then st
  else
    match lookupD st.in_heap vw.1 with
    | none =>
      { st with heap := heapPush (vw.2, vw.1, some u) st.heap,
                in_heap := insertD st.in_heap vw.1 vw.2,
                edge_comparisons := st.edge_comparisons + 1 }
    | some cur =>
      if vw.2 < cur then
        { st with heap := heapPush (vw.2, vw.1, some u) st.heap,
                  in_heap := insertD st.in_heap vw.1 vw.2,
                  edge_comparisons := st.edge_comparisons + 1 }
      else st

/-- The relaxation loop over all neighbours of `u`. -/
def relax (u : Nat) (nbrs : List (Nat × Nat)) (st : PState) : PState :=
  nbrs.foldl (relaxStep u) st

/-- The `while heap:` loop of `prim_mst` with explicit fuel: pop the minimum
entry, count the iteration and comparison, discard stale entries, otherwise
mark visited, delete from `in_heap` (a `KeyError` if absent), append the MST
edge unless it is the sentinel, and relax the neighbours. -/
def primLoop (adj : Array (List (Nat × Nat))) : Nat → PState → Except PrimFailure PState
  | fuel, st =>
    match st.heap with
    | [] => Except.ok st
    | (w, u, par) :: rest =>
      match fuel with
      | 0 => Except.error PrimFailure.outOfFuel
      | fuel' + 1 =>
        let st1 := { st with heap := rest, iterations := st.iterations + 1,
                             edge_comparisons := st.edge_comparisons + 1 }
        if u ∈ st1.visited then primLoop adj fuel' st1
        else
          match lookupD st1.in_heap u with
          | none => Except.error PrimFailure.keyError
          | some _ =>
            let st2 := { st1 with visited := insert u st1.visited,
                                  in_heap := eraseD st1.in_heap u }
            let st3 :=
              match par with
              | some p => { st2 with mst_edges := st2.mst_edges ++ [(p, u, w)] }
              | none => st2
            primLoop adj fuel' (relax u (adj.getD u []) st3)

/-- Total length of all adjacency lists (`2 * |E|` for a well-formed graph);
used to bound the fuel of the main loop. -/
def adjTotal (adj : Array (List (Nat × Nat))) : Nat :=
  adj.foldl (fun acc l => acc + l.length) 0

/-- Fuel sufficient for `primLoop` to drain the queue (proved). -/
def primFuel (n : Nat) (adj : Array (List (Nat × Nat))) : Nat :=
  1 + n * (adjTotal adj + 2)

/-- The method `prim_mst`: reset metrics; return `([], emptyGraph)` for zero
nodes; otherwise run the main loop from the sentinel `(0, 0, None)` with
`in_heap = {0: 0}`, and report `unconnected` when not all nodes were visited. -/
def prim_mst (s0 : MSTAlgorithms) :
    Except PrimFailure (MSTAlgorithms × List Edge × Option Condition) :=
  let s := reset_metrics s0
  if s.num_nodes = 0 then Except.ok (s, ([], some Condition.emptyGraph))
  else
    let st0 : PState := ⟨∅, [(0, 0, none)], [(0, 0)], [], 0, 0⟩
    match primLoop s.adj_list (primFuel s.num_nodes s.adj_list) st0 with
    | Except.error e => Except.error e
    | Except.ok fin =>
      let s1 := { s with iterations := fin.iterations,
                         edge_comparisons := fin.edge_comparisons }
      if fin.visited.card < s.num_nodes then
        Except.ok (s1, (fin.mst_edges, some Condition.unconnected))
      else Except.ok (s1, (fin.mst_edges, none))

/-! ### Animation traces (`MSTAnimation`, `mst_animation.py`) -/

/-- A trace event: `('vertex', v)`, `('edge', (u, v))` or
`('final', (edges, error))` as yielded by the generators. -/
inductive AnimEvent where
  | vertex (v : Nat)
  | edge (e : Nat × Nat)
  | final (r : List Edge × Option Condition)
deriving DecidableEq, Repr

/-- The replay loop of `kruskal_mst_with_animation`: walk the result, emitting
each endpoint the first time it is seen, then the edge. -/
def kruskalAnimGo : List Edge → Finset Nat → List AnimEvent
  | [], _ => []
  | e :: rest, vis =>
    let s1 : List AnimEvent × Finset Nat :=
      if e.1 ∈ vis then ([], vis) else ([AnimEvent.vertex e.1], insert e.1 vis)
    let s2 : List AnimEvent × Finset Nat :=
      if e.2.1 ∈ s1.2 then ([], s1.2) else ([AnimEvent.vertex e.2.1], insert e.2.1 s1.2)
    s1.1 ++ s2.1 ++ [AnimEvent.edge (e.1, e.2.1)] ++ kruskalAnimGo rest s2.2

/-- `MSTAnimation.kruskal_mst_with_animation`, as the list of yielded events. -/
def kruskal_mst_with_animation (s0 : MSTAlgorithms) : List AnimEvent :=
  let r := kruskal_mst s0
  match r.2.2 with
  | some err => [AnimEvent.final ([], some err)]
  | none => kruskalAnimGo r.2.1 ∅ ++ [AnimEvent.final (r.2.1, none)]

/-- The replay loop of `prim_mst_with_animation`: for each `(parent, u, w)`
emit `u` if unseen, then the edge `(parent, u)`. -/
def primAnimGo : List Edge → Finset Nat → List AnimEvent
  | [], _ => []
  | e :: rest, vis =>
    let s1 : List AnimEvent × Finset Nat :=
      if e.2.1 ∈ vis then ([], vis) else ([AnimEvent.vertex e.2.1], insert e.2.1 vis)
    s1.1 ++ [AnimEvent.edge (e.1, e.2.1)] ++ primAnimGo rest s1.2

/-- `MSTAnimation.prim_mst_with_animation`, as the list of yielded events. -/
def prim_mst_with_animation (s0 : MSTAlgorithms) : Except PrimFailure (List AnimEvent) :=
  match prim_mst s0 with
  | Except.error e => Except.error e
  | Except.ok r =>
    match r.2.2 with
    | some err => Except.ok [AnimEvent.final ([], some err)]
    | none =>
      Except.ok ([AnimEvent.vertex 0] ++ primAnimGo r.2.1 {0} ++
        [AnimEvent.final (r.2.1, none)])

/-! ### Graph-theoretic vocabulary used by the specification -/

/-- Well-formedness of the dense-index edge list produced by the constructor:
every endpoint is `< n` (spec §3: node identifiers referenced by any edge). -/
def WFGraph (n : Nat) (E : List Edge) : Prop := ∀ e ∈ E, e.1 < n ∧ e.2.1 < n

/-- All weights positive, as validated by the graph-construction collaborator. -/
def PosWeights (E : List Edge) : Prop := ∀ e ∈ E, 0 < e.2.2

/-- Adjacency of two nodes in an edge list (undirected). -/
def adjRel (E : List Edge) (a b : Nat) : Prop := ∃ w, (a, b, w) ∈ E ∨ (b, a, w) ∈ E

/-- Connectivity of two nodes by a chain of edges. -/
def Reach (E : List Edge) : Nat → Nat → Prop := Relation.ReflTransGen (adjRel E)

/-- One breadth step: add every node adjacent to the set `s`. -/
def growStep (E : List Edge) (s : Finset Nat) : Finset Nat :=
  E.foldl
    (fun acc e =>
      let acc1 := if e.1 ∈ s then insert e.2.1 acc else acc
      if e.2.1 ∈ s then insert e.1 acc1 else acc1)
    s

/-- Nodes reachable from `u` in at most `fuel` breadth steps. -/
def reachSet (E : List Edge) (fuel : Nat) (u : Nat) : Finset Nat :=
  (growStep E)^[fuel] {u}

/-- Enough breadth steps to saturate any reachable set. -/
def reachBound (E : List Edge) : Nat := 2 * E.length + 1

/-- Decidable connectivity: `v` lies in the saturated reachable set of `u`. -/
def reachD (E : List Edge) (u v : Nat) : Prop := v ∈ reachSet E (reachBound E) u

instance (E : List Edge) (u v : Nat) : Decidable (reachD E u v) := by
  unfold reachD; infer_instance

/-- Canonical representative of the connected component of `i` among the nodes
`0, …, n-1`: the least node connected to `i`. -/
def rep (n : Nat) (E : List Edge) (i : Nat) : Nat :=
  ((List.range n).find? (fun j => decide (reachD E j i))).getD i

/-- Number of connected components of the graph on nodes `0, …, n-1`. -/
def ncomp (n : Nat) (E : List Edge) : Nat :=
  ((Finset.range n).image (rep n E)).card

/-- The graph is connected: any two nodes are joined by a chain of edges. -/
def Connected (n : Nat) (E : List Edge) : Prop :=
  ∀ a < n, ∀ b < n, Reach E a b

/-- The connected component of node 0 among the nodes `0, …, n-1`. -/
def compOfZero (n : Nat) (E : List Edge) : Finset Nat :=
  (Finset.range n).filter (fun v => reachD E 0 v)

/-- An edge list is acyclic when every edge is a bridge: no edge's endpoints
stay connected once that one occurrence of the edge is removed. -/
def AcyclicL (T : List Edge) : Prop :=
  ∀ l1 e l2, T = l1 ++ e :: l2 → ¬ Reach (l1 ++ l2) e.1 e.2.1

/-- Membership of an undirected edge (in either orientation) in an edge list. -/
def edgeIn (E : List Edge) (e : Edge) : Prop :=
  e ∈ E ∨ (e.2.1, e.1, e.2.2) ∈ E

/-- A spanning tree of the graph `(n, E)`: a list of `E`-edges (up to
orientation) that connects all nodes and is acyclic. -/
def IsSpanningTree (n : Nat) (E : List Edge) (T : List Edge) : Prop :=
  (∀ e ∈ T, edgeIn E e) ∧ (∀ a < n, ∀ b < n, Reach T a b) ∧ AcyclicL T

/-- Total weight of a list of edges. -/
def weightL (T : List Edge) : Nat := (T.map (fun e => e.2.2)).sum

/-- A minimum spanning tree: a spanning tree of least total weight. -/
def IsMST (n : Nat) (E : List Edge) (B : List Edge) : Prop :=
  IsSpanningTree n E B ∧ ∀ T, IsSpanningTree n E T → weightL B ≤ weightL T


/-! ### Events extracted from a trace -/

/-- The edge events of a trace, in order. -/
def edgeEvents (l : List AnimEvent) : List (Nat × Nat) :=
  l.filterMap (fun ev => match ev with | AnimEvent.edge p => some p | _ => none)

/-- The final events of a trace, in order. -/
def finalEvents (l : List AnimEvent) : List (List Edge × Option Condition) :=
  l.filterMap (fun ev => match ev with | AnimEvent.final r => some r | _ => none)

/-- A pair of nodes as an unordered pair (smaller endpoint first). -/
def unord (p : Nat × Nat) : Nat × Nat := if p.1 ≤ p.2 then p else (p.2, p.1)

/-! ### Metric bookkeeping lemmas for Kruskal's loop -/

theorem kruskalStep_edge_comparisons (st : KState) (e : Edge) :
    (kruskalStep st e).edge_comparisons = st.edge_comparisons + 1 := by
  unfold kruskalStep
  dsimp only
  split <;> rfl

theorem kruskalStep_iterations (st : KState) (e : Edge) :
    (kruskalStep st e).iterations = st.iterations + 1 := by
  unfold kruskalStep
  dsimp only
  split <;> rfl

theorem foldl_kruskalStep_edge_comparisons (l : List Edge) :
    ∀ st : KState, (l.foldl kruskalStep st).edge_comparisons = st.edge_comparisons + l.length := by
  induction l with
  | nil => intro st; simp
  | cons e l ih =>
    intro st
    simp only [List.foldl_cons, ih, kruskalStep_edge_comparisons, List.length_cons]
    omega

theorem foldl_kruskalStep_iterations (l : List Edge) :
    ∀ st : KState, (l.foldl kruskalStep st).iterations = st.iterations + l.length := by
  induction l with
  | nil => intro st; simp
  | cons e l ih =>
    intro st
    simp only [List.foldl_cons, ih, kruskalStep_iterations, List.length_cons]
    omega

theorem kruskalStep_mst_edges (st : KState) (e : Edge) :
    (kruskalStep st e).mst_edges = st.mst_edges ∨
      (kruskalStep st e).mst_edges = st.mst_edges ++ [e] := by
  unfold kruskalStep
  dsimp only
  split
  · right; rfl
  · left; rfl

theorem foldl_kruskalStep_mst_sublist (l : List Edge) :
    ∀ st : KState, ∃ t, (l.foldl kruskalStep st).mst_edges = st.mst_edges ++ t ∧ t.Sublist l := by
  induction l with
  | nil => intro st; exact ⟨[], by simp, List.Sublist.refl _⟩
  | cons e l ih =>
    intro st
    obtain ⟨t, ht, hs⟩ := ih (kruskalStep st e)
    rcases kruskalStep_mst_edges st e with h | h
    · exact ⟨t, by simp [List.foldl_cons, ht, h], hs.cons e⟩
    · exact ⟨e :: t, by simp [List.foldl_cons, ht, h], hs.cons₂ e⟩

/-! ### Engine-level bookkeeping -/

theorem reset_metrics_reset (s : MSTAlgorithms) :
    reset_metrics (reset_metrics s) = reset_metrics s := rfl

theorem reset_metrics_kruskal (s : MSTAlgorithms) :
    reset_metrics (kruskal_mst s).1 = reset_metrics s := by
  unfold kruskal_mst
  dsimp only
  split <;> rfl

theorem kruskal_mst_congr {s t : MSTAlgorithms}
    (h : reset_metrics t = reset_metrics s) : kruskal_mst t = kruskal_mst s := by
  unfold kruskal_mst
  rw [h]

theorem prim_mst_congr {s t : MSTAlgorithms}
    (h : reset_metrics t = reset_metrics s) : prim_mst t = prim_mst s := by
  unfold prim_mst
  rw [h]

theorem reset_metrics_prim {s e1 : MSTAlgorithms} {out : List Edge × Option Condition}
    (h : prim_mst s = Except.ok (e1, out)) : reset_metrics e1 = reset_metrics s := by
  unfold prim_mst at h
  dsimp only at h
  split at h
  · rw [Except.ok.injEq, Prod.mk.injEq] at h
    rw [← h.1]
    rfl
  · split at h
    · exact absurd h (by simp)
    · split at h <;>
      · rw [Except.ok.injEq, Prod.mk.injEq] at h
        rw [← h.1]
        rfl

/-! ### Sorting facts for Kruskal -/

theorem wtLe_trans : ∀ a b c : Edge, wtLe a b = true → wtLe b c = true → wtLe a c = true := by
  intro a b c h1 h2
  simp only [wtLe, decide_eq_true_eq] at *
  omega

theorem wtLe_total : ∀ a b : Edge, (wtLe a b || wtLe b a) = true := by
  intro a b
  simp only [wtLe, Bool.or_eq_true, decide_eq_true_eq]
  omega

theorem sortEdges_perm (l : List Edge) : (sortEdges l).Perm l :=
  List.mergeSort_perm l wtLe

theorem sortEdges_length (l : List Edge) : (sortEdges l).length = l.length :=
  (sortEdges_perm l).length_eq

theorem sortEdges_sorted (l : List Edge) :
    (sortEdges l).Pairwise (fun a b : Edge => a.2.2 ≤ b.2.2) := by
  have h := List.sorted_mergeSort wtLe_trans wtLe_total l
  exact h.imp (by intro a b hab; simpa [wtLe] using hab)

theorem sortEdges_filter_weight (l : List Edge) (w : Nat) :
    (sortEdges l).filter (fun e => e.2.2 == w) = l.filter (fun e => e.2.2 == w) := by
  have hall : ∀ e ∈ l.filter (fun e : Edge => e.2.2 == w), e.2.2 = w := by
    intro e he
    have := (List.mem_filter.mp he).2
    simpa using this
  have hpw : (l.filter (fun e : Edge => e.2.2 == w)).Pairwise (fun a b => wtLe a b = true) := by
    apply List.pairwise_of_forall_mem_list
    intro a ha b hb
    simp only [wtLe, decide_eq_true_eq]
    rw [hall a ha, hall b hb]
  have hA : (l.filter (fun e : Edge => e.2.2 == w)).Sublist (sortEdges l) :=
    List.sublist_mergeSort wtLe_trans wtLe_total hpw (List.filter_sublist l)
  have hA2 : (l.filter (fun e : Edge => e.2.2 == w)).Sublist
      ((sortEdges l).filter (fun e => e.2.2 == w)) := by
    have h1 := hA.filter (fun e : Edge => e.2.2 == w)
    rw [List.filter_filter] at h1
    have hfu : (fun a : Edge => a.2.2 == w && (a.2.2 == w)) = (fun a : Edge => a.2.2 == w) :=
      funext fun a => Bool.and_self _
    rwa [hfu] at h1
  have hlen : (l.filter (fun e : Edge => e.2.2 == w)).length =
      ((sortEdges l).filter (fun e => e.2.2 == w)).length :=
    (((sortEdges_perm l).filter _).symm).length_eq
  exact (hA2.eq_of_length hlen).symm

theorem kruskal_out_sublist_sorted (s : MSTAlgorithms) :
    ((kruskal_mst s).2.1).Sublist (sortEdges s.edges_list) := by
  unfold kruskal_mst
  dsimp only
  split
  · exact List.nil_sublist _
  · obtain ⟨t, ht, hsub⟩ := foldl_kruskalStep_mst_sublist (sortEdges (reset_metrics s).edges_list)
      ⟨List.range (reset_metrics s).num_nodes, List.replicate (reset_metrics s).num_nodes 0, [],
        (reset_metrics s).iterations,
        (reset_metrics s).edge_comparisons +
          (sortEdges (reset_metrics s).edges_list).length *
            (bitLength (sortEdges (reset_metrics s).edges_list).length - 1)⟩
    simpa [ht] using hsub

/-- The floor base-2 logarithm recorded by the sort-phase approximation:
`E.bit_length() - 1` equals `Nat.log2 E`. -/
theorem bitLength_sub_one (m : Nat) : bitLength m - 1 = Nat.log2 m := by
  unfold bitLength
  split
  · subst m
    unfold Nat.log2
    simp
  · omega

/-! ### Claim theorems: C5, C6, C7, C8 -/

/-- C5: for the empty graph (`N = 0`), both `kruskal_mst()` and `prim_mst()`
return an empty edge list with the `EmptyGraph` condition, and the recorded
`runtime_ms` metric — elapsed monotone-clock time times 1000 — is ≥ 0. -/
theorem c5_empty_graph (E : List Edge) (_hWF : WFGraph 0 E) (t0 t1 : ℚ) (hclock : t0 ≤ t1) :
    (kruskal_mst (mkEngine 0 E)).2 = ([], some Condition.emptyGraph) ∧
    prim_mst (mkEngine 0 E) =
      Except.ok (reset_metrics (mkEngine 0 E), ([], some Condition.emptyGraph)) ∧
    0 ≤ runtimeMs t0 t1 := by
  refine ⟨rfl, rfl, ?_⟩
  unfold runtimeMs
  have h0 : (0 : ℚ) ≤ t1 - t0 := sub_nonneg.mpr hclock
  nlinarith

theorem c5_empty_graph_witness :
    (kruskal_mst (mkEngine 0 [])).2 = ([], some Condition.emptyGraph) ∧
    prim_mst (mkEngine 0 []) =
      Except.ok (reset_metrics (mkEngine 0 []), ([], some Condition.emptyGraph)) ∧
    0 ≤ runtimeMs 0 1 :=
  c5_empty_graph [] (by intro e he; cases he) 0 1 (by norm_num)

/-- C7: metrics are reset at the start of every invocation — a second call of
`kruskal_mst()` (resp. `prim_mst()`) on the engine returned by the first call
produces exactly the same engine state and result as the first call, so its
`iterations` and `edge_comparisons` match the work of one call alone. -/
theorem c7_metrics_reset (s e1 : MSTAlgorithms) (out1 : List Edge × Option Condition)
    (hprim : prim_mst s = Except.ok (e1, out1)) :
    kruskal_mst (kruskal_mst s).1 = kruskal_mst s ∧ prim_mst e1 = prim_mst s :=
  ⟨kruskal_mst_congr (reset_metrics_kruskal s), prim_mst_congr (reset_metrics_prim hprim)⟩

theorem c7_metrics_reset_witness :
    kruskal_mst (kruskal_mst (mkEngine 1 [])).1 = kruskal_mst (mkEngine 1 []) ∧
    prim_mst (⟨1, [], #[[]], 1, 1⟩ : MSTAlgorithms) = prim_mst (mkEngine 1 []) :=
  c7_metrics_reset (mkEngine 1 []) ⟨1, [], #[[]], 1, 1⟩ ([], none) rfl

/-- C8: on a graph reaching the sorting phase (`N ≠ 0`), the final
`edge_comparisons` of `kruskal_mst()` decomposes as the sort-phase increment
`E * (E.bit_length() - 1)` — that is, `E * log2 E` — plus the `E` unit
increments of the union-find loop (one per edge, as witnessed by
`iterations = E`). -/
theorem c8_sort_comparisons (s : MSTAlgorithms) (h : s.num_nodes ≠ 0) :
    (kruskal_mst s).1.edge_comparisons =
      s.edges_list.length * Nat.log2 s.edges_list.length + s.edges_list.length ∧
    (kruskal_mst s).1.iterations = s.edges_list.length := by
  unfold kruskal_mst
  dsimp only
  rw [if_neg (show ¬(reset_metrics s).num_nodes = 0 from h)]
  constructor
  · rw [foldl_kruskalStep_edge_comparisons]
    dsimp only [reset_metrics]
    rw [sortEdges_length, bitLength_sub_one]
    omega
  · rw [foldl_kruskalStep_iterations]
    dsimp only [reset_metrics]
    rw [sortEdges_length]
    omega

theorem c8_sort_comparisons_witness :
    (kruskal_mst (mkEngine 4 [(0, 1, 5), (1, 2, 3), (2, 3, 1), (0, 3, 10)])).1.edge_comparisons =
      4 * Nat.log2 4 + 4 ∧
    (kruskal_mst (mkEngine 4 [(0, 1, 5), (1, 2, 3), (2, 3, 1), (0, 3, 10)])).1.iterations = 4 :=
  c8_sort_comparisons (mkEngine 4 [(0, 1, 5), (1, 2, 3), (2, 3, 1), (0, 3, 10)]) (by decide)

/-- C6: the edges returned by `kruskal_mst()` appear in non-decreasing weight
order, and for each fixed weight the returned edges form a subsequence of the
input edges of that weight — the stable sort keeps equal-weight edges in input
order, so the output order is deterministic for a fixed input sequence. -/
theorem c6_output_sorted_stably (s : MSTAlgorithms) :
    ((kruskal_mst s).2.1).Pairwise (fun a b : Edge => a.2.2 ≤ b.2.2) ∧
    ∀ w : Nat, ((kruskal_mst s).2.1.filter (fun e => e.2.2 == w)).Sublist
      (s.edges_list.filter (fun e => e.2.2 == w)) := by
  constructor
  · exact (sortEdges_sorted s.edges_list).sublist (kruskal_out_sublist_sorted s)
  · intro w
    have h1 := (kruskal_out_sublist_sorted s).filter (fun e : Edge => e.2.2 == w)
    rwa [sortEdges_filter_weight] at h1


/-! ### Basic facts about connectivity -/

theorem adjRel_symm {E : List Edge} {a b : Nat} (h : adjRel E a b) : adjRel E b a := by
  obtain ⟨w, hw⟩ := h
  exact ⟨w, hw.symm⟩

theorem reach_refl {E : List Edge} (a : Nat) : Reach E a a := Relation.ReflTransGen.refl

theorem reach_symm {E : List Edge} {a b : Nat} (h : Reach E a b) : Reach E b a :=
  Relation.ReflTransGen.symmetric (fun _ _ hxy => adjRel_symm hxy) h

theorem reach_trans {E : List Edge} {a b c : Nat} (h1 : Reach E a b) (h2 : Reach E b c) :
    Reach E a c := Relation.ReflTransGen.trans h1 h2

theorem reach_single {E : List Edge} {a b : Nat} (h : adjRel E a b) : Reach E a b :=
  Relation.ReflTransGen.single h

theorem adjRel_mono {E1 E2 : List Edge} (hsub : ∀ x ∈ E1, x ∈ E2) {a b : Nat}
    (h : adjRel E1 a b) : adjRel E2 a b := by
  obtain ⟨w, hw⟩ := h
  exact ⟨w, hw.imp (hsub _) (hsub _)⟩

theorem reach_mono {E1 E2 : List Edge} (hsub : ∀ x ∈ E1, x ∈ E2) {a b : Nat}
    (h : Reach E1 a b) : Reach E2 a b :=
  Relation.ReflTransGen.mono (fun _ _ hr => adjRel_mono hsub hr) h

theorem reach_congr_mem {E1 E2 : List Edge} (hmem : ∀ x, x ∈ E1 ↔ x ∈ E2) (a b : Nat) :
    Reach E1 a b ↔ Reach E2 a b :=
  ⟨reach_mono (fun x hx => (hmem x).mp hx), reach_mono (fun x hx => (hmem x).mpr hx)⟩

theorem reach_nil {a b : Nat} (h : Reach [] a b) : a = b := by
  induction h with
  | refl => rfl
  | tail _ hstep ih => obtain ⟨w, hw⟩ := hstep; rcases hw with h | h <;> cases h

/-! ### The bounded closure `reachSet` computes `Reach` -/

theorem mem_growStepF {s acc : Finset Nat} {e : Edge} {x : Nat} :
    x ∈ (if e.2.1 ∈ s then insert e.1 (if e.1 ∈ s then insert e.2.1 acc else acc)
         else (if e.1 ∈ s then insert e.2.1 acc else acc)) ↔
    x ∈ acc ∨ (e.1 ∈ s ∧ x = e.2.1) ∨ (e.2.1 ∈ s ∧ x = e.1) := by
  by_cases h1 : e.1 ∈ s <;> by_cases h2 : e.2.1 ∈ s <;>
    simp only [h1, h2, if_true, if_false, Finset.mem_insert] <;> tauto

theorem mem_growStep_foldl (s : Finset Nat) :
    ∀ (E : List Edge) (acc : Finset Nat) (x : Nat),
      (x ∈ E.foldl
        (fun acc e =>
          let acc1 := if e.1 ∈ s then insert e.2.1 acc else acc
          if e.2.1 ∈ s then insert e.1 acc1 else acc1) acc) ↔
      x ∈ acc ∨ ∃ e ∈ E, (e.1 ∈ s ∧ x = e.2.1) ∨ (e.2.1 ∈ s ∧ x = e.1) := by
  intro E
  induction E with
  | nil => intro acc x; simp
  | cons e E ih =>
    intro acc x
    rw [List.foldl_cons, ih]
    dsimp only
    rw [mem_growStepF]
    constructor
    · rintro ((hx | hcase) | ⟨e2, he2, hcases⟩)
      · exact Or.inl hx
      · exact Or.inr ⟨e, List.mem_cons_self e E, by tauto⟩
      · exact Or.inr ⟨e2, List.mem_cons_of_mem _ he2, hcases⟩
    · rintro (hx | ⟨e2, he2, hcases⟩)
      · exact Or.inl (Or.inl hx)
      · rcases List.mem_cons.mp he2 with rfl | he2
        · exact Or.inl (Or.inr (by tauto))
        · exact Or.inr ⟨e2, he2, hcases⟩

theorem mem_growStep {E : List Edge} {s : Finset Nat} {x : Nat} :
    x ∈ growStep E s ↔ x ∈ s ∨ ∃ y ∈ s, adjRel E y x := by
  unfold growStep
  rw [mem_growStep_foldl]
  constructor
  · rintro (hx | ⟨e, he, ⟨h1, rfl⟩ | ⟨h1, rfl⟩⟩)
    · exact Or.inl hx
    · exact Or.inr ⟨e.1, h1, ⟨e.2.2, Or.inl (by simpa using he)⟩⟩
    · exact Or.inr ⟨e.2.1, h1, ⟨e.2.2, Or.inr (by simpa using he)⟩⟩
  · rintro (hx | ⟨y, hy, ⟨w, hw | hw⟩⟩)
    · exact Or.inl hx
    · exact Or.inr ⟨(y, x, w), hw, Or.inl ⟨hy, rfl⟩⟩
    · exact Or.inr ⟨(x, y, w), hw, Or.inr ⟨hy, rfl⟩⟩

theorem subset_growStep (E : List Edge) (s : Finset Nat) : s ⊆ growStep E s := by
  intro x hx
  exact mem_growStep.mpr (Or.inl hx)

theorem reachSet_succ (E : List Edge) (fuel u : Nat) :
    reachSet E (fuel + 1) u = growStep E (reachSet E fuel u) := by
  unfold reachSet
  rw [Function.iterate_succ_apply']

theorem reachSet_sound {E : List Edge} {u : Nat} :
    ∀ {fuel x}, x ∈ reachSet E fuel u → Reach E u x := by
  intro fuel
  induction fuel with
  | zero =>
    intro x hx
    simp only [reachSet, Function.iterate_zero, id_eq, Finset.mem_singleton] at hx
    subst hx
    exact Relation.ReflTransGen.refl
  | succ fuel ih =>
    intro x hx
    rw [reachSet_succ, mem_growStep] at hx
    rcases hx with hx | ⟨y, hy, hadj⟩
    · exact ih hx
    · exact reach_trans (ih hy) (reach_single hadj)

theorem reachSet_mono_succ (E : List Edge) (fuel u : Nat) :
    reachSet E fuel u ⊆ reachSet E (fuel + 1) u := by
  rw [reachSet_succ]
  exact subset_growStep E _

theorem reachSet_mono {E : List Edge} {u : Nat} {f g : Nat} (h : f ≤ g) :
    reachSet E f u ⊆ reachSet E g u := by
  induction g with
  | zero => rw [Nat.le_zero.mp h]
  | succ g ih =>
    rcases Nat.lt_or_ge f (g + 1) with hlt | hge
    · exact (ih (Nat.lt_succ_iff.mp hlt)).trans (reachSet_mono_succ E g u)
    · rw [Nat.le_antisymm h hge]

theorem reachSet_complete {E : List Edge} {u x : Nat} (h : Reach E u x) :
    ∃ f, x ∈ reachSet E f u := by
  induction h with
  | refl => exact ⟨0, by simp [reachSet]⟩
  | tail _ hstep ih =>
    obtain ⟨f, hf⟩ := ih
    exact ⟨f + 1, by rw [reachSet_succ]; exact mem_growStep.mpr (Or.inr ⟨_, hf, hstep⟩)⟩

/-- All endpoints occurring in an edge list. -/
def nodesOf (E : List Edge) : Finset Nat :=
  E.foldr (fun e acc => insert e.1 (insert e.2.1 acc)) ∅

theorem mem_nodesOf {E : List Edge} {e : Edge} (h : e ∈ E) :
    e.1 ∈ nodesOf E ∧ e.2.1 ∈ nodesOf E := by
  induction E with
  | nil => cases h
  | cons f E ih =>
    rcases List.mem_cons.mp h with rfl | h
    · simp [nodesOf]
    · have := ih h
      simp only [nodesOf, List.foldr_cons, Finset.mem_insert] at *
      tauto

theorem card_nodesOf (E : List Edge) : (nodesOf E).card ≤ 2 * E.length := by
  induction E with
  | nil => simp [nodesOf]
  | cons e E ih =>
    have h1 : (nodesOf (e :: E)).card ≤ (insert e.2.1 (nodesOf E)).card + 1 :=
      Finset.card_insert_le _ _
    have h2 : (insert e.2.1 (nodesOf E)).card ≤ (nodesOf E).card + 1 :=
      Finset.card_insert_le _ _
    simp only [List.length_cons]
    omega

theorem reachSet_subset_nodes (E : List Edge) (u : Nat) :
    ∀ fuel, reachSet E fuel u ⊆ insert u (nodesOf E) := by
  intro fuel
  induction fuel with
  | zero => simp [reachSet]
  | succ fuel ih =>
    rw [reachSet_succ]
    intro x hx
    rcases mem_growStep.mp hx with hx | ⟨y, _, ⟨w, hw | hw⟩⟩
    · exact ih hx
    · exact Finset.mem_insert_of_mem (mem_nodesOf hw).2
    · exact Finset.mem_insert_of_mem (mem_nodesOf hw).1

theorem card_reachSet_le (E : List Edge) (u fuel : Nat) :
    (reachSet E fuel u).card ≤ 2 * E.length + 1 := by
  have h1 := Finset.card_le_card (reachSet_subset_nodes E u fuel)
  have h2 : (insert u (nodesOf E)).card ≤ (nodesOf E).card + 1 := Finset.card_insert_le _ _
  have h3 := card_nodesOf E
  omega

theorem exists_reachSet_fixpoint (E : List Edge) (u : Nat) :
    ∃ f ≤ 2 * E.length, growStep E (reachSet E f u) = reachSet E f u := by
  by_contra hcon
  push_neg at hcon
  have hgrow : ∀ f ≤ 2 * E.length, f + 1 ≤ (reachSet E f u).card := by
    intro f
    induction f with
    | zero =>
      intro _
      simp [reachSet]
    | succ f ih =>
      intro hle
      have hf : f ≤ 2 * E.length := by omega
      have hss : reachSet E f u ⊂ reachSet E (f + 1) u := by
        rw [reachSet_succ]
        exact HasSubset.Subset.ssubset_of_ne (subset_growStep E _) (Ne.symm (hcon f hf))
      have := Finset.card_lt_card hss
      have := ih hf
      omega
    -- done
  have hbig := hgrow (2 * E.length) (le_refl _)
  have hle := card_reachSet_le E u (2 * E.length)
  have hss : reachSet E (2 * E.length) u ⊂ reachSet E (2 * E.length + 1) u := by
    rw [reachSet_succ]
    exact HasSubset.Subset.ssubset_of_ne (subset_growStep E _)
      (Ne.symm (hcon (2 * E.length) (le_refl _)))
  have := Finset.card_lt_card hss
  have := card_reachSet_le E u (2 * E.length + 1)
  omega

theorem reachSet_stable (E : List Edge) (u : Nat) {f : Nat}
    (hfix : growStep E (reachSet E f u) = reachSet E f u) (d : Nat) :
    reachSet E (f + d) u = reachSet E f u := by
  induction d with
  | zero => rfl
  | succ d ih => rw [show f + (d + 1) = (f + d) + 1 by omega, reachSet_succ, ih, hfix]

/-- The decidable connectivity test agrees with `Reach`. -/
theorem reachD_iff (E : List Edge) (u x : Nat) : reachD E u x ↔ Reach E u x := by
  constructor
  · exact fun h => reachSet_sound h
  · intro h
    obtain ⟨f, hf⟩ := reachSet_complete h
    obtain ⟨f0, hf0le, hfix⟩ := exists_reachSet_fixpoint E u
    unfold reachD reachBound
    rcases Nat.le_total f (2 * E.length + 1) with hle | hge
    · exact reachSet_mono hle hf
    · have h1 : reachSet E f u = reachSet E f0 u := by
        have := reachSet_stable E u hfix (f - f0)
        rwa [show f0 + (f - f0) = f by omega] at this
      have h2 : reachSet E (2 * E.length + 1) u = reachSet E f0 u := by
        have := reachSet_stable E u hfix (2 * E.length + 1 - f0)
        rwa [show f0 + (2 * E.length + 1 - f0) = 2 * E.length + 1 by omega] at this
      rw [h2, ← h1]
      exact hf


/-! ### Component representatives and component counting -/

theorem rep_find_eq {n : Nat} {E : List Edge} {i : Nat} (hi : i < n) :
    ∃ r, (List.range n).find? (fun j => decide (reachD E j i)) = some r ∧
      rep n E i = r ∧ r < n ∧ Reach E r i := by
  have hex : ∃ x ∈ List.range n, (fun j => decide (reachD E j i)) x = true := by
    refine ⟨i, List.mem_range.mpr hi, ?_⟩
    simp only [decide_eq_true_eq]
    exact (reachD_iff E i i).mpr (reach_refl i)
  obtain ⟨r, hr⟩ := Option.isSome_iff_exists.mp (List.find?_isSome.mpr hex)
  refine ⟨r, hr, ?_, ?_, ?_⟩
  · unfold rep
    rw [hr]
    rfl
  · exact List.mem_range.mp (List.mem_of_find?_eq_some hr)
  · have := List.find?_some hr
    simp only [decide_eq_true_eq] at this
    exact (reachD_iff E r i).mp this

theorem rep_congr {n : Nat} {E : List Edge} {i j : Nat} (hi : i < n) (hj : j < n)
    (h : Reach E i j) : rep n E i = rep n E j := by
  obtain ⟨ri, hfi, hri, _, _⟩ := rep_find_eq (E := E) hi
  obtain ⟨rj, hfj, hrj, _, _⟩ := rep_find_eq (E := E) hj
  rw [hri, hrj]
  have hfun : (fun k => decide (reachD E k i)) = (fun k => decide (reachD E k j)) := by
    funext k
    rw [decide_eq_decide, reachD_iff, reachD_iff]
    exact ⟨fun hk => reach_trans hk h, fun hk => reach_trans hk (reach_symm h)⟩
  rw [hfun] at hfi
  rw [hfi] at hfj
  exact Option.some.inj hfj

theorem rep_eq_iff_reach {n : Nat} {E : List Edge} {i j : Nat} (hi : i < n) (hj : j < n) :
    rep n E i = rep n E j ↔ Reach E i j := by
  constructor
  · intro h
    obtain ⟨ri, _, hri, _, hreachi⟩ := rep_find_eq (E := E) hi
    obtain ⟨rj, _, hrj, _, hreachj⟩ := rep_find_eq (E := E) hj
    rw [hri, hrj] at h
    exact reach_trans (reach_symm hreachi) (h ▸ hreachj)
  · exact rep_congr hi hj

theorem rep_lt {n : Nat} {E : List Edge} {i : Nat} (hi : i < n) : rep n E i < n := by
  obtain ⟨r, _, hr, hrlt, _⟩ := rep_find_eq (E := E) hi
  rw [hr]
  exact hrlt

/-- Two functions inducing the same partition of `s` have images of equal
cardinality. -/
theorem card_image_eq_of_same_fibers {s : Finset Nat} {f g : Nat → Nat}
    (h : ∀ i ∈ s, ∀ j ∈ s, f i = f j ↔ g i = g j) :
    (s.image f).card = (s.image g).card := by
  induction s using Finset.induction_on with
  | empty => simp
  | @insert a s hnmem ih =>
    rw [Finset.image_insert, Finset.image_insert]
    have hmemiff : f a ∈ s.image f ↔ g a ∈ s.image g := by
      simp only [Finset.mem_image]
      constructor
      · rintro ⟨j, hj, hfj⟩
        exact ⟨j, hj, ((h j (Finset.mem_insert_of_mem hj) a (Finset.mem_insert_self a s)).mp hfj)⟩
      · rintro ⟨j, hj, hgj⟩
        exact ⟨j, hj, ((h j (Finset.mem_insert_of_mem hj) a (Finset.mem_insert_self a s)).mpr hgj)⟩
    have hih := ih (fun i hi j hj =>
      h i (Finset.mem_insert_of_mem hi) j (Finset.mem_insert_of_mem hj))
    by_cases hmem : f a ∈ s.image f
    · rw [Finset.insert_eq_self.mpr hmem, Finset.insert_eq_self.mpr (hmemiff.mp hmem), hih]
    · rw [Finset.card_insert_of_not_mem hmem,
        Finset.card_insert_of_not_mem (fun hc => hmem (hmemiff.mpr hc)), hih]

theorem ncomp_nil (n : Nat) : ncomp n [] = n := by
  unfold ncomp
  have hrep : ∀ i ∈ Finset.range n, rep n [] i = i := by
    intro i hi
    obtain ⟨r, _, hr, _, hreach⟩ := rep_find_eq (E := ([] : List Edge)) (Finset.mem_range.mp hi)
    rw [hr, reach_nil hreach]
  rw [Finset.image_congr (fun i hi => hrep i hi)]
  simp

/-- Splitting connectivity over one extra edge appended at the end. -/
theorem reach_append_iff (E : List Edge) (e : Edge) (a b : Nat) :
    Reach (E ++ [e]) a b ↔
      Reach E a b ∨ (Reach E a e.1 ∧ Reach E e.2.1 b) ∨ (Reach E a e.2.1 ∧ Reach E e.1 b) := by
  constructor
  · intro h
    induction h using Relation.ReflTransGen.head_induction_on with
    | refl => exact Or.inl (reach_refl b)
    | @head a c hstep hrest ih =>
      obtain ⟨w, hw⟩ := hstep
      have hcase : adjRel E a c ∨ (a = e.1 ∧ c = e.2.1) ∨ (a = e.2.1 ∧ c = e.1) := by
        rcases hw with hw | hw <;> rcases List.mem_append.mp hw with hw | hw
        · exact Or.inl ⟨w, Or.inl hw⟩
        · have h2 := List.mem_singleton.mp hw
          refine Or.inr (Or.inl ⟨?_, ?_⟩)
          · rw [← h2]
          · rw [← h2]
        · exact Or.inl ⟨w, Or.inr hw⟩
        · have h2 := List.mem_singleton.mp hw
          refine Or.inr (Or.inr ⟨?_, ?_⟩)
          · rw [← h2]
          · rw [← h2]
      rcases hcase with hadj | ⟨ha, hc⟩ | ⟨ha, hc⟩
      · rcases ih with h1 | ⟨h1, h2⟩ | ⟨h1, h2⟩
        · exact Or.inl (reach_trans (reach_single hadj) h1)
        · exact Or.inr (Or.inl ⟨reach_trans (reach_single hadj) h1, h2⟩)
        · exact Or.inr (Or.inr ⟨reach_trans (reach_single hadj) h1, h2⟩)
      · subst ha
        subst hc
        rcases ih with h1 | ⟨h1, h2⟩ | ⟨h1, h2⟩
        · exact Or.inr (Or.inl ⟨reach_refl _, h1⟩)
        · exact Or.inl (reach_trans (reach_symm h1) h2)
        · exact Or.inl h2
      · subst ha
        subst hc
        rcases ih with h1 | ⟨h1, h2⟩ | ⟨h1, h2⟩
        · exact Or.inr (Or.inr ⟨reach_refl _, h1⟩)
        · exact Or.inl h2
        · exact Or.inl (reach_trans (reach_symm h1) h2)
  · intro h
    have hsub : ∀ x ∈ E, x ∈ E ++ [e] := fun x hx => List.mem_append.mpr (Or.inl hx)
    have hestep : Reach (E ++ [e]) e.1 e.2.1 := by
      refine reach_single ⟨e.2.2, Or.inl (List.mem_append.mpr (Or.inr ?_))⟩
      simp
    rcases h with h | ⟨h1, h2⟩ | ⟨h1, h2⟩
    · exact reach_mono hsub h
    · exact reach_trans (reach_mono hsub h1) (reach_trans hestep (reach_mono hsub h2))
    · exact reach_trans (reach_mono hsub h1)
        (reach_trans (reach_symm hestep) (reach_mono hsub h2))

theorem ncomp_append_reach {n : Nat} {E : List Edge} {e : Edge}
    (hr : Reach E e.1 e.2.1) : ncomp n (E ++ [e]) = ncomp n E := by
  unfold ncomp
  have hiff : ∀ a b : Nat, Reach (E ++ [e]) a b ↔ Reach E a b := by
    intro a b
    rw [reach_append_iff]
    constructor
    · rintro (h | ⟨h1, h2⟩ | ⟨h1, h2⟩)
      · exact h
      · exact reach_trans h1 (reach_trans hr h2)
      · exact reach_trans h1 (reach_trans (reach_symm hr) h2)
    · exact Or.inl
  have hrep : ∀ i ∈ Finset.range n, rep n (E ++ [e]) i = rep n E i := by
    intro i _
    unfold rep
    have hfun : (fun j => decide (reachD (E ++ [e]) j i)) = (fun j => decide (reachD E j i)) := by
      funext j
      rw [decide_eq_decide, reachD_iff, reachD_iff]
      exact hiff j i
    rw [hfun]
  rw [Finset.image_congr (fun i hi => hrep i hi)]

theorem ncomp_append_not_reach {n : Nat} {E : List Edge} {e : Edge}
    (h1 : e.1 < n) (h2 : e.2.1 < n) (hnr : ¬ Reach E e.1 e.2.1) :
    ncomp n (E ++ [e]) + 1 = ncomp n E := by
  classical
  have hrepne : rep n E e.1 ≠ rep n E e.2.1 :=
    fun hc => hnr ((rep_eq_iff_reach h1 h2).mp hc)
  set g : Nat → Nat :=
    fun i => if rep n E i = rep n E e.2.1 then rep n E e.1 else rep n E i with hg
  have hg_pos : ∀ i, rep n E i = rep n E e.2.1 → g i = rep n E e.1 := by
    intro i hi
    simp only [hg]
    rw [if_pos hi]
  have hg_neg : ∀ i, rep n E i ≠ rep n E e.2.1 → g i = rep n E i := by
    intro i hi
    simp only [hg]
    rw [if_neg hi]
  have hfibers : ∀ i ∈ Finset.range n, ∀ j ∈ Finset.range n,
      rep n (E ++ [e]) i = rep n (E ++ [e]) j ↔ g i = g j := by
    intro i hi j hj
    have hi2 := Finset.mem_range.mp hi
    have hj2 := Finset.mem_range.mp hj
    rw [rep_eq_iff_reach hi2 hj2, reach_append_iff]
    by_cases hiv : rep n E i = rep n E e.2.1 <;> by_cases hjv : rep n E j = rep n E e.2.1
    · rw [hg_pos i hiv, hg_pos j hjv]
      simp only [eq_self_iff_true, iff_true]
      exact Or.inl ((rep_eq_iff_reach hi2 hj2).mp (hiv.trans hjv.symm))
    · rw [hg_pos i hiv, hg_neg j hjv]
      have hiv2 : Reach E i e.2.1 := (rep_eq_iff_reach hi2 h2).mp hiv
      constructor
      · rintro (h | ⟨ha, hb⟩ | ⟨ha, hb⟩)
        · exact absurd ((rep_congr hi2 hj2 h).symm.trans hiv) hjv
        · exact absurd (reach_trans (reach_symm ha) hiv2) hnr
        · exact (rep_eq_iff_reach h1 hj2).mpr hb
      · intro hc
        exact Or.inr (Or.inr ⟨hiv2, (rep_eq_iff_reach h1 hj2).mp hc⟩)
    · rw [hg_neg i hiv, hg_pos j hjv]
      have hjv2 : Reach E j e.2.1 := (rep_eq_iff_reach hj2 h2).mp hjv
      constructor
      · rintro (h | ⟨ha, hb⟩ | ⟨ha, hb⟩)
        · exact absurd ((rep_congr hi2 hj2 h).trans hjv) hiv
        · exact (rep_eq_iff_reach hi2 h1).mpr ha
        · exact absurd ((rep_eq_iff_reach hi2 h2).mpr ha) hiv
      · intro hc
        exact Or.inr (Or.inl ⟨(rep_eq_iff_reach hi2 h1).mp hc, reach_symm hjv2⟩)
    · rw [hg_neg i hiv, hg_neg j hjv]
      rw [rep_eq_iff_reach hi2 hj2]
      constructor
      · rintro (h | ⟨ha, hb⟩ | ⟨ha, hb⟩)
        · exact h
        · exact absurd ((rep_eq_iff_reach hj2 h2).mpr (reach_symm hb)) hjv
        · exact absurd ((rep_eq_iff_reach hi2 h2).mpr ha) hiv
      · exact Or.inl
  unfold ncomp
  rw [card_image_eq_of_same_fibers hfibers]
  have himg : (Finset.range n).image g =
      ((Finset.range n).image (rep n E)).erase (rep n E e.2.1) := by
    ext y
    simp only [Finset.mem_image, Finset.mem_erase]
    constructor
    · rintro ⟨i, hi, rfl⟩
      by_cases hiv : rep n E i = rep n E e.2.1
      · rw [hg_pos i hiv]
        exact ⟨hrepne, ⟨e.1, Finset.mem_range.mpr h1, rfl⟩⟩
      · rw [hg_neg i hiv]
        exact ⟨hiv, ⟨i, hi, rfl⟩⟩
    · rintro ⟨hne, i, hi, rfl⟩
      exact ⟨i, hi, hg_neg i hne⟩
  rw [himg, Finset.card_erase_of_mem
    (Finset.mem_image.mpr ⟨e.2.1, Finset.mem_range.mpr h2, rfl⟩)]
  have hpos : 0 < ((Finset.range n).image (rep n E)).card :=
    Finset.card_pos.mpr ⟨rep n E e.2.1, Finset.mem_image.mpr ⟨e.2.1, Finset.mem_range.mpr h2, rfl⟩⟩
  omega

/-! ### Forests, bridges and counting -/

theorem acyclic_nil : AcyclicL [] := by
  intro l1 e l2 h
  exact absurd (congrArg List.length h) (by simp; omega)

theorem acyclic_append_elim {T : List Edge} {e : Edge} (h : AcyclicL (T ++ [e])) :
    AcyclicL T ∧ ¬ Reach T e.1 e.2.1 := by
  constructor
  · intro l1 f l2 hsplit hreach
    have hsplit2 : T ++ [e] = l1 ++ f :: (l2 ++ [e]) := by
      rw [hsplit]
      simp
    exact h l1 f (l2 ++ [e]) hsplit2
      (reach_mono (by intro x hx; simp at hx ⊢; tauto) hreach)
  · have := h T e [] (by simp)
    rwa [List.append_nil] at this

theorem acyclic_append_intro {T : List Edge} {e : Edge} (hT : AcyclicL T)
    (hnr : ¬ Reach T e.1 e.2.1) : AcyclicL (T ++ [e]) := by
  intro l1 f l2 hsplit
  rcases List.eq_nil_or_concat l2 with rfl | ⟨l2x, x, rfl⟩
  · -- `f` is the appended edge
    obtain ⟨hT2, hfe⟩ := List.append_inj' hsplit rfl
    have hf : e = f := by injection hfe
    subst hf
    rw [← hT2, List.append_nil]
    exact hnr
  · -- `f` lies inside `T`
    rw [List.concat_eq_append] at hsplit
    have hsplit2 : T ++ [e] = (l1 ++ f :: l2x) ++ [x] := by
      rw [hsplit]
      simp
    obtain ⟨hT2, hxe⟩ := List.append_inj' hsplit2 rfl
    have hx : e = x := by injection hxe
    subst hx
    intro hreach
    rw [List.concat_eq_append,
      show l1 ++ (l2x ++ [e]) = (l1 ++ l2x) ++ [e] by rw [List.append_assoc]] at hreach
    have hnof : ¬ Reach (l1 ++ l2x) f.1 f.2.1 := hT l1 f l2x hT2
    have hsubT : ∀ y ∈ l1 ++ l2x, y ∈ T := by
      intro y hy
      rw [hT2]
      simp at hy ⊢
      tauto
    have hfT : f ∈ T := by
      rw [hT2]
      simp
    rcases (reach_append_iff (l1 ++ l2x) e f.1 f.2.1).mp hreach with h1 | ⟨h1, h2⟩ | ⟨h1, h2⟩
    · exact hnof h1
    · apply hnr
      have hx1 : Reach T e.1 f.1 := reach_symm (reach_mono hsubT h1)
      have hx2 : Reach T f.2.1 e.2.1 := reach_symm (reach_mono hsubT h2)
      have hf12 : Reach T f.1 f.2.1 := reach_single ⟨f.2.2, Or.inl hfT⟩
      exact reach_trans hx1 (reach_trans hf12 hx2)
    · apply hnr
      have hx1 : Reach T e.1 f.2.1 := reach_mono hsubT h2
      have hx2 : Reach T f.1 e.2.1 := reach_mono hsubT h1
      have hf21 : Reach T f.2.1 f.1 := reach_single ⟨f.2.2, Or.inr hfT⟩
      exact reach_trans hx1 (reach_trans hf21 hx2)

theorem reach_erase_redundant {l1 l2 : List Edge} {f : Edge}
    (hred : Reach (l1 ++ l2) f.1 f.2.1) {a b : Nat}
    (h : Reach (l1 ++ f :: l2) a b) : Reach (l1 ++ l2) a b := by
  have hmem : ∀ y, y ∈ l1 ++ f :: l2 ↔ y ∈ (l1 ++ l2) ++ [f] := by
    intro y
    simp
    tauto
  have h2 := (reach_congr_mem hmem a b).mp h
  rcases (reach_append_iff (l1 ++ l2) f a b).mp h2 with h3 | ⟨h3, h4⟩ | ⟨h3, h4⟩
  · exact h3
  · exact reach_trans h3 (reach_trans hred h4)
  · exact reach_trans h3 (reach_trans (reach_symm hred) h4)

theorem acyclic_ncomp {n : Nat} :
    ∀ T : List Edge, AcyclicL T → (∀ e ∈ T, e.1 < n ∧ e.2.1 < n) →
      ncomp n T + T.length = n := by
  intro T
  induction T using List.reverseRecOn with
  | nil => intro _ _; simp [ncomp_nil]
  | append_singleton T e ih =>
    intro hacy hwf
    obtain ⟨hT, hnr⟩ := acyclic_append_elim hacy
    have hwfT : ∀ f ∈ T, f.1 < n ∧ f.2.1 < n := fun f hf => hwf f (by simp [hf])
    have hwfe := hwf e (by simp)
    have hdrop := ncomp_append_not_reach (n := n) hwfe.1 hwfe.2 hnr
    have := ih hT hwfT
    simp only [List.length_append, List.length_cons, List.length_nil]
    omega

theorem ncomp_ge {n : Nat} :
    ∀ T : List Edge, (∀ e ∈ T, e.1 < n ∧ e.2.1 < n) → n ≤ ncomp n T + T.length := by
  intro T
  induction T using List.reverseRecOn with
  | nil => intro _; simp [ncomp_nil]
  | append_singleton T e ih =>
    intro hwf
    have hwfT : ∀ f ∈ T, f.1 < n ∧ f.2.1 < n := fun f hf => hwf f (by simp [hf])
    have hwfe := hwf e (by simp)
    have hT := ih hwfT
    simp only [List.length_append, List.length_cons, List.length_nil]
    by_cases hr : Reach T e.1 e.2.1
    · rw [ncomp_append_reach hr]
      omega
    · have := ncomp_append_not_reach (n := n) hwfe.1 hwfe.2 hr
      omega

theorem connected_ncomp_one {n : Nat} {T : List Edge}
    (h : ∀ a < n, ∀ b < n, Reach T a b) (hn : 0 < n) : ncomp n T = 1 := by
  unfold ncomp
  have hrep : ∀ i ∈ Finset.range n, rep n T i = rep n T 0 := by
    intro i hi
    exact rep_congr (Finset.mem_range.mp hi) hn (h i (Finset.mem_range.mp hi) 0 hn)
  rw [Finset.image_congr (fun i hi => hrep i hi)]
  rw [Finset.image_const (Finset.nonempty_range_iff.mpr (by omega))]
  rfl

theorem connected_count_acyclic {n : Nat} {T : List Edge}
    (hconn : ∀ a < n, ∀ b < n, Reach T a b)
    (hwf : ∀ e ∈ T, e.1 < n ∧ e.2.1 < n)
    (hlen : T.length + 1 = n) : AcyclicL T := by
  intro l1 f l2 hsplit hred
  have hlen2 : l1.length + l2.length + 1 = T.length := by
    have := congrArg List.length hsplit
    simp at this
    omega
  have hsub : ∀ y ∈ l1 ++ l2, y ∈ T := by
    intro y hy
    rw [hsplit]
    simp at hy ⊢
    tauto
  have hconn2 : ∀ a < n, ∀ b < n, Reach (l1 ++ l2) a b := by
    intro a ha b hb
    exact reach_erase_redundant hred (hsplit ▸ hconn a ha b hb)
  have hone : ncomp n (l1 ++ l2) = 1 := connected_ncomp_one hconn2 (by omega)
  have hge : n ≤ ncomp n (l1 ++ l2) + (l1 ++ l2).length :=
    ncomp_ge _ (fun e he => hwf e (hsub e he))
  rw [hone] at hge
  simp only [List.length_append] at hge
  omega

/-! ### Unordered-pair distinctness from acyclicity -/

theorem unord_eq_cases {a b c d : Nat} (h : unord (a, b) = unord (c, d)) :
    (a = c ∧ b = d) ∨ (a = d ∧ b = c) := by
  unfold unord at h
  split at h <;> split at h <;> rw [Prod.mk.injEq] at h <;> omega

theorem acyclic_cons_elim {e : Edge} {T : List Edge} (h : AcyclicL (e :: T)) : AcyclicL T := by
  intro l1 f l2 hsplit hreach
  exact h (e :: l1) f l2 (by rw [hsplit]; rfl)
    (reach_mono (by intro y hy; simp at hy ⊢; tauto) hreach)

theorem acyclic_nodup_unord :
    ∀ {T : List Edge}, AcyclicL T → (T.map (fun e => unord (e.1, e.2.1))).Nodup := by
  intro T
  induction T with
  | nil => intro _; simp
  | cons e T ih =>
    intro hacy
    rw [List.map_cons, List.nodup_cons]
    refine ⟨?_, ih (acyclic_cons_elim hacy)⟩
    intro hmem
    obtain ⟨f, hf, hunord⟩ := List.mem_map.mp hmem
    obtain ⟨r1, r2, rfl⟩ := List.append_of_mem hf
    have hsplit : e :: (r1 ++ f :: r2) = (e :: r1) ++ f :: r2 := rfl
    have hnof := hacy (e :: r1) f r2 hsplit
    apply hnof
    apply reach_single
    rcases unord_eq_cases hunord.symm with ⟨h1, h2⟩ | ⟨h1, h2⟩
    · refine ⟨e.2.2, Or.inl ?_⟩
      have : (f.1, f.2.1, e.2.2) = e := by
        rw [← h1, ← h2]
      rw [this]
      simp
    · refine ⟨e.2.2, Or.inr ?_⟩
      have : (f.2.1, f.1, e.2.2) = e := by
        rw [← h1, ← h2]
      rw [this]
      simp


/-! ### Union-find verification -/

/-- One parent-pointer step (out-of-range nodes are their own parent). -/
def ufStep (p : List Nat) (j : Nat) : Nat := p.getD j j

/-- Iterated parent steps. -/
def ufIter (p : List Nat) : Nat → Nat → Nat
  | 0, i => i
  | k + 1, i => ufIter p k (ufStep p i)

/-- A node whose parent pointer is itself. -/
def IsRoot (p : List Nat) (i : Nat) : Prop := ufStep p i = i

/-- The union-find invariant: the parent array has length `n`, points inside
the domain, and every chain eventually reaches a root. -/
structure UFInv (n : Nat) (p : List Nat) : Prop where
  len : p.length = n
  closed : ∀ i < n, ufStep p i < n
  rooted : ∀ i < n, ∃ k, IsRoot p (ufIter p k i)

/-- Canonical root of `i`: the chain stabilizes within `n` steps. -/
def ufRoot (n : Nat) (p : List Nat) (i : Nat) : Nat := ufIter p n i

theorem ufIter_one (p : List Nat) (j : Nat) : ufIter p 1 j = ufStep p j := rfl

theorem ufIter_add (p : List Nat) (a b i : Nat) :
    ufIter p (a + b) i = ufIter p b (ufIter p a i) := by
  induction a generalizing i with
  | zero =>
    rw [Nat.zero_add]
    rfl
  | succ a ih =>
    rw [show a + 1 + b = (a + b) + 1 by omega]
    show ufIter p (a + b) (ufStep p i) = _
    rw [ih]
    rfl

theorem ufIter_root_stable {p : List Nat} {r : Nat} (hr : IsRoot p r) (k : Nat) :
    ufIter p k r = r := by
  induction k with
  | zero => rfl
  | succ k ih =>
    show ufIter p k (ufStep p r) = r
    rw [hr]
    exact ih

theorem ufIter_root_unique {p : List Nat} {i k1 k2 : Nat}
    (h1 : IsRoot p (ufIter p k1 i)) (h2 : IsRoot p (ufIter p k2 i)) :
    ufIter p k1 i = ufIter p k2 i := by
  rcases Nat.le_total k1 k2 with hle | hle
  · have : ufIter p k2 i = ufIter p (k2 - k1) (ufIter p k1 i) := by
      rw [← ufIter_add, show k1 + (k2 - k1) = k2 by omega]
    rw [this, ufIter_root_stable h1]
  · have : ufIter p k1 i = ufIter p (k1 - k2) (ufIter p k2 i) := by
      rw [← ufIter_add, show k2 + (k1 - k2) = k1 by omega]
    rw [this, ufIter_root_stable h2]

theorem ufIter_lt {n : Nat} {p : List Nat} (hInv : UFInv n p) {i : Nat} (hi : i < n) :
    ∀ k, ufIter p k i < n := by
  intro k
  induction k generalizing i with
  | zero => exact hi
  | succ k ih =>
    show ufIter p k (ufStep p i) < n
    exact ih (hInv.closed i hi)

theorem ufStep_large {p : List Nat} {j : Nat} (hj : p.length ≤ j) : ufStep p j = j := by
  unfold ufStep
  rw [List.getD_eq_getElem?_getD, List.getElem?_eq_none (by omega)]
  rfl

theorem ufRoot_large {n : Nat} {p : List Nat} (hlen : p.length = n) {j : Nat} (hj : n ≤ j) :
    ufRoot n p j = j := by
  unfold ufRoot
  have : IsRoot p j := ufStep_large (by omega)
  exact ufIter_root_stable this n

/-- Pigeonhole: once a chain reaches some root, the canonical `n`-step iterate
is that root. -/
theorem ufRoot_isRoot {n : Nat} {p : List Nat} (hInv : UFInv n p) {i : Nat} (hi : i < n)
    (hr : ∃ k, IsRoot p (ufIter p k i)) : IsRoot p (ufRoot n p i) := by
  obtain ⟨k, hk⟩ := hr
  unfold ufRoot
  induction k using Nat.strong_induction_on with
  | _ k ih =>
    rcases Nat.le_total k n with hle | hge
    · have : ufIter p n i = ufIter p (n - k) (ufIter p k i) := by
        rw [← ufIter_add, show k + (n - k) = n by omega]
      rw [this, ufIter_root_stable hk]
      exact hk
    · -- k > n is impossible to need: find a repeat among the first n+1 iterates
      have hmaps : ∀ m ∈ Finset.range (n + 1), ufIter p m i ∈ Finset.range n := by
        intro m _
        exact Finset.mem_range.mpr (ufIter_lt hInv hi m)
      have hcard : (Finset.range n).card < (Finset.range (n + 1)).card := by
        simp
      obtain ⟨a, ha, b, hb, hne, heq⟩ :=
        Finset.exists_ne_map_eq_of_card_lt_of_maps_to hcard hmaps
      have ha2 := Finset.mem_range.mp ha
      have hb2 := Finset.mem_range.mp hb
      have hab : ∃ a b, a < b ∧ b ≤ n ∧ ufIter p a i = ufIter p b i := by
        rcases Nat.lt_or_ge a b with h | h
        · exact ⟨a, b, h, by omega, heq⟩
        · have hba : b < a := by omega
          exact ⟨b, a, hba, by omega, heq.symm⟩
      obtain ⟨a, b, hlt, hble, heq2⟩ := hab
      -- shift the root position down by the period b - a
      have hkb : b ≤ k := by omega
      have hkshift : ufIter p k i = ufIter p (k - (b - a)) i := by
        have h1 : ufIter p k i = ufIter p (k - b) (ufIter p b i) := by
          rw [← ufIter_add, show b + (k - b) = k by omega]
        have h2 : ufIter p (k - (b - a)) i = ufIter p (k - b) (ufIter p a i) := by
          rw [← ufIter_add, show a + (k - b) = k - (b - a) by omega]
        rw [h1, h2, heq2]
      exact ih (k - (b - a)) (by omega) (by rw [← hkshift]; exact hk)

theorem ufRoot_of_isRoot {n : Nat} {p : List Nat} {i : Nat} (h : IsRoot p i) :
    ufRoot n p i = i := ufIter_root_stable h n

theorem ufRoot_eq_of_reaches {n : Nat} {p : List Nat} (hInv : UFInv n p) {i r : Nat}
    (hi : i < n) {k : Nat} (hreach : ufIter p k i = r) (hroot : IsRoot p r) :
    ufRoot n p i = r := by
  have h1 : IsRoot p (ufRoot n p i) := ufRoot_isRoot hInv hi ⟨k, hreach ▸ hroot⟩
  have := @ufIter_root_unique p i n k h1 (hreach ▸ hroot)
  unfold ufRoot
  rw [this, hreach]

theorem ufRoot_step {n : Nat} {p : List Nat} (hInv : UFInv n p) {i : Nat} (hi : i < n)
    (hr : ∃ k, IsRoot p (ufIter p k i)) :
    ufRoot n p (ufStep p i) = ufRoot n p i := by
  have hroot : IsRoot p (ufRoot n p i) := ufRoot_isRoot hInv hi hr
  have h1 : ufIter p (1 + n) i = ufIter p n (ufStep p i) := by
    rw [ufIter_add, ufIter_one]
  have h2 : ufIter p (n + 1) i = ufRoot n p i := by
    rw [ufIter_add]
    exact ufIter_root_stable hroot 1
  have hreach : ufIter p n (ufStep p i) = ufRoot n p i := by
    rw [← h1, show 1 + n = n + 1 by omega, h2]
  exact ufRoot_eq_of_reaches hInv (hInv.closed i hi) hreach hroot

theorem ufStep_set {p : List Nat} {i : Nat} (hi : i < p.length) (r j : Nat) :
    ufStep (p.set i r) j = if j = i then r else ufStep p j := by
  unfold ufStep
  by_cases h : j = i
  · subst h
    rw [if_pos rfl, List.getD_eq_getElem?_getD, List.getElem?_set_self (by omega)]
    rfl
  · rw [if_neg h, List.getD_eq_getElem?_getD, List.getD_eq_getElem?_getD,
      List.getElem?_set_ne (fun hc => h (by omega))]

/-- Setting a node's pointer directly to a root of its own class preserves the
invariant and all canonical roots. -/
theorem uf_set_root {n : Nat} {p : List Nat} (hInv : UFInv n p) {i r : Nat} (hi : i < n)
    (hroot : IsRoot p r) (hr : ufRoot n p i = r) :
    UFInv n (p.set i r) ∧ ∀ j, ufRoot n (p.set i r) j = ufRoot n p j := by
  have hlen : (p.set i r).length = n := by rw [List.length_set]; exact hInv.len
  have hip : i < p.length := by rw [hInv.len]; exact hi
  have hrn : r < n := by
    rw [← hr]
    exact ufIter_lt hInv hi n
  have hstep : ∀ j, ufStep (p.set i r) j = if j = i then r else ufStep p j :=
    ufStep_set hip r
  -- roots of `p` stay roots of the new array
  have hroots : ∀ x, IsRoot p x → x < n → IsRoot (p.set i r) x := by
    intro x hx hxn
    unfold IsRoot
    rw [hstep x]
    by_cases hxi : x = i
    · subst hxi
      rw [if_pos rfl]
      -- i is a root, so its canonical root is itself
      rw [ufRoot_of_isRoot hx] at hr
      rw [hr]
    · rw [if_neg hxi]
      exact hx
  -- every node reaches its old canonical root in the new array
  have hreachnew : ∀ k j, IsRoot p (ufIter p k j) → j < n →
      ∃ k2, ufIter (p.set i r) k2 j = ufRoot n p j := by
    intro k
    induction k using Nat.strong_induction_on with
    | _ k ih =>
      intro j hk hjn
      by_cases hji : j = i
      · refine ⟨1, ?_⟩
        rw [ufIter_one, hstep j, if_pos hji, hji, hr]
      · rcases Nat.eq_zero_or_pos k with rfl | hpos
        · -- j is already a root
          refine ⟨0, ?_⟩
          exact (ufRoot_of_isRoot hk).symm
        · by_cases hjroot : IsRoot p j
          · exact ⟨0, (ufRoot_of_isRoot hjroot).symm⟩
          · obtain ⟨k2, hk2⟩ := ih (k - 1) (by omega) (ufStep p j)
              (by
                have heq : ufIter p k j = ufIter p (k - 1) (ufStep p j) := by
                  conv_lhs => rw [show k = 1 + (k - 1) by omega]
                  rw [ufIter_add, ufIter_one]
                rw [← heq]
                exact hk)
              (hInv.closed j hjn)
            refine ⟨k2 + 1, ?_⟩
            have hstep2 : ufIter (p.set i r) (k2 + 1) j =
                ufIter (p.set i r) k2 (ufStep (p.set i r) j) := by
              conv_lhs => rw [show k2 + 1 = 1 + k2 by omega]
              rw [ufIter_add, ufIter_one]
            rw [hstep2, hstep j, if_neg hji, hk2]
            exact ufRoot_step hInv hjn ⟨k, hk⟩
  -- assemble the invariant
  have hclosed : ∀ j < n, ufStep (p.set i r) j < n := by
    intro j hjn
    rw [hstep j]
    by_cases hji : j = i
    · rw [if_pos hji]
      exact hrn
    · rw [if_neg hji]
      exact hInv.closed j hjn
  have hrootnew : ∀ j < n, ∃ k, IsRoot (p.set i r) (ufIter (p.set i r) k j) := by
    intro j hjn
    obtain ⟨k0, hk0⟩ := hInv.rooted j hjn
    obtain ⟨k2, hk2⟩ := hreachnew k0 j hk0 hjn
    refine ⟨k2, ?_⟩
    rw [hk2]
    exact hroots _ (ufRoot_isRoot hInv hjn (hInv.rooted j hjn)) (ufIter_lt hInv hjn n)
  have hInv2 : UFInv n (p.set i r) := ⟨hlen, hclosed, hrootnew⟩
  refine ⟨hInv2, ?_⟩
  intro j
  rcases Nat.lt_or_ge j n with hjn | hjn
  · obtain ⟨k0, hk0⟩ := hInv.rooted j hjn
    obtain ⟨k2, hk2⟩ := hreachnew k0 j hk0 hjn
    exact ufRoot_eq_of_reaches hInv2 hjn hk2
      (hroots _ (ufRoot_isRoot hInv hjn (hInv.rooted j hjn)) (ufIter_lt hInv hjn n))
  · rw [ufRoot_large hlen hjn, ufRoot_large hInv.len hjn]


/-- Specification of the fuelled `find`: with enough fuel it returns the
canonical root, preserves the invariant, and keeps every canonical root. -/
theorem ufFind_spec {n : Nat} :
    ∀ (fuel : Nat) (p : List Nat) (i : Nat), UFInv n p → i < n →
      (∃ k ≤ fuel, IsRoot p (ufIter p k i)) →
      (ufFind fuel p i).2 = ufRoot n p i ∧ UFInv n (ufFind fuel p i).1 ∧
        ∀ j, ufRoot n (ufFind fuel p i).1 j = ufRoot n p j := by
  intro fuel
  induction fuel with
  | zero =>
    intro p i hInv hi hk
    obtain ⟨k, hk0, hk⟩ := hk
    rw [Nat.le_zero.mp hk0] at hk
    exact ⟨(ufRoot_of_isRoot hk).symm, hInv, fun j => rfl⟩
  | succ fuel ih =>
    intro p i hInv hi hk
    have hunfold : ufFind (fuel + 1) p i =
        if ufStep p i = i then (p, i)
        else ((ufFind fuel p (ufStep p i)).1.set i (ufFind fuel p (ufStep p i)).2,
          (ufFind fuel p (ufStep p i)).2) := rfl
    rw [hunfold]
    by_cases hroot : ufStep p i = i
    · rw [if_pos hroot]
      exact ⟨(ufRoot_of_isRoot hroot).symm, hInv, fun j => rfl⟩
    · rw [if_neg hroot]
      obtain ⟨k, hkle, hk⟩ := hk
      have hkpos : k ≠ 0 := by
        intro hc
        rw [hc] at hk
        exact hroot hk
      have hkstep : IsRoot p (ufIter p (k - 1) (ufStep p i)) := by
        have heq : ufIter p k i = ufIter p (k - 1) (ufStep p i) := by
          conv_lhs => rw [show k = 1 + (k - 1) by omega]
          rw [ufIter_add, ufIter_one]
        rw [← heq]
        exact hk
      have hstepn : ufStep p i < n := hInv.closed i hi
      obtain ⟨hval, hInv1, hroots1⟩ :=
        ih p (ufStep p i) hInv hstepn ⟨k - 1, by omega, hkstep⟩
      have hrootval : ufRoot n p (ufStep p i) = ufRoot n p i :=
        ufRoot_step hInv hi ⟨k, hk⟩
      have hrval : (ufFind fuel p (ufStep p i)).2 = ufRoot n p i := by
        rw [hval, hrootval]
      have hR : IsRoot p (ufRoot n p i) := ufRoot_isRoot hInv hi ⟨k, hk⟩
      have hRn : ufRoot n p i < n := ufIter_lt hInv hi n
      have hR1 : IsRoot (ufFind fuel p (ufStep p i)).1 (ufRoot n p i) := by
        have h1 : ufRoot n (ufFind fuel p (ufStep p i)).1 (ufRoot n p i) = ufRoot n p i := by
          rw [hroots1 (ufRoot n p i)]
          exact ufRoot_of_isRoot hR
        have h2 := ufRoot_isRoot hInv1 hRn (hInv1.rooted _ hRn)
        rw [h1] at h2
        exact h2
      have hRval1 : ufRoot n (ufFind fuel p (ufStep p i)).1 i = ufRoot n p i := hroots1 i
      obtain ⟨hInv2, hroots2⟩ := uf_set_root hInv1 hi
        (show IsRoot (ufFind fuel p (ufStep p i)).1 (ufFind fuel p (ufStep p i)).2 by
          rw [hrval]
          exact hR1)
        (show ufRoot n (ufFind fuel p (ufStep p i)).1 i = (ufFind fuel p (ufStep p i)).2 by
          rw [hrval]
          exact hRval1)
      refine ⟨?_, hInv2, ?_⟩
      · dsimp only
        exact hrval
      · intro j
        dsimp only
        rw [hroots2 j, hroots1 j]

/-- Specification of `find`: fuel `parent.length` always suffices under the
invariant. -/
theorem find_spec {n : Nat} {p : List Nat} {i : Nat} (hInv : UFInv n p) (hi : i < n) :
    (find p i).2 = ufRoot n p i ∧ UFInv n (find p i).1 ∧
      ∀ j, ufRoot n (find p i).1 j = ufRoot n p j := by
  unfold find
  rw [hInv.len]
  exact ufFind_spec n p i hInv hi
    ⟨n, le_refl n, ufRoot_isRoot hInv hi (hInv.rooted i hi)⟩

/-- Linking one root below another merges exactly the two classes. -/
theorem uf_link {n : Nat} {p : List Nat} (hInv : UFInv n p) {a b : Nat}
    (hra : IsRoot p a) (hrb : IsRoot p b) (hab : a ≠ b) (han : a < n) (hbn : b < n) :
    UFInv n (p.set b a) ∧
      ∀ j, ufRoot n (p.set b a) j = if ufRoot n p j = b then a else ufRoot n p j := by
  have hlen : (p.set b a).length = n := by rw [List.length_set]; exact hInv.len
  have hbp : b < p.length := by rw [hInv.len]; exact hbn
  have hstep : ∀ j, ufStep (p.set b a) j = if j = b then a else ufStep p j :=
    ufStep_set hbp a
  have hrootA : IsRoot (p.set b a) a := by
    unfold IsRoot
    rw [hstep a, if_neg hab]
    exact hra
  have hrootskeep : ∀ x, IsRoot p x → x ≠ b → IsRoot (p.set b a) x := by
    intro x hx hxb
    unfold IsRoot
    rw [hstep x, if_neg hxb]
    exact hx
  have hreachnew : ∀ k j, IsRoot p (ufIter p k j) → j < n →
      ∃ k2, ufIter (p.set b a) k2 j = (if ufRoot n p j = b then a else ufRoot n p j) ∧
        IsRoot (p.set b a) (if ufRoot n p j = b then a else ufRoot n p j) := by
    intro k
    induction k using Nat.strong_induction_on with
    | _ k ih =>
      intro j hk hjn
      by_cases hjroot : IsRoot p j
      · have hrj : ufRoot n p j = j := ufRoot_of_isRoot hjroot
        by_cases hjb : j = b
        · refine ⟨1, ?_, ?_⟩
          · rw [ufIter_one, hstep j, if_pos hjb, if_pos (by rw [hrj, hjb])]
          · rw [if_pos (by rw [hrj, hjb])]
            exact hrootA
        · refine ⟨0, ?_, ?_⟩
          · rw [if_neg (by rw [hrj]; exact hjb)]
            exact hrj.symm
          · rw [if_neg (by rw [hrj]; exact hjb)]
            rw [hrj]
            exact hrootskeep j hjroot hjb
      · have hkpos : k ≠ 0 := by
          intro hc
          rw [hc] at hk
          exact hjroot hk
        have hkstep : IsRoot p (ufIter p (k - 1) (ufStep p j)) := by
          have heq : ufIter p k j = ufIter p (k - 1) (ufStep p j) := by
            conv_lhs => rw [show k = 1 + (k - 1) by omega]
            rw [ufIter_add, ufIter_one]
          rw [← heq]
          exact hk
        have hjb : j ≠ b := fun hc => hjroot (by rw [hc]; exact hrb)
        obtain ⟨k2, hk2, hk3⟩ := ih (k - 1) (by omega) (ufStep p j) hkstep (hInv.closed j hjn)
        have hrootstep : ufRoot n p (ufStep p j) = ufRoot n p j :=
          ufRoot_step hInv hjn ⟨k, hk⟩
        rw [hrootstep] at hk2 hk3
        refine ⟨k2 + 1, ?_, hk3⟩
        have hiter : ufIter (p.set b a) (k2 + 1) j =
            ufIter (p.set b a) k2 (ufStep (p.set b a) j) := by
          conv_lhs => rw [show k2 + 1 = 1 + k2 by omega]
          rw [ufIter_add, ufIter_one]
        rw [hiter, hstep j, if_neg hjb, hk2]
  have hclosed : ∀ j < n, ufStep (p.set b a) j < n := by
    intro j hjn
    rw [hstep j]
    by_cases hjb : j = b
    · rw [if_pos hjb]
      exact han
    · rw [if_neg hjb]
      exact hInv.closed j hjn
  have hrooted : ∀ j < n, ∃ k, IsRoot (p.set b a) (ufIter (p.set b a) k j) := by
    intro j hjn
    obtain ⟨k0, hk0⟩ := hInv.rooted j hjn
    obtain ⟨k2, hk2, hk3⟩ := hreachnew k0 j hk0 hjn
    exact ⟨k2, by rw [hk2]; exact hk3⟩
  have hInv2 : UFInv n (p.set b a) := ⟨hlen, hclosed, hrooted⟩
  refine ⟨hInv2, ?_⟩
  intro j
  rcases Nat.lt_or_ge j n with hjn | hjn
  · obtain ⟨k0, hk0⟩ := hInv.rooted j hjn
    obtain ⟨k2, hk2, hk3⟩ := hreachnew k0 j hk0 hjn
    exact ufRoot_eq_of_reaches hInv2 hjn hk2 hk3
  · rw [ufRoot_large hlen hjn, ufRoot_large hInv.len hjn,
      if_neg (show ¬j = b by omega)]

/-- Specification of `union`: the partition either stays the same (equal
roots) or merges exactly the classes of `x` and `y`. -/
theorem union_spec {n : Nat} {p rank : List Nat} {x y : Nat} (hInv : UFInv n p)
    (hx : x < n) (hy : y < n) :
    UFInv n (union p rank x y).1 ∧
      ((ufRoot n p x = ufRoot n p y ∧
          ∀ j, ufRoot n (union p rank x y).1 j = ufRoot n p j) ∨
        (ufRoot n p x ≠ ufRoot n p y ∧
          ∃ t, (t = ufRoot n p x ∨ t = ufRoot n p y) ∧
            ∀ j, ufRoot n (union p rank x y).1 j =
              if ufRoot n p j = ufRoot n p x ∨ ufRoot n p j = ufRoot n p y then t
              else ufRoot n p j)) := by
  obtain ⟨hvx, hInv1, hroots1⟩ := find_spec (p := p) hInv hx
  obtain ⟨hvy, hInv2, hroots2⟩ := find_spec (p := (find p x).1) hInv1 hy
  have hvy2 : (find (find p x).1 y).2 = ufRoot n p y := by
    rw [hvy, hroots1 y]
  unfold union
  dsimp only
  by_cases heq : (find p x).2 = (find (find p x).1 y).2
  · rw [if_pos heq]
    have hxy : ufRoot n p x = ufRoot n p y := by
      rw [← hvx, ← hvy2, heq]
    exact ⟨hInv2, Or.inl ⟨hxy, fun j => by rw [hroots2 j, hroots1 j]⟩⟩
  · rw [if_neg heq]
    have hxy : ufRoot n p x ≠ ufRoot n p y := by
      rw [← hvx, ← hvy2]
      exact heq
    -- the two roots, in the final parent array of the two finds
    have hrxn : ufRoot n p x < n := ufIter_lt hInv hx n
    have hryn : ufRoot n p y < n := ufIter_lt hInv hy n
    have hrootx : IsRoot (find (find p x).1 y).1 (ufRoot n p x) := by
      have h1 : ufRoot n (find (find p x).1 y).1 (ufRoot n p x) = ufRoot n p x := by
        rw [hroots2 _, hroots1 _]
        exact ufRoot_of_isRoot (ufRoot_isRoot hInv hx (hInv.rooted x hx))
      have h2 := ufRoot_isRoot hInv2 hrxn (hInv2.rooted _ hrxn)
      rw [h1] at h2
      exact h2
    have hrooty : IsRoot (find (find p x).1 y).1 (ufRoot n p y) := by
      have h1 : ufRoot n (find (find p x).1 y).1 (ufRoot n p y) = ufRoot n p y := by
        rw [hroots2 _, hroots1 _]
        exact ufRoot_of_isRoot (ufRoot_isRoot hInv hy (hInv.rooted y hy))
      have h2 := ufRoot_isRoot hInv2 hryn (hInv2.rooted _ hryn)
      rw [h1] at h2
      exact h2
    have hroots12 : ∀ j, ufRoot n (find (find p x).1 y).1 j = ufRoot n p j := by
      intro j
      rw [hroots2 j, hroots1 j]
    rw [hvx, hvy2]
    by_cases hrank : rank.getD (ufRoot n p x) 0 < rank.getD (ufRoot n p y) 0
    · rw [if_pos hrank]
      dsimp only
      obtain ⟨hInv3, hroots3⟩ :=
        uf_link hInv2 hrooty hrootx (fun hc => hxy hc.symm) hryn hrxn
      refine ⟨hInv3, Or.inr ⟨hxy, ufRoot n p y, Or.inr rfl, ?_⟩⟩
      intro j
      rw [hroots3 j, hroots12 j]
      by_cases hcase : ufRoot n p j = ufRoot n p x ∨ ufRoot n p j = ufRoot n p y
      · rw [if_pos hcase]
        rcases hcase with hc | hc
        · rw [if_pos hc]
        · rw [if_neg (by rw [hc]; exact fun h2 => hxy h2.symm)]
          exact hc
      · rw [if_neg (show ¬ufRoot n p j = ufRoot n p x by tauto), if_neg hcase]
    · rw [if_neg hrank]
      dsimp only
      obtain ⟨hInv3, hroots3⟩ :=
        uf_link hInv2 hrootx hrooty hxy hrxn hryn
      refine ⟨hInv3, Or.inr ⟨hxy, ufRoot n p x, Or.inl rfl, ?_⟩⟩
      intro j
      rw [hroots3 j, hroots12 j]
      by_cases hcase : ufRoot n p j = ufRoot n p x ∨ ufRoot n p j = ufRoot n p y
      · rw [if_pos hcase]
        rcases hcase with hc | hc
        · rw [if_neg (by rw [hc]; exact hxy)]
          exact hc
        · rw [if_pos hc]
      · rw [if_neg (show ¬ufRoot n p j = ufRoot n p y by tauto), if_neg hcase]


/-! ### Characterization of one Kruskal loop iteration -/

/-- The initial union-find array `parent = list(range(n))` satisfies the
invariant, with every node its own root. -/
theorem ufInv_range (n : Nat) : UFInv n (List.range n) ∧
    ∀ j, ufRoot n (List.range n) j = j := by
  have hstep : ∀ j, ufStep (List.range n) j = j := by
    intro j
    unfold ufStep
    rcases Nat.lt_or_ge j n with hj | hj
    · rw [List.getD_eq_getElem?_getD, List.getElem?_range hj]
      rfl
    · rw [List.getD_eq_getElem?_getD, List.getElem?_eq_none (by simpa using hj)]
      rfl
  have hroot : ∀ j, IsRoot (List.range n) j := fun j => hstep j
  refine ⟨⟨List.length_range n, fun i hi => by rw [hstep]; exact hi,
    fun i _ => ⟨0, hroot i⟩⟩, fun j => ufRoot_of_isRoot (hroot j)⟩

theorem kruskalStep_char {n : Nat} (st : KState) (e : Edge) (hInv : UFInv n st.parent)
    (he1 : e.1 < n) (he2 : e.2.1 < n) :
    UFInv n (kruskalStep st e).parent ∧
      ((ufRoot n st.parent e.1 = ufRoot n st.parent e.2.1 ∧
          (kruskalStep st e).mst_edges = st.mst_edges ∧
          ∀ j, ufRoot n (kruskalStep st e).parent j = ufRoot n st.parent j) ∨
        (ufRoot n st.parent e.1 ≠ ufRoot n st.parent e.2.1 ∧
          (kruskalStep st e).mst_edges = st.mst_edges ++ [e] ∧
          ∃ t, (t = ufRoot n st.parent e.1 ∨ t = ufRoot n st.parent e.2.1) ∧
            ∀ j, ufRoot n (kruskalStep st e).parent j =
              if ufRoot n st.parent j = ufRoot n st.parent e.1 ∨
                  ufRoot n st.parent j = ufRoot n st.parent e.2.1 then t
              else ufRoot n st.parent j)) := by
  obtain ⟨hvx, hInv1, hroots1⟩ := find_spec (p := st.parent) hInv he1
  obtain ⟨hvy, hInv2, hroots2⟩ := find_spec (p := (find st.parent e.1).1) hInv1 he2
  have hvy2 : (find (find st.parent e.1).1 e.2.1).2 = ufRoot n st.parent e.2.1 := by
    rw [hvy, hroots1]
  have hroots12 : ∀ j, ufRoot n (find (find st.parent e.1).1 e.2.1).1 j =
      ufRoot n st.parent j := by
    intro j
    rw [hroots2 j, hroots1 j]
  have hunfold : kruskalStep st e =
      if (find st.parent e.1).2 ≠ (find (find st.parent e.1).1 e.2.1).2 then
        { st with
          parent := (union (find (find st.parent e.1).1 e.2.1).1 st.rank
            (find st.parent e.1).2 (find (find st.parent e.1).1 e.2.1).2).1,
          rank := (union (find (find st.parent e.1).1 e.2.1).1 st.rank
            (find st.parent e.1).2 (find (find st.parent e.1).1 e.2.1).2).2,
          mst_edges := st.mst_edges ++ [e],
          iterations := st.iterations + 1,
          edge_comparisons := st.edge_comparisons + 1 }
      else
        { st with
          parent := (find (find st.parent e.1).1 e.2.1).1,
          iterations := st.iterations + 1,
          edge_comparisons := st.edge_comparisons + 1 } := by
    unfold kruskalStep
    dsimp only
  by_cases hne : (find st.parent e.1).2 = (find (find st.parent e.1).1 e.2.1).2
  · rw [hunfold, if_neg (by simpa using hne)]
    have hreq : ufRoot n st.parent e.1 = ufRoot n st.parent e.2.1 := by
      rw [← hvx, ← hvy2, hne]
    exact ⟨hInv2, Or.inl ⟨hreq, rfl, hroots12⟩⟩
  · rw [hunfold, if_pos (by simpa using hne)]
    have hrneq : ufRoot n st.parent e.1 ≠ ufRoot n st.parent e.2.1 := by
      rw [← hvx, ← hvy2]
      exact hne
    have hx2 : (find st.parent e.1).2 = ufRoot n (find (find st.parent e.1).1 e.2.1).1 e.1 := by
      rw [hroots12, hvx]
    have hy2 : (find (find st.parent e.1).1 e.2.1).2 =
        ufRoot n (find (find st.parent e.1).1 e.2.1).1 e.2.1 := by
      rw [hroots12, hvy2]
    obtain ⟨hInvU, hU⟩ := @union_spec n (find (find st.parent e.1).1 e.2.1).1 st.rank
      (find st.parent e.1).2 (find (find st.parent e.1).1 e.2.1).2 hInv2
      (by rw [hvx]; exact ufIter_lt hInv he1 n)
      (by rw [hvy2]; exact ufIter_lt hInv he2 n)
    -- translate the roots of the two find arguments
    have hrx : ufRoot n (find (find st.parent e.1).1 e.2.1).1 (find st.parent e.1).2 =
        ufRoot n st.parent e.1 := by
      rw [hroots12, hvx]
      exact ufRoot_of_isRoot (ufRoot_isRoot hInv he1 (hInv.rooted _ he1))
    have hry : ufRoot n (find (find st.parent e.1).1 e.2.1).1
          (find (find st.parent e.1).1 e.2.1).2 = ufRoot n st.parent e.2.1 := by
      rw [hroots12, hvy2]
      exact ufRoot_of_isRoot (ufRoot_isRoot hInv he2 (hInv.rooted _ he2))
    rcases hU with ⟨habs, _⟩ | ⟨_, t, ht, hform⟩
    · rw [hrx, hry] at habs
      exact absurd habs hrneq
    · refine ⟨hInvU, Or.inr ⟨hrneq, rfl, t, ?_, ?_⟩⟩
      · rw [hrx, hry] at ht
        exact ht
      · intro j
        have := hform j
        rw [hrx, hry, hroots12 j] at this
        exact this
/-! ### The Kruskal loop invariant -/

/-- Invariant of Kruskal's union-find loop after processing the edges of
`processed`: the union-find partition matches connectivity of the accepted
edges, every processed edge has its endpoints already connected, and the
accepted list is an acyclic sublist of the processed edges. -/
structure KLoopInv (n : Nat) (processed : List Edge) (st : KState) : Prop where
  uf : UFInv n st.parent
  rootiff : ∀ a, a < n → ∀ b, b < n →
    (ufRoot n st.parent a = ufRoot n st.parent b ↔ Reach st.mst_edges a b)
  procReach : ∀ e ∈ processed, Reach st.mst_edges e.1 e.2.1
  mstSub : ∀ e ∈ st.mst_edges, e ∈ processed
  acyc : AcyclicL st.mst_edges
  mstWF : ∀ e ∈ st.mst_edges, e.1 < n ∧ e.2.1 < n

theorem KLoopInv_init (n : Nat) (iters comps : Nat) :
    KLoopInv n [] ⟨List.range n, List.replicate n 0, [], iters, comps⟩ := by
  obtain ⟨hInv, hroots⟩ := ufInv_range n
  refine ⟨hInv, ?_, ?_, ?_, acyclic_nil, ?_⟩
  · intro a _ b _
    dsimp only
    rw [hroots a, hroots b]
    constructor
    · intro h
      rw [h]
      exact reach_refl b
    · intro h
      exact reach_nil h
  · intro e he
    cases he
  · intro e he
    cases he
  · intro e he
    cases he

theorem KLoopInv_step {n : Nat} {processed : List Edge} {st : KState} {e : Edge}
    (he1 : e.1 < n) (he2 : e.2.1 < n) (h : KLoopInv n processed st) :
    KLoopInv n (processed ++ [e]) (kruskalStep st e) := by
  obtain ⟨hufnew, hchar⟩ := kruskalStep_char st e h.uf he1 he2
  rcases hchar with ⟨hreq, hmst, hroots⟩ | ⟨hrne, hmst, t, ht, hroots⟩
  · -- the edge is rejected: endpoints already in the same class
    have hre : Reach st.mst_edges e.1 e.2.1 := (h.rootiff e.1 he1 e.2.1 he2).mp hreq
    refine ⟨hufnew, ?_, ?_, ?_, ?_, ?_⟩ <;> rw [hmst]
    · intro a ha b hb
      rw [hroots a, hroots b]
      exact h.rootiff a ha b hb
    · intro f hf
      rcases List.mem_append.mp hf with hf | hf
      · exact h.procReach f hf
      · rw [List.mem_singleton.mp hf]
        exact hre
    · intro f hf
      exact List.mem_append.mpr (Or.inl (h.mstSub f hf))
    · exact h.acyc
    · exact h.mstWF
  · -- the edge is accepted: the two classes merge
    have hnre : ¬ Reach st.mst_edges e.1 e.2.1 :=
      fun hc => hrne ((h.rootiff e.1 he1 e.2.1 he2).mpr hc)
    have hmem1 : ∀ a, a < n → (ufRoot n st.parent a = ufRoot n st.parent e.1 ↔
        Reach st.mst_edges a e.1) := fun a ha => h.rootiff a ha e.1 he1
    have hmem2 : ∀ a, a < n → (ufRoot n st.parent a = ufRoot n st.parent e.2.1 ↔
        Reach st.mst_edges a e.2.1) := fun a ha => h.rootiff a ha e.2.1 he2
    refine ⟨hufnew, ?_, ?_, ?_, ?_, ?_⟩ <;> rw [hmst]
    · intro a ha b hb
      rw [hroots a, hroots b, reach_append_iff]
      by_cases hca : ufRoot n st.parent a = ufRoot n st.parent e.1 ∨
          ufRoot n st.parent a = ufRoot n st.parent e.2.1
      · by_cases hcb : ufRoot n st.parent b = ufRoot n st.parent e.1 ∨
            ufRoot n st.parent b = ufRoot n st.parent e.2.1
        · rw [if_pos hca, if_pos hcb]
          constructor
          · intro _
            rcases hca with hca | hca <;> rcases hcb with hcb | hcb
            · exact Or.inl (reach_trans ((hmem1 a ha).mp hca)
                (reach_symm ((hmem1 b hb).mp hcb)))
            · exact Or.inr (Or.inl ⟨(hmem1 a ha).mp hca,
                reach_symm ((hmem2 b hb).mp hcb)⟩)
            · exact Or.inr (Or.inr ⟨(hmem2 a ha).mp hca,
                reach_symm ((hmem1 b hb).mp hcb)⟩)
            · exact Or.inl (reach_trans ((hmem2 a ha).mp hca)
                (reach_symm ((hmem2 b hb).mp hcb)))
          · intro _
            rfl
        · rw [if_pos hca, if_neg hcb]
          push_neg at hcb
          constructor
          · intro hL
            exfalso
            rcases ht with ht | ht
            · exact hcb.1 (by rw [← hL, ht])
            · exact hcb.2 (by rw [← hL, ht])
          · rintro (hd | ⟨hd1, hd2⟩ | ⟨hd1, hd2⟩)
            · exfalso
              have hab : ufRoot n st.parent a = ufRoot n st.parent b :=
                (h.rootiff a ha b hb).mpr hd
              rcases hca with hca | hca
              · exact hcb.1 (hab ▸ hca)
              · exact hcb.2 (hab ▸ hca)
            · exact absurd ((hmem2 b hb).mpr (reach_symm hd2)) hcb.2
            · exact absurd ((hmem1 b hb).mpr (reach_symm hd2)) hcb.1
      · by_cases hcb : ufRoot n st.parent b = ufRoot n st.parent e.1 ∨
            ufRoot n st.parent b = ufRoot n st.parent e.2.1
        · rw [if_neg hca, if_pos hcb]
          push_neg at hca
          constructor
          · intro hL
            exfalso
            rcases ht with ht | ht
            · exact hca.1 (by rw [hL, ht])
            · exact hca.2 (by rw [hL, ht])
          · rintro (hd | ⟨hd1, hd2⟩ | ⟨hd1, hd2⟩)
            · exfalso
              have hab : ufRoot n st.parent a = ufRoot n st.parent b :=
                (h.rootiff a ha b hb).mpr hd
              rcases hcb with hcb | hcb
              · exact hca.1 (hab.symm ▸ hcb)
              · exact hca.2 (hab.symm ▸ hcb)
            · exact absurd ((hmem1 a ha).mpr hd1) hca.1
            · exact absurd ((hmem2 a ha).mpr hd1) hca.2
        · rw [if_neg hca, if_neg hcb]
          push_neg at hca
          push_neg at hcb
          rw [h.rootiff a ha b hb]
          constructor
          · exact Or.inl
          · rintro (hd | ⟨hd1, hd2⟩ | ⟨hd1, hd2⟩)
            · exact hd
            · exact absurd ((hmem1 a ha).mpr hd1) hca.1
            · exact absurd ((hmem2 a ha).mpr hd1) hca.2
    · intro f hf
      have hsub : ∀ x ∈ st.mst_edges, x ∈ st.mst_edges ++ [e] :=
        fun x hx => List.mem_append.mpr (Or.inl hx)
      rcases List.mem_append.mp hf with hf | hf
      · exact reach_mono hsub (h.procReach f hf)
      · rw [List.mem_singleton.mp hf]
        refine reach_single ⟨e.2.2, Or.inl ?_⟩
        simp
    · intro f hf
      rcases List.mem_append.mp hf with hf | hf
      · exact List.mem_append.mpr (Or.inl (h.mstSub f hf))
      · exact List.mem_append.mpr (Or.inr hf)
    · exact acyclic_append_intro h.acyc hnre
    · intro f hf
      rcases List.mem_append.mp hf with hf | hf
      · exact h.mstWF f hf
      · rw [List.mem_singleton.mp hf]
        exact ⟨he1, he2⟩

theorem kruskal_fold_inv {n : Nat} :
    ∀ (suf pre : List Edge) (st : KState),
      (∀ e ∈ suf, e.1 < n ∧ e.2.1 < n) → KLoopInv n pre st →
      KLoopInv n (pre ++ suf) (suf.foldl kruskalStep st) := by
  intro suf
  induction suf with
  | nil =>
    intro pre st _ h
    rw [List.append_nil]
    exact h
  | cons e suf ih =>
    intro pre st hwf h
    have he := hwf e (List.mem_cons_self e suf)
    have hstep := KLoopInv_step he.1 he.2 h
    have := ih (pre ++ [e]) (kruskalStep st e)
      (fun f hf => hwf f (List.mem_cons_of_mem e hf)) hstep
    rwa [List.append_assoc, List.singleton_append] at this


/-! ### The adjacency structure built by the constructor -/

theorem getD_modify_append {A : Type} (acc : Array (List A)) (i : Nat) (x : A) (u : Nat)
    (hi : i < acc.size) :
    (acc.modify i (fun l => l ++ [x])).getD u [] =
      if i = u then acc.getD u [] ++ [x] else acc.getD u [] := by
  rw [Array.getD_eq_get?, Array.getD_eq_get?, Array.getElem?_modify]
  by_cases hiu : i = u
  · subst hiu
    rw [if_pos rfl, if_pos rfl]
    rw [show acc[i]? = some acc[i] from Array.getElem?_eq_getElem hi]
    rfl
  · rw [if_neg hiu, if_neg hiu]

theorem buildAdj_size_go :
    ∀ (E : List Edge) (acc : Array (List (Nat × Nat))),
      (E.foldl
        (fun a e =>
          let a1 := a.modify e.1 (fun l => l ++ [(e.2.1, e.2.2)])
          a1.modify e.2.1 (fun l => l ++ [(e.1, e.2.2)])) acc).size = acc.size := by
  intro E
  induction E with
  | nil => intro acc; rfl
  | cons e E ih =>
    intro acc
    rw [List.foldl_cons, ih]
    dsimp only
    rw [Array.size_modify, Array.size_modify]

theorem buildAdj_size (n : Nat) (E : List Edge) : (buildAdj n E).size = n := by
  unfold buildAdj
  rw [buildAdj_size_go]
  simp

theorem mem_buildAdj_go :
    ∀ (E : List Edge) (acc : Array (List (Nat × Nat))) (n : Nat), acc.size = n →
      (∀ e ∈ E, e.1 < n ∧ e.2.1 < n) → ∀ (u : Nat) (vw : Nat × Nat),
      (vw ∈ (E.foldl
        (fun a e =>
          let a1 := a.modify e.1 (fun l => l ++ [(e.2.1, e.2.2)])
          a1.modify e.2.1 (fun l => l ++ [(e.1, e.2.2)])) acc).getD u []) ↔
      vw ∈ acc.getD u [] ∨
        ∃ e ∈ E, (e.1 = u ∧ vw = (e.2.1, e.2.2)) ∨ (e.2.1 = u ∧ vw = (e.1, e.2.2)) := by
  intro E
  induction E with
  | nil =>
    intro acc n _ _ u vw
    simp
  | cons e E ih =>
    intro acc n hsize hwf u vw
    rw [List.foldl_cons]
    dsimp only
    have he := hwf e (List.mem_cons_self e E)
    have hsz1 : (acc.modify e.1 (fun l => l ++ [(e.2.1, e.2.2)])).size = n := by
      rw [Array.size_modify]
      exact hsize
    have hsz2 : ((acc.modify e.1 (fun l => l ++ [(e.2.1, e.2.2)])).modify e.2.1
        (fun l => l ++ [(e.1, e.2.2)])).size = n := by
      rw [Array.size_modify]
      exact hsz1
    rw [ih _ n hsz2 (fun f hf => hwf f (List.mem_cons_of_mem e hf)) u vw]
    rw [getD_modify_append _ _ _ _ (by rw [hsz1]; exact he.2),
      getD_modify_append _ _ _ _ (by rw [hsize]; exact he.1)]
    constructor
    · intro hx
      rcases hx with hx | ⟨f, hf, hc⟩
      · by_cases h2 : e.2.1 = u
        · rw [if_pos h2] at hx
          rcases List.mem_append.mp hx with hx | hx
          · by_cases h1 : e.1 = u
            · rw [if_pos h1] at hx
              rcases List.mem_append.mp hx with hx | hx
              · exact Or.inl hx
              · exact Or.inr ⟨e, List.mem_cons_self e E,
                  Or.inl ⟨h1, List.mem_singleton.mp hx⟩⟩
            · rw [if_neg h1] at hx
              exact Or.inl hx
          · exact Or.inr ⟨e, List.mem_cons_self e E,
              Or.inr ⟨h2, List.mem_singleton.mp hx⟩⟩
        · rw [if_neg h2] at hx
          by_cases h1 : e.1 = u
          · rw [if_pos h1] at hx
            rcases List.mem_append.mp hx with hx | hx
            · exact Or.inl hx
            · exact Or.inr ⟨e, List.mem_cons_self e E,
                Or.inl ⟨h1, List.mem_singleton.mp hx⟩⟩
          · rw [if_neg h1] at hx
            exact Or.inl hx
      · exact Or.inr ⟨f, List.mem_cons_of_mem e hf, hc⟩
    · intro hx
      rcases hx with hx | ⟨f, hf, hc⟩
      · left
        by_cases h2 : e.2.1 = u <;> by_cases h1 : e.1 = u
        · rw [if_pos h2, if_pos h1]
          exact List.mem_append.mpr (Or.inl (List.mem_append.mpr (Or.inl hx)))
        · rw [if_pos h2, if_neg h1]
          exact List.mem_append.mpr (Or.inl hx)
        · rw [if_neg h2, if_pos h1]
          exact List.mem_append.mpr (Or.inl hx)
        · rw [if_neg h2, if_neg h1]
          exact hx
      · rcases List.mem_cons.mp hf with rfl | hf
        · left
          rcases hc with ⟨hc1, hc2⟩ | ⟨hc1, hc2⟩
          · by_cases h2 : f.2.1 = u
            · rw [if_pos h2]
              refine List.mem_append.mpr (Or.inl ?_)
              rw [if_pos hc1]
              exact List.mem_append.mpr (Or.inr (by rw [hc2]; simp))
            · rw [if_neg h2, if_pos hc1]
              exact List.mem_append.mpr (Or.inr (by rw [hc2]; simp))
          · rw [if_pos hc1]
            exact List.mem_append.mpr (Or.inr (by rw [hc2]; simp))
        · exact Or.inr ⟨f, hf, hc⟩

/-- Membership in the adjacency list of `u` corresponds to an edge of the
graph in one of its two orientations. -/
theorem mem_buildAdj {n : Nat} {E : List Edge} (hWF : WFGraph n E) (u : Nat) (vw : Nat × Nat) :
    vw ∈ (buildAdj n E).getD u [] ↔ (u, vw.1, vw.2) ∈ E ∨ (vw.1, u, vw.2) ∈ E := by
  unfold buildAdj
  rw [mem_buildAdj_go E _ n (by simp) (fun e he => hWF e he) u vw]
  have hbase : vw ∈ (Array.mkArray n ([] : List (Nat × Nat))).getD u [] ↔ False := by
    rw [Array.getD_eq_get?]
    rcases Nat.lt_or_ge u n with hu | hu
    · rw [show (Array.mkArray n ([] : List (Nat × Nat)))[u]? = some [] by
        rw [Array.getElem?_eq_getElem (by simpa using hu)]
        simp]
      simp
    · rw [Array.getElem?_ge _ (by simpa using hu)]
      simp
  rw [hbase]
  constructor
  · rintro (hx | ⟨e, he, ⟨h1, h2⟩ | ⟨h1, h2⟩⟩)
    · exact absurd hx id
    · left
      rw [← h1]
      have : (e.1, vw.1, vw.2) = e := by
        rw [h2]
      rw [this]
      exact he
    · right
      rw [← h1]
      have : (vw.1, e.2.1, vw.2) = e := by
        rw [h2]
      rw [this]
      exact he
  · rintro (hx | hx)
    · exact Or.inr ⟨(u, vw.1, vw.2), hx, Or.inl ⟨rfl, rfl⟩⟩
    · exact Or.inr ⟨(vw.1, u, vw.2), hx, Or.inr ⟨rfl, rfl⟩⟩

theorem foldl_len_offset {A : Type} :
    ∀ (l : List (List A)) (acc : Nat),
      l.foldl (fun a x => a + x.length) acc = acc + l.foldl (fun a x => a + x.length) 0 := by
  intro l
  induction l with
  | nil => intro acc; simp
  | cons y l ih =>
    intro acc
    rw [List.foldl_cons, List.foldl_cons, ih (acc + y.length), ih (0 + y.length)]
    omega

theorem len_le_foldl_len {A : Type} :
    ∀ (l : List (List A)) (x : List A), x ∈ l →
      x.length ≤ l.foldl (fun a x2 => a + x2.length) 0 := by
  intro l
  induction l with
  | nil => intro x hx; cases hx
  | cons y l ih =>
    intro x hx
    rw [List.foldl_cons, foldl_len_offset]
    rcases List.mem_cons.mp hx with rfl | hx
    · omega
    · have := ih x hx
      omega

theorem adjLen_le_adjTotal (adj : Array (List (Nat × Nat))) (u : Nat) :
    ((adj.getD u []).length) ≤ adjTotal adj := by
  unfold adjTotal
  rw [Array.foldl_eq_foldl_toList]
  rcases Nat.lt_or_ge u adj.size with hu | hu
  · have hmem : adj.getD u [] ∈ adj.toList := by
      rw [Array.getD_eq_get?, Array.getElem?_eq_getElem hu]
      exact Array.getElem_mem_toList adj hu
    exact len_le_foldl_len adj.toList _ hmem
  · rw [Array.getD_eq_get?, Array.getElem?_ge _ (by simpa using hu)]
    simp


/-! ### Dictionary (`in_heap`) lemmas -/

theorem lookupD_cons (a : Nat × Nat) (m : List (Nat × Nat)) (k : Nat) :
    lookupD (a :: m) k = if a.1 = k then some a.2 else lookupD m k := by
  unfold lookupD
  by_cases h : a.1 = k
  · rw [List.find?_cons_of_pos _ (by simpa using h), if_pos h]
    rfl
  · rw [List.find?_cons_of_neg _ (by simpa using h), if_neg h]

theorem lookupD_mem {m : List (Nat × Nat)} {k c : Nat} (h : lookupD m k = some c) :
    (k, c) ∈ m := by
  unfold lookupD at h
  rcases hf : m.find? (fun kv => kv.1 == k) with _ | kv
  · rw [hf] at h
    cases h
  · rw [hf] at h
    have h1 := List.find?_some hf
    have h2 := List.mem_of_find?_eq_some hf
    simp only [beq_iff_eq] at h1
    have h3 : kv.2 = c := by simpa using h
    rw [← h1, ← h3]
    exact h2

theorem lookupD_eraseD (m : List (Nat × Nat)) (k k2 : Nat) :
    lookupD (eraseD m k) k2 = if k2 = k then none else lookupD m k2 := by
  induction m with
  | nil =>
    unfold eraseD
    rw [List.filter_nil]
    by_cases h : k2 = k
    · rw [if_pos h]
      rfl
    · rw [if_neg h]
  | cons a m ih =>
    unfold eraseD at ih ⊢
    rw [List.filter_cons]
    by_cases ha : a.1 = k
    · rw [if_neg (by simpa using ha), ih, lookupD_cons]
      by_cases h2 : k2 = k
      · simp only [if_pos h2]
      · simp only [if_neg h2,
          if_neg (show ¬a.1 = k2 from fun hc => h2 (hc.symm.trans ha))]
    · rw [if_pos (by simpa using ha), lookupD_cons, lookupD_cons, ih]
      by_cases h2 : a.1 = k2
      · simp only [if_pos h2, if_neg (show ¬k2 = k from fun hc => ha (h2.trans hc))]
      · simp only [if_neg h2]

theorem lookupD_map_replace_ne {k v k2 : Nat} (hne : k2 ≠ k) :
    ∀ m : List (Nat × Nat),
      lookupD (m.map (fun kv => if kv.1 == k then (k, v) else kv)) k2 = lookupD m k2 := by
  intro m
  induction m with
  | nil => rfl
  | cons a m ih =>
    rw [List.map_cons]
    by_cases ha : a.1 = k
    · rw [show (if (a.1 == k) = true then (k, v) else a) = (k, v) by
        rw [if_pos (by simpa using ha)]]
      rw [lookupD_cons, lookupD_cons]
      simp only [if_neg (show ¬(k, v).1 = k2 from fun hc => hne hc.symm),
        if_neg (show ¬a.1 = k2 from fun hc => hne (hc.symm.trans ha))]
      exact ih
    · rw [show (if (a.1 == k) = true then (k, v) else a) = a by
        rw [if_neg (by simpa using ha)]]
      rw [lookupD_cons, lookupD_cons]
      by_cases h2 : a.1 = k2
      · simp only [if_pos h2]
      · simp only [if_neg h2]
        exact ih

theorem lookupD_map_replace_eq {k v c : Nat} :
    ∀ m : List (Nat × Nat), lookupD m k = some c →
      lookupD (m.map (fun kv => if kv.1 == k then (k, v) else kv)) k = some v := by
  intro m
  induction m with
  | nil =>
    intro h
    cases h
  | cons a m ih =>
    intro h
    rw [lookupD_cons] at h
    rw [List.map_cons]
    by_cases ha : a.1 = k
    · rw [show (if (a.1 == k) = true then (k, v) else a) = (k, v) by
        rw [if_pos (by simpa using ha)]]
      rw [lookupD_cons, if_pos rfl]
    · rw [show (if (a.1 == k) = true then (k, v) else a) = a by
        rw [if_neg (by simpa using ha)]]
      rw [lookupD_cons, if_neg ha]
      rw [if_neg ha] at h
      exact ih h

theorem lookupD_append_some {m l2 : List (Nat × Nat)} {k c : Nat}
    (h : lookupD m k = some c) : lookupD (m ++ l2) k = some c := by
  induction m with
  | nil => cases h
  | cons a m ih =>
    rw [lookupD_cons] at h
    rw [List.cons_append, lookupD_cons]
    by_cases ha : a.1 = k
    · rw [if_pos ha]
      rw [if_pos ha] at h
      exact h
    · rw [if_neg ha]
      rw [if_neg ha] at h
      exact ih h

theorem lookupD_append_none {m : List (Nat × Nat)} {k : Nat} (l2 : List (Nat × Nat))
    (h : lookupD m k = none) : lookupD (m ++ l2) k = lookupD l2 k := by
  induction m with
  | nil => rfl
  | cons a m ih =>
    rw [lookupD_cons] at h
    rw [List.cons_append, lookupD_cons]
    by_cases ha : a.1 = k
    · rw [if_pos ha] at h
      cases h
    · rw [if_neg ha]
      rw [if_neg ha] at h
      exact ih h

theorem lookupD_isSome_find {m : List (Nat × Nat)} {k : Nat} :
    (m.find? (fun kv => kv.1 == k)).isSome = true ↔ ∃ c, lookupD m k = some c := by
  constructor
  · intro h
    obtain ⟨kv, hf⟩ := Option.isSome_iff_exists.mp h
    refine ⟨kv.2, ?_⟩
    unfold lookupD
    rw [hf]
    rfl
  · rintro ⟨c, hc⟩
    unfold lookupD at hc
    rcases hf : m.find? (fun kv => kv.1 == k) with _ | kv
    · rw [hf] at hc
      cases hc
    · rw [hf]
      rfl

theorem lookupD_insertD (m : List (Nat × Nat)) (k v k2 : Nat) :
    lookupD (insertD m k v) k2 = if k2 = k then some v else lookupD m k2 := by
  unfold insertD
  by_cases hp : (m.find? (fun kv => kv.1 == k)).isSome = true
  · rw [if_pos hp]
    obtain ⟨c, hc⟩ := lookupD_isSome_find.mp hp
    by_cases h2 : k2 = k
    · rw [if_pos h2, h2]
      exact lookupD_map_replace_eq m hc
    · rw [if_neg h2]
      exact lookupD_map_replace_ne h2 m
  · rw [if_neg hp]
    have hnone : lookupD m k = none := by
      rcases hl : lookupD m k with _ | c
      · rfl
      · exact absurd (lookupD_isSome_find.mpr ⟨c, hl⟩) hp
    by_cases h2 : k2 = k
    · rw [if_pos h2, h2, lookupD_append_none _ hnone, lookupD_cons, if_pos rfl]
    · rw [if_neg h2]
      rcases hl : lookupD m k2 with _ | c
      · rw [lookupD_append_none _ hl, lookupD_cons, if_neg (fun hc => h2 hc.symm)]
        rfl
      · exact lookupD_append_some hl

theorem mem_insertD {m : List (Nat × Nat)} {k v : Nat} {x : Nat × Nat}
    (h : x ∈ insertD m k v) : x = (k, v) ∨ (x ∈ m ∧ x.1 ≠ k) := by
  unfold insertD at h
  split at h
  · obtain ⟨kv, hkv, hx⟩ := List.mem_map.mp h
    by_cases hk : kv.1 = k
    · rw [if_pos (by simpa using hk)] at hx
      exact Or.inl hx.symm
    · rw [if_neg (by simpa using hk)] at hx
      exact Or.inr ⟨hx ▸ hkv, hx ▸ hk⟩
  · rcases List.mem_append.mp h with hx | hx
    · rename_i hp
      refine Or.inr ⟨hx, ?_⟩
      intro hc
      apply hp
      rw [List.find?_isSome]
      exact ⟨x, hx, by simpa using hc⟩
    · exact Or.inl (List.mem_singleton.mp hx)

theorem mem_eraseD {m : List (Nat × Nat)} {k : Nat} {x : Nat × Nat} :
    x ∈ eraseD m k ↔ x ∈ m ∧ x.1 ≠ k := by
  unfold eraseD
  rw [List.mem_filter]
  simp

theorem keys_insertD_nodup {m : List (Nat × Nat)} {k v : Nat}
    (h : (m.map Prod.fst).Nodup) : ((insertD m k v).map Prod.fst).Nodup := by
  unfold insertD
  split
  · have heq : (m.map (fun kv => if kv.1 == k then (k, v) else kv)).map Prod.fst =
        m.map Prod.fst := by
      rw [List.map_map]
      apply List.map_congr_left
      intro kv _
      by_cases hk : kv.1 = k
      · rw [Function.comp_apply, if_pos (by simpa using hk)]
        exact hk.symm
      · rw [Function.comp_apply, if_neg (by simpa using hk)]
    rw [heq]
    exact h
  · rename_i hp
    rw [List.map_append]
    rw [List.nodup_append]
    refine ⟨h, by simp, ?_⟩
    intro a ha hb
    have hak : a = k := by simpa using hb
    apply hp
    rw [List.find?_isSome]
    obtain ⟨kv, hkv, hfst⟩ := List.mem_map.mp ha
    exact ⟨kv, hkv, by simp [hfst, hak]⟩

theorem keys_eraseD_nodup {m : List (Nat × Nat)} {k : Nat}
    (h : (m.map Prod.fst).Nodup) : ((eraseD m k).map Prod.fst).Nodup := by
  unfold eraseD
  exact h.sublist ((List.filter_sublist m).map Prod.fst)

/-! ### Priority-queue lemmas -/

theorem heapLe_total {a b : HeapEntry} (h : heapLe a b = false) : heapLe b a = true := by
  unfold heapLe at *
  simp only [Bool.or_eq_true, Bool.and_eq_true, decide_eq_true_eq, beq_iff_eq,
    Bool.or_eq_false_iff, Bool.and_eq_false_iff, decide_eq_false_iff_not, beq_eq_false_iff_ne] at *
  omega

theorem heapLe_trans {a b c : HeapEntry} (h1 : heapLe a b = true) (h2 : heapLe b c = true) :
    heapLe a c = true := by
  unfold heapLe at *
  simp only [Bool.or_eq_true, Bool.and_eq_true, decide_eq_true_eq, beq_iff_eq] at *
  omega

theorem mem_heapPush {e x : HeapEntry} : ∀ {h : List HeapEntry},
    x ∈ heapPush e h ↔ x = e ∨ x ∈ h := by
  intro h
  induction h with
  | nil =>
    unfold heapPush
    simp
  | cons y h ih =>
    unfold heapPush
    split
    · simp only [List.mem_cons]
    · rw [List.mem_cons, ih, List.mem_cons]
      tauto

theorem heapPush_sorted {e : HeapEntry} :
    ∀ {h : List HeapEntry}, h.Pairwise (fun a b => heapLe a b = true) →
      (heapPush e h).Pairwise (fun a b => heapLe a b = true) := by
  intro h
  induction h with
  | nil =>
    intro _
    exact List.pairwise_singleton _ _
  | cons y h ih =>
    intro hp
    unfold heapPush
    split
    · rename_i hle
      refine List.Pairwise.cons ?_ hp
      intro b hb
      rcases List.mem_cons.mp hb with rfl | hb
      · exact hle
      · exact heapLe_trans hle (List.rel_of_pairwise_cons hp hb)
    · rename_i hle
      have hyle : heapLe y e = true := heapLe_total (by simpa using hle)
      refine List.Pairwise.cons ?_ (ih (List.Pairwise.of_cons hp))
      intro b hb
      rcases mem_heapPush.mp hb with rfl | hb
      · exact hyle
      · exact List.rel_of_pairwise_cons hp hb

theorem heapHead_min {x : HeapEntry} {rest : List HeapEntry}
    (hp : (x :: rest).Pairwise (fun a b => heapLe a b = true)) {y : HeapEntry}
    (hy : y ∈ rest) : heapLe x y = true :=
  List.rel_of_pairwise_cons hp hy


/-! ### Walks with distinct vertices, and the separation lemma -/

theorem reach_iff_chain {L : List Edge} {x y : Nat} :
    Reach L x y ↔ ∃ vs, List.Chain' (adjRel L) (x :: vs) ∧ (x :: vs).getLast? = some y := by
  constructor
  · intro h
    induction h using Relation.ReflTransGen.head_induction_on with
    | refl => exact ⟨[], List.chain'_singleton y, rfl⟩
    | @head a c hstep _ ih =>
      obtain ⟨vs, hchain, hlast⟩ := ih
      exact ⟨c :: vs, List.chain'_cons.mpr ⟨hstep, hchain⟩, by
        rw [List.getLast?_cons_cons]
        exact hlast⟩
  · rintro ⟨vs, hchain, hlast⟩
    induction vs generalizing x with
    | nil =>
      have : x = y := by simpa using hlast
      rw [this]
      exact reach_refl y
    | cons z vs ih =>
      rw [List.chain'_cons] at hchain
      rw [List.getLast?_cons_cons] at hlast
      exact Relation.ReflTransGen.head hchain.1 (ih hchain.2 hlast)

theorem sublist_pair_split {a : Nat} :
    ∀ {l : List Nat}, [a, a].Sublist l → ∃ l1 l2 l3, l = l1 ++ a :: (l2 ++ a :: l3) := by
  intro l
  induction l with
  | nil =>
    intro h
    cases h
  | cons b l ih =>
    intro h
    cases h with
    | cons _ h2 =>
      obtain ⟨l1, l2, l3, rfl⟩ := ih h2
      exact ⟨b :: l1, l2, l3, rfl⟩
    | cons₂ _ h2 =>
      obtain ⟨l2, l3, rfl⟩ := List.append_of_mem (List.singleton_sublist.mp h2)
      exact ⟨[], l2, l3, rfl⟩

theorem chain_dedup {L : List Edge} :
    ∀ (m : Nat) (vs : List Nat), vs.length ≤ m → List.Chain' (adjRel L) vs →
      ∃ vs2, List.Chain' (adjRel L) vs2 ∧ vs2.head? = vs.head? ∧
        vs2.getLast? = vs.getLast? ∧ vs2.Nodup := by
  intro m
  induction m with
  | zero =>
    intro vs hlen hchain
    rw [Nat.le_zero, List.length_eq_zero] at hlen
    exact ⟨vs, hchain, rfl, rfl, by rw [hlen]; exact List.nodup_nil⟩
  | succ m ih =>
    intro vs hlen hchain
    by_cases hnd : vs.Nodup
    · exact ⟨vs, hchain, rfl, rfl, hnd⟩
    · rw [List.nodup_iff_sublist] at hnd
      push_neg at hnd
      obtain ⟨a, hsub⟩ := hnd
      obtain ⟨l1, l2, l3, rfl⟩ := sublist_pair_split hsub
      -- shortcut from the first `a` to the second
      have hc1 : List.Chain' (adjRel L) (l1 ++ [a]) ∧
          List.Chain' (adjRel L) (a :: (l2 ++ a :: l3)) :=
        (@List.chain'_split _ _ a l1 (l2 ++ a :: l3)).mp hchain
      have hc2 : List.Chain' (adjRel L) ((a :: l2) ++ [a]) ∧
          List.Chain' (adjRel L) (a :: l3) := by
        have h2 := hc1.2
        rw [← List.cons_append] at h2
        exact (@List.chain'_split _ _ a (a :: l2) l3).mp h2
      have hshort : List.Chain' (adjRel L) (l1 ++ a :: l3) :=
        (@List.chain'_split _ _ a l1 l3).mpr ⟨hc1.1, hc2.2⟩
      have hlen2 : (l1 ++ a :: l3).length ≤ m := by
        simp only [List.length_append, List.length_cons] at hlen ⊢
        omega
      obtain ⟨vs2, hchain2, hhead2, hlast2, hnd2⟩ := ih (l1 ++ a :: l3) hlen2 hshort
      refine ⟨vs2, hchain2, ?_, ?_, hnd2⟩
      · rw [hhead2]
        rcases l1 with _ | ⟨b, l1⟩
        · rfl
        · rfl
      · rw [hlast2, List.getLast?_append_cons, List.getLast?_append_cons,
          ← List.cons_append, List.getLast?_append_cons]

/-- Lifting a chain that avoids the vertex `x`, an endpoint of `f`, into the
list with one occurrence of `f` removed. -/
theorem chain_avoid {T : List Edge} {f : Edge} {x : Nat}
    (hx : f.1 = x ∨ f.2.1 = x) :
    ∀ {vs : List Nat}, List.Chain' (adjRel T) vs → x ∉ vs →
      List.Chain' (adjRel (T.erase f)) vs := by
  intro vs
  induction vs with
  | nil =>
    intro _ _
    exact List.chain'_nil
  | cons v vs ih =>
    intro hchain hnx
    rcases vs with _ | ⟨w2, vs⟩
    · exact List.chain'_singleton v
    · rw [List.chain'_cons] at hchain
      refine List.chain'_cons.mpr ⟨?_, ih hchain.2 (fun hc => hnx (List.mem_cons_of_mem v hc))⟩
      obtain ⟨wt, hw⟩ := hchain.1
      have hvx : v ≠ x := fun hc => hnx (hc ▸ List.mem_cons_self v _)
      have hwx : w2 ≠ x := fun hc => hnx (List.mem_cons_of_mem v (hc ▸ List.mem_cons_self w2 vs))
      rcases hw with hw | hw
      · refine ⟨wt, Or.inl ?_⟩
        rw [List.mem_erase_of_ne]
        · exact hw
        · intro hc
          rcases hx with hx | hx <;> rw [← hc] at hx
          · exact hvx hx
          · exact hwx hx
      · refine ⟨wt, Or.inr ?_⟩
        rw [List.mem_erase_of_ne]
        · exact hw
        · intro hc
          rcases hx with hx | hx <;> rw [← hc] at hx
          · exact hwx hx
          · exact hvx hx

/-- Separation: a tree chain from inside `S` to outside `S` contains a
crossing edge `f` such that both chain ends stay connected to their own
endpoint of `f` after deleting `f`. -/
theorem sep_crossing {T : List Edge} {S : Nat → Prop} :
    ∀ (m : Nat) (vs : List Nat) (x y : Nat), vs.length ≤ m →
      List.Chain' (adjRel T) (x :: vs) → (x :: vs).getLast? = some y →
      (x :: vs).Nodup → S x → ¬ S y →
      ∃ f ∈ T, ∃ a b : Nat,
        ((a = f.1 ∧ b = f.2.1) ∨ (a = f.2.1 ∧ b = f.1)) ∧ S a ∧ ¬ S b ∧
        Reach (T.erase f) x a ∧ Reach (T.erase f) b y := by
  intro m
  induction m with
  | zero =>
    intro vs x y hlen hchain hlast hnd hSx hSy
    rw [Nat.le_zero, List.length_eq_zero] at hlen
    subst hlen
    have : x = y := by simpa using hlast
    exact absurd (this ▸ hSx) hSy
  | succ m ih =>
    intro vs x y hlen hchain hlast hnd hSx hSy
    rcases vs with _ | ⟨z, vs⟩
    · have : x = y := by simpa using hlast
      exact absurd (this ▸ hSx) hSy
    · rw [List.chain'_cons] at hchain
      rw [List.getLast?_cons_cons] at hlast
      by_cases hSz : S z
      · -- recurse on the tail
        obtain ⟨f, hfT, a, b, hor, hSa, hSb, hxa, hby⟩ :=
          ih vs z y (by simpa using hlen) hchain.2 hlast (List.Nodup.of_cons hnd) hSz hSy
        refine ⟨f, hfT, a, b, hor, hSa, hSb, ?_, hby⟩
        -- prepend the step x–z, whose witness cannot be `f`
        obtain ⟨wt, hw⟩ := hchain.1
        have hbx : b ≠ x ∧ b ≠ z := by
          constructor
          · intro hc
            exact hSb (hc ▸ hSx)
          · intro hc
            exact hSb (hc ▸ hSz)
        have hfne : ∀ g : Edge, (g = (x, z, wt) ∨ g = (z, x, wt)) → g ≠ f := by
          rintro g (rfl | rfl) hc <;> rcases hor with ⟨ha, hb⟩ | ⟨ha, hb⟩ <;>
            rw [← hc] at ha hb <;> dsimp only at ha hb
          · exact hbx.2 hb
          · exact hbx.1 hb
          · exact hbx.1 hb
          · exact hbx.2 hb
        have hstep : adjRel (T.erase f) x z := by
          rcases hw with hw | hw
          · exact ⟨wt, Or.inl ((List.mem_erase_of_ne (hfne _ (Or.inl rfl))).mpr hw)⟩
          · exact ⟨wt, Or.inr ((List.mem_erase_of_ne (hfne _ (Or.inr rfl))).mpr hw)⟩
        exact reach_trans (reach_single hstep) hxa
      · -- the first step crosses: its witness is the separating edge
        obtain ⟨wt, hw⟩ := hchain.1
        have hxz : x ∉ z :: vs := (List.nodup_cons.mp hnd).1
        rcases hw with hw | hw
        · refine ⟨(x, z, wt), hw, x, z, Or.inl ⟨rfl, rfl⟩, hSx, hSz, reach_refl x, ?_⟩
          have hchain2 : List.Chain' (adjRel (T.erase (x, z, wt))) (z :: vs) :=
            chain_avoid (Or.inl rfl) hchain.2 hxz
          exact reach_iff_chain.mpr ⟨vs, hchain2, hlast⟩
        · refine ⟨(z, x, wt), hw, x, z, Or.inr ⟨rfl, rfl⟩, hSx, hSz, reach_refl x, ?_⟩
          have hchain2 : List.Chain' (adjRel (T.erase (z, x, wt))) (z :: vs) :=
            chain_avoid (Or.inr rfl) hchain.2 hxz
          exact reach_iff_chain.mpr ⟨vs, hchain2, hlast⟩

theorem sep {T : List Edge} {S : Nat → Prop} {x y : Nat} (hSx : S x) (hSy : ¬ S y)
    (hreach : Reach T x y) :
    ∃ f ∈ T, ∃ a b : Nat,
      ((a = f.1 ∧ b = f.2.1) ∨ (a = f.2.1 ∧ b = f.1)) ∧ S a ∧ ¬ S b ∧
      Reach (T.erase f) x a ∧ Reach (T.erase f) b y := by
  obtain ⟨vs, hchain, hlast⟩ := reach_iff_chain.mp hreach
  obtain ⟨vs2, hchain2, hhead2, hlast2, hnd2⟩ :=
    chain_dedup (L := T) (x :: vs).length (x :: vs) (le_refl _) hchain
  rcases vs2 with _ | ⟨x2, vs2⟩
  · exact absurd hhead2.symm (by simp)
  · have hx2 : x2 = x := by
      have : some x2 = some x := hhead2
      simpa using this
    subst hx2
    rw [hlast] at hlast2
    exact sep_crossing (x2 :: vs2).length vs2 x2 y (by simp) hchain2 hlast2 hnd2 hSx hSy


/-! ### Main correctness of the Kruskal run -/

theorem mem_sortEdges {E : List Edge} {e : Edge} : e ∈ sortEdges E ↔ e ∈ E :=
  (sortEdges_perm E).mem_iff

theorem ncomp_congr {n : Nat} {E1 E2 : List Edge}
    (h : ∀ a b : Nat, Reach E1 a b ↔ Reach E2 a b) :
    ncomp n E1 = ncomp n E2 := by
  unfold ncomp
  apply card_image_eq_of_same_fibers
  intro i hi j hj
  rw [rep_eq_iff_reach (Finset.mem_range.mp hi) (Finset.mem_range.mp hj),
    rep_eq_iff_reach (Finset.mem_range.mp hi) (Finset.mem_range.mp hj)]
  exact h i j

theorem kruskal_mst_unfold (n : Nat) (E : List Edge) (hn : n ≠ 0) :
    (kruskal_mst (mkEngine n E)).2 =
      (((sortEdges E).foldl kruskalStep
        ⟨List.range n, List.replicate n 0, [],
          0, 0 + (sortEdges E).length * (bitLength (sortEdges E).length - 1)⟩).mst_edges,
        none) := by
  unfold kruskal_mst reset_metrics mkEngine
  dsimp only
  rw [if_neg hn]

theorem kruskal_final_inv {n : Nat} {E : List Edge} (hWF : WFGraph n E) :
    KLoopInv n (sortEdges E)
      ((sortEdges E).foldl kruskalStep
        ⟨List.range n, List.replicate n 0, [],
          0, 0 + (sortEdges E).length * (bitLength (sortEdges E).length - 1)⟩) := by
  have h := kruskal_fold_inv (n := n) (sortEdges E) [] _
    (fun e he => hWF e (mem_sortEdges.mp he))
    (KLoopInv_init n 0 (0 + (sortEdges E).length * (bitLength (sortEdges E).length - 1)))
  rwa [List.nil_append] at h

theorem kruskal_mst_main {n : Nat} {E : List Edge} (hWF : WFGraph n E) (hn : n ≠ 0) :
    (kruskal_mst (mkEngine n E)).2.2 = none ∧
    (∀ e ∈ (kruskal_mst (mkEngine n E)).2.1, e ∈ E) ∧
    AcyclicL (kruskal_mst (mkEngine n E)).2.1 ∧
    (∀ a b : Nat, Reach (kruskal_mst (mkEngine n E)).2.1 a b ↔ Reach E a b) ∧
    (kruskal_mst (mkEngine n E)).2.1.length + ncomp n E = n := by
  have hu := kruskal_mst_unfold n E hn
  have hinv := kruskal_final_inv (E := E) hWF
  set fin := (sortEdges E).foldl kruskalStep
    ⟨List.range n, List.replicate n 0, [],
      0, 0 + (sortEdges E).length * (bitLength (sortEdges E).length - 1)⟩ with hfin
  have hout : (kruskal_mst (mkEngine n E)).2.1 = fin.mst_edges := by
    rw [hu]
  have herr : (kruskal_mst (mkEngine n E)).2.2 = none := by
    rw [hu]
  have hmem : ∀ e ∈ fin.mst_edges, e ∈ E :=
    fun e he => mem_sortEdges.mp (hinv.mstSub e he)
  have hiff : ∀ a b : Nat, Reach fin.mst_edges a b ↔ Reach E a b := by
    intro a b
    constructor
    · exact reach_mono hmem
    · intro h
      induction h using Relation.ReflTransGen.head_induction_on with
      | refl => exact reach_refl b
      | @head a c hstep _ ih =>
        obtain ⟨w, hw⟩ := hstep
        rcases hw with hw | hw
        · exact reach_trans (hinv.procReach (a, c, w) (mem_sortEdges.mpr hw)) ih
        · exact reach_trans (reach_symm (hinv.procReach (c, a, w) (mem_sortEdges.mpr hw))) ih
  have hcnt : ncomp n fin.mst_edges + fin.mst_edges.length = n :=
    acyclic_ncomp fin.mst_edges hinv.acyc hinv.mstWF
  have hceq : ncomp n fin.mst_edges = ncomp n E := ncomp_congr hiff
  refine ⟨herr, ?_, ?_, ?_, ?_⟩
  · rw [hout]
    exact hmem
  · rw [hout]
    exact hinv.acyc
  · rw [hout]
    exact hiff
  · rw [hout]
    omega
/-! ### The exchange theorem and existence of minimum spanning trees -/

theorem edgeIn_wf {n : Nat} {E : List Edge} (hWF : WFGraph n E) {e : Edge}
    (he : edgeIn E e) : e.1 < n ∧ e.2.1 < n := by
  rcases he with he | he
  · exact hWF e he
  · have := hWF _ he
    exact ⟨this.2, this.1⟩

theorem mem_erase_append {B : List Edge} {f : Edge} :
    ∀ x ∈ B, x ∈ B.erase f ++ [f] := by
  intro x hx
  by_cases hxf : x = f
  · subst hxf
    simp
  · exact List.mem_append.mpr (Or.inl ((List.mem_erase_of_ne hxf).mpr hx))

theorem weightL_perm {l l' : List Edge} (h : l.Perm l') : weightL l = weightL l' := by
  unfold weightL
  exact (h.map (fun e => e.2.2)).sum_eq

theorem weightL_append (l1 l2 : List Edge) :
    weightL (l1 ++ l2) = weightL l1 + weightL l2 := by
  unfold weightL
  rw [List.map_append, List.sum_append]

theorem weightL_cons (b : Edge) (l : List Edge) :
    weightL (b :: l) = b.2.2 + weightL l := by
  unfold weightL
  rw [List.map_cons, List.sum_cons]

theorem weightL_erase {B : List Edge} {f : Edge} (hf : f ∈ B) :
    weightL B = f.2.2 + weightL (B.erase f) := by
  induction B with
  | nil => cases hf
  | cons b B ih =>
    by_cases hbf : b = f
    · subst hbf
      rw [List.erase_cons_head, weightL_cons]
    · rw [List.erase_cons_tail (by simpa using hbf), weightL_cons, weightL_cons,
        ih (by rcases List.mem_cons.mp hf with h | h; exact absurd h.symm hbf; exact h)]
      omega

/-- Exchange: given an MST `B`, a set of accepted edges `F ⊆ B` none of which
crosses the cut `S`, and a minimum-weight crossing edge `(x, y, w)` of the
graph, some MST contains all of `F` together with `(x, y, w)`. -/
theorem mst_exchange {n : Nat} {E B F : List Edge} {S : Nat → Prop}
    (hWF : WFGraph n E) (hB : IsMST n E B) (hFB : ∀ e ∈ F, e ∈ B)
    (hFS : ∀ e ∈ F, (S e.1 ↔ S e.2.1))
    {x y w : Nat} (hgE : edgeIn E (x, y, w)) (hSx : S x) (hSy : ¬ S y)
    (hmin : ∀ g : Edge, edgeIn E g →
      ((S g.1 ∧ ¬ S g.2.1) ∨ (S g.2.1 ∧ ¬ S g.1)) → w ≤ g.2.2) :
    ∃ B2, IsMST n E B2 ∧ (∀ e ∈ F, e ∈ B2) ∧ (x, y, w) ∈ B2 := by
  have hxy := edgeIn_wf hWF hgE
  have hxn : x < n := hxy.1
  have hyn : y < n := hxy.2
  have hn : 0 < n := Nat.lt_of_le_of_lt (Nat.zero_le x) hxn
  by_cases hxyB : (x, y, w) ∈ B
  · exact ⟨B, hB, hFB, hxyB⟩
  obtain ⟨⟨hBE, hBconn, hBacy⟩, hBmin⟩ := hB
  have hwfB : ∀ e ∈ B, e.1 < n ∧ e.2.1 < n := fun e he => edgeIn_wf hWF (hBE e he)
  -- separate along the cut
  obtain ⟨f, hfB, a, b, hor, hSa, hSb, hxa, hby⟩ :=
    sep (T := B) (S := S) hSx hSy (hBconn x hxn y hyn)
  refine ⟨B.erase f ++ [(x, y, w)], ⟨⟨?_, ?_, ?_⟩, ?_⟩, ?_, by simp⟩
  · -- edges come from the graph
    intro e he
    rcases List.mem_append.mp he with he | he
    · exact hBE e (List.mem_of_mem_erase he)
    · rw [List.mem_singleton.mp he]
      exact hgE
  · -- spanning
    have hsub2 : ∀ g ∈ B.erase f, g ∈ B.erase f ++ [(x, y, w)] := by
      intro g hg
      exact List.mem_append.mpr (Or.inl hg)
    have hreach_any : ∀ z < n, Reach (B.erase f) z a ∨ Reach (B.erase f) z b := by
      intro z hz
      have hza : Reach (B.erase f ++ [f]) z a :=
        reach_mono mem_erase_append (hBconn z hz a (by
          rcases hor with ⟨ha, _⟩ | ⟨ha, _⟩
          · exact ha ▸ (hwfB f hfB).1
          · exact ha ▸ (hwfB f hfB).2))
      rcases (reach_append_iff (B.erase f) f z a).mp hza with h1 | ⟨h1, _⟩ | ⟨h1, _⟩
      · exact Or.inl h1
      · rcases hor with ⟨ha, hb⟩ | ⟨ha, hb⟩
        · exact Or.inl (ha ▸ h1)
        · exact Or.inr (hb ▸ h1)
      · rcases hor with ⟨ha, hb⟩ | ⟨ha, hb⟩
        · exact Or.inr (hb ▸ h1)
        · exact Or.inl (ha ▸ h1)
    have hab : Reach (B.erase f ++ [(x, y, w)]) a b := by
      have h1 : Reach (B.erase f ++ [(x, y, w)]) a x := reach_symm (reach_mono hsub2 hxa)
      have h2 : Reach (B.erase f ++ [(x, y, w)]) x y :=
        reach_single ⟨w, Or.inl (by simp)⟩
      have h3 : Reach (B.erase f ++ [(x, y, w)]) y b := reach_symm (reach_mono hsub2 hby)
      exact reach_trans h1 (reach_trans h2 h3)
    have hto_a : ∀ z < n, Reach (B.erase f ++ [(x, y, w)]) z a := by
      intro z hz
      rcases hreach_any z hz with h | h
      · exact reach_mono hsub2 h
      · exact reach_trans (reach_mono hsub2 h) (reach_symm hab)
    intro p hp q hq
    exact reach_trans (hto_a p hp) (reach_symm (hto_a q hq))
  · -- acyclic, by the counting characterization
    have hcount : ncomp n B + B.length = n := acyclic_ncomp B hBacy hwfB
    have hone : ncomp n B = 1 := connected_ncomp_one hBconn hn
    have hlenB : B.length + 1 = n := by omega
    have hlen2 : (B.erase f ++ [(x, y, w)]).length + 1 = n := by
      have hpos : 0 < B.length := List.length_pos_of_mem hfB
      rw [List.length_append, List.length_erase_of_mem hfB]
      simp only [List.length_singleton]
      omega
    refine connected_count_acyclic ?_ ?_ hlen2
    · -- re-derive connectivity (same argument as above)
      have hsub2 : ∀ g ∈ B.erase f, g ∈ B.erase f ++ [(x, y, w)] := by
        intro g hg
        exact List.mem_append.mpr (Or.inl hg)
      have hreach_any : ∀ z < n, Reach (B.erase f) z a ∨ Reach (B.erase f) z b := by
        intro z hz
        have hza : Reach (B.erase f ++ [f]) z a :=
          reach_mono mem_erase_append (hBconn z hz a (by
            rcases hor with ⟨ha, _⟩ | ⟨ha, _⟩
            · exact ha ▸ (hwfB f hfB).1
            · exact ha ▸ (hwfB f hfB).2))
        rcases (reach_append_iff (B.erase f) f z a).mp hza with h1 | ⟨h1, _⟩ | ⟨h1, _⟩
        · exact Or.inl h1
        · rcases hor with ⟨ha, hb⟩ | ⟨ha, hb⟩
          · exact Or.inl (ha ▸ h1)
          · exact Or.inr (hb ▸ h1)
        · rcases hor with ⟨ha, hb⟩ | ⟨ha, hb⟩
          · exact Or.inr (hb ▸ h1)
          · exact Or.inl (ha ▸ h1)
      have hab : Reach (B.erase f ++ [(x, y, w)]) a b := by
        have h1 : Reach (B.erase f ++ [(x, y, w)]) a x := reach_symm (reach_mono hsub2 hxa)
        have h2 : Reach (B.erase f ++ [(x, y, w)]) x y :=
          reach_single ⟨w, Or.inl (by simp)⟩
        have h3 : Reach (B.erase f ++ [(x, y, w)]) y b := reach_symm (reach_mono hsub2 hby)
        exact reach_trans h1 (reach_trans h2 h3)
      have hto_a : ∀ z < n, Reach (B.erase f ++ [(x, y, w)]) z a := by
        intro z hz
        rcases hreach_any z hz with h | h
        · exact reach_mono hsub2 h
        · exact reach_trans (reach_mono hsub2 h) (reach_symm hab)
      intro p hp q hq
      exact reach_trans (hto_a p hp) (reach_symm (hto_a q hq))
    · intro e he
      rcases List.mem_append.mp he with he | he
      · exact hwfB e (List.mem_of_mem_erase he)
      · rw [List.mem_singleton.mp he]
        exact ⟨hxn, hyn⟩
  · -- minimality
    intro T hT
    have hwle : w ≤ f.2.2 := by
      refine hmin f (hBE f hfB) ?_
      rcases hor with ⟨ha, hb⟩ | ⟨ha, hb⟩
      · exact Or.inl ⟨ha ▸ hSa, hb ▸ hSb⟩
      · exact Or.inr ⟨ha ▸ hSa, hb ▸ hSb⟩
    have h1 : weightL (B.erase f ++ [(x, y, w)]) = weightL (B.erase f) + w := by
      rw [weightL_append]
      unfold weightL
      simp
    have h2 : weightL B = f.2.2 + weightL (B.erase f) := weightL_erase hfB
    have h3 : weightL B ≤ weightL T := hBmin T hT
    omega
  · -- the accepted edges survive
    intro e he
    refine List.mem_append.mpr (Or.inl ((List.mem_erase_of_ne ?_).mpr (hFB e he)))
    intro hef
    have hiff := hFS e he
    rw [hef] at hiff
    rcases hor with ⟨ha, hb⟩ | ⟨ha, hb⟩
    · exact (hb ▸ hSb) (hiff.mp (ha ▸ hSa))
    · exact (hb ▸ hSb) (hiff.mpr (ha ▸ hSa))

theorem exists_spanning_tree {n : Nat} {E : List Edge} (hWF : WFGraph n E) (hn : n ≠ 0)
    (hconn : Connected n E) : ∃ T, IsSpanningTree n E T := by
  obtain ⟨_, hmem, hacy, hiff, _⟩ := kruskal_mst_main hWF hn
  refine ⟨(kruskal_mst (mkEngine n E)).2.1, fun e he => Or.inl (hmem e he), ?_, hacy⟩
  intro a ha b hb
  exact (hiff a b).mpr (hconn a ha b hb)

theorem exists_mst {n : Nat} {E : List Edge} (hWF : WFGraph n E) (hn : n ≠ 0)
    (hconn : Connected n E) : ∃ B, IsMST n E B := by
  classical
  obtain ⟨T0, hT0⟩ := exists_spanning_tree hWF hn hconn
  have hex : ∃ m, ∃ T, IsSpanningTree n E T ∧ weightL T = m := ⟨weightL T0, T0, hT0, rfl⟩
  obtain ⟨B, hB, hw⟩ := Nat.find_spec hex
  refine ⟨B, hB, ?_⟩
  intro T hT
  have h2 := Nat.find_min' hex (m := weightL T) ⟨T, hT, rfl⟩
  omega


/-! ### Kruskal's output is a minimum spanning tree -/

theorem reach_mem_self {T : List Edge} {f : Edge} (hf : f ∈ T) : Reach T f.1 f.2.1 :=
  reach_single ⟨f.2.2, Or.inl (by rwa [show (f.1, f.2.1, f.2.2) = f from rfl])⟩

/-- Along the union-find loop, the accepted edges always extend to some
minimum spanning tree. -/
theorem kruskal_promo_fold {n : Nat} {E : List Edge} (hWF : WFGraph n E) :
    ∀ (suf pre : List Edge) (st : KState),
      sortEdges E = pre ++ suf → KLoopInv n pre st →
      (∃ B, IsMST n E B ∧ ∀ f ∈ st.mst_edges, f ∈ B) →
      ∃ B, IsMST n E B ∧ ∀ f ∈ (suf.foldl kruskalStep st).mst_edges, f ∈ B := by
  intro suf
  induction suf with
  | nil =>
    intro pre st _ _ hpromo
    exact hpromo
  | cons e suf ih =>
    intro pre st hsplit hinv hpromo
    have heE : e ∈ E := mem_sortEdges.mp (hsplit ▸ (by simp : e ∈ pre ++ e :: suf))
    have he1 : e.1 < n := (hWF e heE).1
    have he2 : e.2.1 < n := (hWF e heE).2
    have hinv2 : KLoopInv n (pre ++ [e]) (kruskalStep st e) := KLoopInv_step he1 he2 hinv
    have hsplit2 : sortEdges E = (pre ++ [e]) ++ suf := by
      rw [hsplit, List.append_assoc, List.singleton_append]
    have hpromo2 : ∃ B, IsMST n E B ∧ ∀ f ∈ (kruskalStep st e).mst_edges, f ∈ B := by
      obtain ⟨hufnew, hchar⟩ := kruskalStep_char st e hinv.uf he1 he2
      rcases hchar with ⟨_, hmst, _⟩ | ⟨hrne, hmst, _, _, _⟩
      · rw [hmst]
        exact hpromo
      · -- accepted: exchange along the cut of e.1's current component
        have hnre : ¬ Reach st.mst_edges e.1 e.2.1 :=
          fun hc => hrne ((hinv.rootiff e.1 he1 e.2.1 he2).mpr hc)
        obtain ⟨B, hB, hFB⟩ := hpromo
        have hFS : ∀ f ∈ st.mst_edges,
            (Reach st.mst_edges e.1 f.1 ↔ Reach st.mst_edges e.1 f.2.1) := by
          intro f hf
          have hr := reach_mem_self hf
          exact ⟨fun h => reach_trans h hr, fun h => reach_trans h (reach_symm hr)⟩
        have hgE : edgeIn E (e.1, e.2.1, e.2.2) := Or.inl (by
          rwa [show (e.1, e.2.1, e.2.2) = e from rfl])
        have hmin : ∀ g : Edge, edgeIn E g →
            ((Reach st.mst_edges e.1 g.1 ∧ ¬ Reach st.mst_edges e.1 g.2.1) ∨
             (Reach st.mst_edges e.1 g.2.1 ∧ ¬ Reach st.mst_edges e.1 g.1)) →
            e.2.2 ≤ g.2.2 := by
          intro g hgIn hcross
          -- a representative triple of `g` in the edge list, with the same weight
          have hrep : ∃ g2 ∈ sortEdges E, g2.2.2 = g.2.2 ∧
              ((g2.1 = g.1 ∧ g2.2.1 = g.2.1) ∨ (g2.1 = g.2.1 ∧ g2.2.1 = g.1)) := by
            rcases hgIn with hg | hg
            · exact ⟨g, mem_sortEdges.mpr hg, rfl, Or.inl ⟨rfl, rfl⟩⟩
            · exact ⟨(g.2.1, g.1, g.2.2), mem_sortEdges.mpr hg, rfl, Or.inr ⟨rfl, rfl⟩⟩
          obtain ⟨g2, hg2mem, hg2w, hg2or⟩ := hrep
          rw [hsplit] at hg2mem
          rcases List.mem_append.mp hg2mem with hg2pre | hg2tail
          · -- processed already: endpoints of `g` are connected, contradicting the cut
            exfalso
            have hr2 : Reach st.mst_edges g2.1 g2.2.1 := hinv.procReach g2 hg2pre
            have hrg : Reach st.mst_edges g.1 g.2.1 := by
              rcases hg2or with ⟨ha, hb⟩ | ⟨ha, hb⟩
              · exact ha ▸ hb ▸ hr2
              · exact reach_symm (ha ▸ hb ▸ hr2)
            rcases hcross with ⟨h1, h2⟩ | ⟨h1, h2⟩
            · exact h2 (reach_trans h1 hrg)
            · exact h2 (reach_trans h1 (reach_symm hrg))
          · -- not yet processed: the sort order bounds its weight from below
            rcases List.mem_cons.mp hg2tail with rfl | hg2suf
            · rw [hg2w]
            · rw [← hg2w]
              have hsorted := sortEdges_sorted E
              rw [hsplit] at hsorted
              have h2 := (List.pairwise_append.mp hsorted).2.1
              exact (List.pairwise_cons.mp h2).1 g2 hg2suf
        obtain ⟨B2, hB2, hFB2, heB2⟩ :=
          mst_exchange (S := fun z => Reach st.mst_edges e.1 z) hWF hB hFB hFS hgE
            (reach_refl e.1) hnre hmin
        refine ⟨B2, hB2, ?_⟩
        rw [hmst]
        intro f hf
        rcases List.mem_append.mp hf with hf | hf
        · exact hFB2 f hf
        · rw [List.mem_singleton.mp hf]
          rwa [show (e.1, e.2.1, e.2.2) = e from rfl] at heB2
    exact ih (pre ++ [e]) (kruskalStep st e) hsplit2 hinv2 hpromo2

theorem kruskal_promo {n : Nat} {E : List Edge} (hWF : WFGraph n E) (hn : n ≠ 0)
    (hconn : Connected n E) :
    ∃ B, IsMST n E B ∧ ∀ f ∈ (kruskal_mst (mkEngine n E)).2.1, f ∈ B := by
  have hu := kruskal_mst_unfold n E hn
  have hout : (kruskal_mst (mkEngine n E)).2.1 =
      ((sortEdges E).foldl kruskalStep
        ⟨List.range n, List.replicate n 0, [],
          0, 0 + (sortEdges E).length * (bitLength (sortEdges E).length - 1)⟩).mst_edges := by
    rw [hu]
  rw [hout]
  obtain ⟨B0, hB0⟩ := exists_mst hWF hn hconn
  exact kruskal_promo_fold hWF (sortEdges E) [] _ rfl
    (KLoopInv_init n 0 (0 + (sortEdges E).length * (bitLength (sortEdges E).length - 1)))
    ⟨B0, hB0, by intro f hf; cases hf⟩

/-- A spanning tree of a connected graph that is contained (as a list of
oriented triples) in a minimum spanning tree is itself one of minimum weight. -/
theorem spanning_subset_mst {n : Nat} {E T B : List Edge} (hWF : WFGraph n E) (hn : n ≠ 0)
    (hT : IsSpanningTree n E T) (hB : IsMST n E B) (hsub : ∀ f ∈ T, f ∈ B) :
    weightL T = weightL B := by
  have hnpos : 0 < n := Nat.pos_of_ne_zero hn
  have hwfT : ∀ e ∈ T, e.1 < n ∧ e.2.1 < n := fun e he => edgeIn_wf hWF (hT.1 e he)
  have hwfB : ∀ e ∈ B, e.1 < n ∧ e.2.1 < n := fun e he => edgeIn_wf hWF (hB.1.1 e he)
  have hlenT : T.length + 1 = n := by
    have h1 := acyclic_ncomp T hT.2.2 hwfT
    have h2 := connected_ncomp_one hT.2.1 hnpos
    omega
  have hlenB : B.length + 1 = n := by
    have h1 := acyclic_ncomp B hB.1.2.2 hwfB
    have h2 := connected_ncomp_one hB.1.2.1 hnpos
    omega
  have hndT : T.Nodup := List.Nodup.of_map _ (acyclic_nodup_unord hT.2.2)
  have hperm : T.Perm B :=
    List.Subperm.perm_of_length_le (List.Nodup.subperm hndT hsub) (by omega)
  exact weightL_perm hperm

theorem kruskal_is_mst {n : Nat} {E : List Edge} (hWF : WFGraph n E) (hn : n ≠ 0)
    (hconn : Connected n E) :
    IsMST n E (kruskal_mst (mkEngine n E)).2.1 := by
  obtain ⟨_, hmem, hacy, hiff, _⟩ := kruskal_mst_main hWF hn
  have hspan : IsSpanningTree n E (kruskal_mst (mkEngine n E)).2.1 := by
    refine ⟨fun e he => Or.inl (hmem e he), ?_, hacy⟩
    intro a ha b hb
    exact (hiff a b).mpr (hconn a ha b hb)
  obtain ⟨B, hB, hsub⟩ := kruskal_promo hWF hn hconn
  have hw := spanning_subset_mst hWF hn hspan hB hsub
  refine ⟨hspan, ?_⟩
  intro T2 hT2
  rw [hw]
  exact hB.2 T2 hT2


/-! ### The loop invariant of `prim_mst` -/

theorem reach_endpoint {L : List Edge} {a b : Nat} (h : Reach L a b) :
    a = b ∨ ∃ e ∈ L, b = e.1 ∨ b = e.2.1 := by
  induction h with
  | refl => exact Or.inl rfl
  | @tail m c h1 h2 ih =>
    obtain ⟨w, hw⟩ := h2
    rcases hw with hw | hw
    · exact Or.inr ⟨(m, c, w), hw, Or.inr rfl⟩
    · exact Or.inr ⟨(c, m, w), hw, Or.inl rfl⟩

/-- The part of the `prim_mst` loop invariant that the relaxation loop keeps
intact (everything except the cut-coverage property `hcut`, which relaxation
is in the course of re-establishing). -/
structure PrimBase (n : Nat) (E : List Edge) (st : PState) : Prop where
  hzero : 0 ∈ st.visited
  hvis : ∀ v ∈ st.visited, v < n ∧ Reach E 0 v
  hsorted : st.heap.Pairwise (fun a b => heapLe a b = true)
  hkeys : (st.in_heap.map Prod.fst).Nodup
  hinvis : ∀ kv ∈ st.in_heap, kv.1 ∉ st.visited
  hbind : ∀ kv ∈ st.in_heap, ∃ p, (kv.2, kv.1, some p) ∈ st.heap ∧ p ∈ st.visited ∧
    ((p, kv.1, kv.2) ∈ E ∨ (kv.1, p, kv.2) ∈ E)
  hheap : ∀ en ∈ st.heap, ∃ p, en.2.2 = some p ∧ p ∈ st.visited ∧
    ((p, en.2.1, en.1) ∈ E ∨ (en.2.1, p, en.1) ∈ E)
  hmin_entry : ∀ en ∈ st.heap, en.2.1 ∉ st.visited →
    ∃ c, lookupD st.in_heap en.2.1 = some c ∧ c ≤ en.1
  hchild : ∀ e ∈ st.mst_edges, e.1 ∈ st.visited ∧ e.2.1 ∈ st.visited
  hchild_nodup : (st.mst_edges.map (fun e => e.2.1)).Nodup
  hch0 : 0 ∉ st.mst_edges.map (fun e => e.2.1)
  hparent : ∀ l1 e l2, st.mst_edges = l1 ++ e :: l2 →
    e.1 = 0 ∨ e.1 ∈ l1.map (fun f => f.2.1)
  hedgeE : ∀ e ∈ st.mst_edges, (e.1, e.2.1, e.2.2) ∈ E ∨ (e.2.1, e.1, e.2.2) ∈ E
  hacy : AcyclicL st.mst_edges
  hconn0 : ∀ v ∈ st.visited, Reach st.mst_edges 0 v
  hvis_eq : st.visited = insert 0 (st.mst_edges.map (fun e => e.2.1)).toFinset
  hpromo : ∀ B0, IsMST n E B0 → ∃ B, IsMST n E B ∧ ∀ f ∈ st.mst_edges, f ∈ B

/-- The full `prim_mst` loop invariant, in force at the top of every iteration
after the start node has been visited: `PrimBase` together with cut coverage —
every edge out of the visited set has an `in_heap` candidate at most as
heavy. -/
structure PrimInv (n : Nat) (E : List Edge) (adj : Array (List (Nat × Nat))) (st : PState)
    extends PrimBase n E st : Prop where
  hcut : ∀ a ∈ st.visited, ∀ vw ∈ adj.getD a [], vw.1 ∉ st.visited →
    ∃ c, lookupD st.in_heap vw.1 = some c ∧ c ≤ vw.2

theorem relaxStep_pres {n : Nat} {E : List Edge} {adj : Array (List (Nat × Nat))}
    (hadj : adj = buildAdj n E) (hWF : WFGraph n E) {u : Nat} {st : PState}
    {vw : Nat × Nat} (hu : u ∈ st.visited) (hvw : vw ∈ adj.getD u [])
    (hb : PrimBase n E st) :
    PrimBase n E (relaxStep u st vw) ∧
    (relaxStep u st vw).visited = st.visited ∧
    (relaxStep u st vw).mst_edges = st.mst_edges ∧
    (relaxStep u st vw).heap.length ≤ st.heap.length + 1 ∧
    (∀ k c, lookupD st.in_heap k = some c →
      ∃ c2, lookupD (relaxStep u st vw).in_heap k = some c2 ∧ c2 ≤ c) ∧
    (vw.1 ∈ st.visited ∨
      ∃ c2, lookupD (relaxStep u st vw).in_heap vw.1 = some c2 ∧ c2 ≤ vw.2) := by
  have hedge : (u, vw.1, vw.2) ∈ E ∨ (vw.1, u, vw.2) ∈ E := by
    rw [hadj] at hvw
    exact (mem_buildAdj hWF u vw).mp hvw
  unfold relaxStep
  by_cases hvis : vw.1 ∈ st.visited
  · rw [if_pos hvis]
    exact ⟨hb, rfl, rfl, by omega, fun k c hc => ⟨c, hc, le_refl c⟩, Or.inl hvis⟩
  · rw [if_neg hvis]
    -- common goal after an update that pushes `(vw.2, vw.1, some u)` and
    -- rebinds `vw.1 ↦ vw.2`
    have hupd : ∀ hcur : lookupD st.in_heap vw.1 = none ∨
        ∃ cur, lookupD st.in_heap vw.1 = some cur ∧ vw.2 < cur,
        PrimBase n E
          { st with heap := heapPush (vw.2, vw.1, some u) st.heap,
                    in_heap := insertD st.in_heap vw.1 vw.2,
                    edge_comparisons := st.edge_comparisons + 1 } := by
      intro hcur
      refine ⟨hb.hzero, hb.hvis, ?_, ?_, ?_, ?_, ?_, ?_, hb.hchild, hb.hchild_nodup,
        hb.hch0, hb.hparent, hb.hedgeE, hb.hacy, hb.hconn0, hb.hvis_eq, hb.hpromo⟩
      · exact heapPush_sorted hb.hsorted
      · exact keys_insertD_nodup hb.hkeys
      · intro kv hkv
        rcases mem_insertD hkv with rfl | ⟨hkv2, _⟩
        · exact hvis
        · exact hb.hinvis kv hkv2
      · intro kv hkv
        rcases mem_insertD hkv with rfl | ⟨hkv2, hne⟩
        · refine ⟨u, mem_heapPush.mpr (Or.inl rfl), hu, ?_⟩
          rcases hedge with h | h
          · exact Or.inl h
          · exact Or.inr h
        · obtain ⟨p, hin, hpv, hpe⟩ := hb.hbind kv hkv2
          exact ⟨p, mem_heapPush.mpr (Or.inr hin), hpv, hpe⟩
      · intro en hen
        rcases mem_heapPush.mp hen with rfl | hen
        · refine ⟨u, rfl, hu, ?_⟩
          rcases hedge with h | h
          · exact Or.inl h
          · exact Or.inr h
        · exact hb.hheap en hen
      · intro en hen hnen
        rcases mem_heapPush.mp hen with rfl | hen
        · exact ⟨vw.2, by rw [lookupD_insertD, if_pos rfl], le_refl _⟩
        · by_cases hk : en.2.1 = vw.1
          · obtain ⟨c, hc, hcle⟩ := hb.hmin_entry en hen hnen
            rcases hcur with hnone | ⟨cur, hcur, hlt⟩
            · rw [hk] at hc
              rw [hc] at hnone
              cases hnone
            · rw [hk] at hc
              rw [hc] at hcur
              injection hcur with hcc
              refine ⟨vw.2, by rw [hk, lookupD_insertD, if_pos rfl], ?_⟩
              omega
          · obtain ⟨c, hc, hcle⟩ := hb.hmin_entry en hen hnen
            exact ⟨c, by rw [lookupD_insertD, if_neg hk]; exact hc, hcle⟩
    rcases hl : lookupD st.in_heap vw.1 with _ | cur
    · -- `vw.1` not yet bound: push and bind
      refine ⟨hupd (Or.inl hl), rfl, rfl, ?_, ?_, ?_⟩
      · dsimp only
        have hlen : ∀ (h2 : List HeapEntry),
            (heapPush (vw.2, vw.1, some u) h2).length = h2.length + 1 := by
          intro h2
          induction h2 with
          | nil => rfl
          | cons y h2 ih =>
            unfold heapPush
            split
            · rfl
            · rw [List.length_cons, ih, List.length_cons]
        rw [hlen]
      · intro k c hc
        dsimp only
        rw [lookupD_insertD]
        by_cases hk : k = vw.1
        · rw [hk] at hc
          rw [hc] at hl
          cases hl
        · rw [if_neg hk]
          exact ⟨c, hc, le_refl c⟩
      · refine Or.inr ⟨vw.2, ?_, le_refl _⟩
        dsimp only
        rw [lookupD_insertD, if_pos rfl]
    · dsimp only
      by_cases hlt : vw.2 < cur
      · rw [if_pos hlt]
        refine ⟨hupd (Or.inr ⟨cur, hl, hlt⟩), rfl, rfl, ?_, ?_, ?_⟩
        · dsimp only
          have hlen : ∀ (h2 : List HeapEntry),
              (heapPush (vw.2, vw.1, some u) h2).length = h2.length + 1 := by
            intro h2
            induction h2 with
            | nil => rfl
            | cons y h2 ih =>
              unfold heapPush
              split
              · rfl
              · rw [List.length_cons, ih, List.length_cons]
          rw [hlen]
        · intro k c hc
          dsimp only
          rw [lookupD_insertD]
          by_cases hk : k = vw.1
          · rw [hk] at hc
            rw [hc] at hl
            injection hl with hcc
            refine ⟨vw.2, if_pos hk ▸ rfl, ?_⟩
            omega
          · rw [if_neg hk]
            exact ⟨c, hc, le_refl c⟩
        · refine Or.inr ⟨vw.2, ?_, le_refl _⟩
          dsimp only
          rw [lookupD_insertD, if_pos rfl]
      · rw [if_neg hlt]
        refine ⟨hb, rfl, rfl, by omega, fun k c hc => ⟨c, hc, le_refl c⟩, ?_⟩
        exact Or.inr ⟨cur, hl, by omega⟩


theorem heapPush_length (e : HeapEntry) :
    ∀ h : List HeapEntry, (heapPush e h).length = h.length + 1 := by
  intro h
  induction h with
  | nil => rfl
  | cons y h ih =>
    unfold heapPush
    split
    · rfl
    · rw [List.length_cons, ih, List.length_cons]

/-- Running the relaxation loop over a suffix of `u`'s neighbour list restores
the full invariant, provided the cut property already holds everywhere except
possibly at the unprocessed neighbours of `u`. -/
theorem relax_fold {n : Nat} {E : List Edge} {adj : Array (List (Nat × Nat))}
    (hadj : adj = buildAdj n E) (hWF : WFGraph n E) {u : Nat} :
    ∀ (nbrs : List (Nat × Nat)) (st : PState),
      u ∈ st.visited →
      (∀ vw ∈ nbrs, vw ∈ adj.getD u []) →
      PrimBase n E st →
      (∀ a ∈ st.visited, ∀ vw2 ∈ adj.getD a [], vw2.1 ∉ st.visited →
        (a = u ∧ vw2 ∈ nbrs) ∨ ∃ c, lookupD st.in_heap vw2.1 = some c ∧ c ≤ vw2.2) →
      PrimInv n E adj (relax u nbrs st) ∧
      (relax u nbrs st).visited = st.visited ∧
      (relax u nbrs st).mst_edges = st.mst_edges ∧
      (relax u nbrs st).heap.length ≤ st.heap.length + nbrs.length := by
  intro nbrs
  induction nbrs with
  | nil =>
    intro st _ _ hb hexc
    refine ⟨⟨hb, ?_⟩, rfl, rfl, Nat.le_refl _⟩
    intro a ha vw2 hvw2 hnv
    rcases hexc a ha vw2 hvw2 hnv with ⟨_, hmem⟩ | h
    · cases hmem
    · exact h
  | cons vw nbrs ih =>
    intro st hu hsub hb hexc
    have hvw : vw ∈ adj.getD u [] := hsub vw (List.mem_cons_self vw nbrs)
    obtain ⟨hb2, hvis2, hmst2, hlen2, hmono2, hthis⟩ := relaxStep_pres hadj hWF hu hvw hb
    have hstep : relax u (vw :: nbrs) st = relax u nbrs (relaxStep u st vw) := rfl
    rw [hstep]
    have hu2 : u ∈ (relaxStep u st vw).visited := hvis2 ▸ hu
    have hexc2 : ∀ a ∈ (relaxStep u st vw).visited, ∀ vw2 ∈ adj.getD a [],
        vw2.1 ∉ (relaxStep u st vw).visited →
        (a = u ∧ vw2 ∈ nbrs) ∨
          ∃ c, lookupD (relaxStep u st vw).in_heap vw2.1 = some c ∧ c ≤ vw2.2 := by
      intro a ha vw2 hvw2 hnv
      rw [hvis2] at ha hnv
      rcases hexc a ha vw2 hvw2 hnv with ⟨rfl, hmem⟩ | ⟨c, hc, hcle⟩
      · rcases List.mem_cons.mp hmem with rfl | hmem
        · rcases hthis with hin | ⟨c2, hc2, hc2le⟩
          · exact absurd hin hnv
          · exact Or.inr ⟨c2, hc2, hc2le⟩
        · exact Or.inl ⟨rfl, hmem⟩
      · obtain ⟨c2, hc2, hc2le⟩ := hmono2 vw2.1 c hc
        exact Or.inr ⟨c2, hc2, by omega⟩
    obtain ⟨hinv, hv3, hm3, hl3⟩ := ih (relaxStep u st vw) hu2
      (fun x hx => hsub x (List.mem_cons_of_mem vw hx)) hb2 hexc2
    refine ⟨hinv, hv3.trans hvis2, hm3.trans hmst2, ?_⟩
    rw [List.length_cons]
    omega


/-! ### The main loop of `prim_mst` -/

theorem primLoop_nil_eq (adj : Array (List (Nat × Nat))) (fuel : Nat) (st : PState)
    (hh : st.heap = []) : primLoop adj fuel st = Except.ok st := by
  rcases st with ⟨vis, heap, inh, mst, its, cmp⟩
  dsimp only at hh
  subst hh
  cases fuel with
  | zero => rfl
  | succ f => rfl

theorem primLoop_cons_some_eq (adj : Array (List (Nat × Nat))) (fuel : Nat) (st : PState)
    (w u p : Nat) (rest : List HeapEntry)
    (hh : st.heap = (w, u, some p) :: rest) :
    primLoop adj (fuel + 1) st =
      (if u ∈ st.visited then
        primLoop adj fuel { st with heap := rest, iterations := st.iterations + 1, edge_comparisons := st.edge_comparisons + 1 }
      else
        match lookupD st.in_heap u with
        | none => Except.error PrimFailure.keyError
        | some _ =>
          primLoop adj fuel (relax u (adj.getD u [])
            { st with heap := rest, iterations := st.iterations + 1, edge_comparisons := st.edge_comparisons + 1, visited := insert u st.visited, in_heap := eraseD st.in_heap u, mst_edges := st.mst_edges ++ [(p, u, w)] })) := by
  rcases st with ⟨vis, heap, inh, mst, its, cmp⟩
  dsimp only at hh
  subst hh
  conv_lhs => unfold primLoop

theorem primLoop_cons_none_eq (adj : Array (List (Nat × Nat))) (fuel : Nat) (st : PState)
    (w u : Nat) (rest : List HeapEntry)
    (hh : st.heap = (w, u, none) :: rest) :
    primLoop adj (fuel + 1) st =
      (if u ∈ st.visited then
        primLoop adj fuel { st with heap := rest, iterations := st.iterations + 1, edge_comparisons := st.edge_comparisons + 1 }
      else
        match lookupD st.in_heap u with
        | none => Except.error PrimFailure.keyError
        | some _ =>
          primLoop adj fuel (relax u (adj.getD u [])
            { st with heap := rest, iterations := st.iterations + 1, edge_comparisons := st.edge_comparisons + 1, visited := insert u st.visited, in_heap := eraseD st.in_heap u })) := by
  rcases st with ⟨vis, heap, inh, mst, its, cmp⟩
  dsimp only at hh
  subst hh
  conv_lhs => unfold primLoop

theorem primBase_card_le {n : Nat} {E : List Edge} {st : PState} (hb : PrimBase n E st) :
    st.visited.card ≤ n := by
  have hsub : st.visited ⊆ Finset.range n := fun v hv => Finset.mem_range.mpr (hb.hvis v hv).1
  simpa using Finset.card_le_card hsub

theorem primLoop_run {n : Nat} {E : List Edge} {adj : Array (List (Nat × Nat))}
    (hadj : adj = buildAdj n E) (hWF : WFGraph n E) :
    ∀ (fuel : Nat) (st : PState), PrimInv n E adj st →
      st.heap.length + (n - st.visited.card) * (adjTotal adj + 2) ≤ fuel →
      ∃ fin, primLoop adj fuel st = Except.ok fin ∧ PrimInv n E adj fin ∧ fin.heap = [] := by
  intro fuel
  induction fuel with
  | zero =>
    intro st hinv hfuel
    have hheap : st.heap = [] := List.length_eq_zero.mp (by omega)
    exact ⟨st, primLoop_nil_eq adj 0 st hheap, hinv, hheap⟩
  | succ fuel ih =>
    intro st hinv hfuel
    rcases hh : st.heap with _ | ⟨⟨w, u, par⟩, rest⟩
    · exact ⟨st, primLoop_nil_eq adj (fuel + 1) st hh, hinv, hh⟩
    have hlenheap : st.heap.length = rest.length + 1 := by
      rw [hh, List.length_cons]
    by_cases hvisu : u ∈ st.visited
    · -- stale entry: discard and continue
      have hrw : primLoop adj (fuel + 1) st =
          primLoop adj fuel { st with heap := rest, iterations := st.iterations + 1, edge_comparisons := st.edge_comparisons + 1 } := by
        rcases par with _ | p
        · rw [primLoop_cons_none_eq adj fuel st w u rest hh, if_pos hvisu]
        · rw [primLoop_cons_some_eq adj fuel st w u p rest hh, if_pos hvisu]
      rw [hrw]
      have hb := hinv.toPrimBase
      have hinv1 : PrimInv n E adj { st with heap := rest, iterations := st.iterations + 1, edge_comparisons := st.edge_comparisons + 1 } := by
        refine ⟨⟨hb.hzero, hb.hvis, ?_, hb.hkeys, hb.hinvis, ?_, ?_, ?_, hb.hchild,
          hb.hchild_nodup, hb.hch0, hb.hparent, hb.hedgeE, hb.hacy, hb.hconn0, hb.hvis_eq,
          hb.hpromo⟩, ?_⟩
        · exact List.Pairwise.of_cons (hh ▸ hb.hsorted)
        · intro kv hkv
          obtain ⟨p, hent, hpv, hpe⟩ := hb.hbind kv hkv
          rw [hh] at hent
          rcases List.mem_cons.mp hent with heq | hrest
          · exfalso
            have huk : kv.1 = u := by
              injection heq with h1 h2
              injection h2 with h3 h4
            exact hb.hinvis kv hkv (huk ▸ hvisu)
          · exact ⟨p, hrest, hpv, hpe⟩
        · intro en hen
          exact hb.hheap en (by rw [hh]; exact List.mem_cons_of_mem _ hen)
        · intro en hen hnen
          exact hb.hmin_entry en (by rw [hh]; exact List.mem_cons_of_mem _ hen) hnen
        · exact hinv.hcut
      exact ih _ hinv1 (by dsimp only; omega)
    · -- fresh node: visit it
      have hb := hinv.toPrimBase
      have hheadmem : ((w, u, par) : HeapEntry) ∈ st.heap := by
        rw [hh]
        exact List.mem_cons_self _ _
      obtain ⟨c, hlook, hcw⟩ := hb.hmin_entry (w, u, par) hheadmem hvisu
      obtain ⟨p, hpar, hpvis, hpE⟩ := hb.hheap (w, u, par) hheadmem
      dsimp only at hpar hpE
      subst hpar
      rw [primLoop_cons_some_eq adj fuel st w u p rest hh, if_neg hvisu, hlook]
      -- the popped weight is minimal over all edges leaving the visited set
      have hcrossmin : ∀ a ∈ st.visited, ∀ vw2 ∈ adj.getD a [], vw2.1 ∉ st.visited →
          w ≤ vw2.2 := by
        intro a ha vw2 hvw2 hnv
        obtain ⟨cb, hcb, hcble⟩ := hinv.hcut a ha vw2 hvw2 hnv
        obtain ⟨q2, hent2, _, _⟩ := hb.hbind (vw2.1, cb) (lookupD_mem hcb)
        rw [hh] at hent2
        rcases List.mem_cons.mp hent2 with heq | hrest2
        · have : cb = w := by
            injection heq
          omega
        · have hle := heapHead_min (hh ▸ hb.hsorted) hrest2
          unfold heapLe at hle
          simp only [Bool.or_eq_true, Bool.and_eq_true, decide_eq_true_eq, beq_iff_eq] at hle
          omega
      have hun : u < n := by
        rcases hpE with h | h
        · exact (hWF _ h).2
        · exact (hWF _ h).1
      -- the state after the visit updates, before relaxation
      have hb3 : PrimBase n E { st with heap := rest, iterations := st.iterations + 1, edge_comparisons := st.edge_comparisons + 1, visited := insert u st.visited, in_heap := eraseD st.in_heap u, mst_edges := st.mst_edges ++ [(p, u, w)] } := by
        refine ⟨?_, ?_, ?_, ?_, ?_, ?_, ?_, ?_, ?_, ?_, ?_, ?_, ?_, ?_, ?_, ?_, ?_⟩
        · exact Finset.mem_insert_of_mem hb.hzero
        · intro v hv
          rcases Finset.mem_insert.mp hv with rfl | hv
          · refine ⟨hun, reach_trans (hb.hvis p hpvis).2 (reach_single ⟨w, ?_⟩)⟩
            rcases hpE with h | h
            · exact Or.inl h
            · exact Or.inr h
          · exact hb.hvis v hv
        · exact List.Pairwise.of_cons (hh ▸ hb.hsorted)
        · exact keys_eraseD_nodup hb.hkeys
        · intro kv hkv
          obtain ⟨hkvm, hkne⟩ := mem_eraseD.mp hkv
          intro hc
          rcases Finset.mem_insert.mp hc with h | h
          · exact hkne h
          · exact hb.hinvis kv hkvm h
        · intro kv hkv
          obtain ⟨hkvm, hkne⟩ := mem_eraseD.mp hkv
          obtain ⟨q, hent, hqv, hqe⟩ := hb.hbind kv hkvm
          rw [hh] at hent
          rcases List.mem_cons.mp hent with heq | hrest2
          · exfalso
            apply hkne
            injection heq with h1 h2
            injection h2 with h3 h4
          · exact ⟨q, hrest2, Finset.mem_insert_of_mem hqv, hqe⟩
        · intro en hen
          obtain ⟨q, hq, hqv, hqe⟩ :=
            hb.hheap en (by rw [hh]; exact List.mem_cons_of_mem _ hen)
          exact ⟨q, hq, Finset.mem_insert_of_mem hqv, hqe⟩
        · intro en hen hnen
          dsimp only at hen hnen ⊢
          have hne_u : en.2.1 ≠ u := fun hc => hnen (by rw [hc]; exact Finset.mem_insert_self u _)
          have hnvis : en.2.1 ∉ st.visited := fun hc => hnen (Finset.mem_insert_of_mem hc)
          obtain ⟨c2, hc2, hc2le⟩ :=
            hb.hmin_entry en (by rw [hh]; exact List.mem_cons_of_mem _ hen) hnvis
          refine ⟨c2, ?_, hc2le⟩
          rw [lookupD_eraseD, if_neg hne_u]
          exact hc2
        · intro e he
          rcases List.mem_append.mp he with he | he
          · obtain ⟨h1, h2⟩ := hb.hchild e he
            exact ⟨Finset.mem_insert_of_mem h1, Finset.mem_insert_of_mem h2⟩
          · rw [List.mem_singleton.mp he]
            exact ⟨Finset.mem_insert_of_mem hpvis, Finset.mem_insert_self u _⟩
        · rw [List.map_append]
          rw [List.nodup_append]
          refine ⟨hb.hchild_nodup, by simp, ?_⟩
          intro a ha hbm
          have hau : a = u := by simpa using hbm
          obtain ⟨e, he, hae⟩ := List.mem_map.mp ha
          exact hvisu (hau ▸ hae ▸ (hb.hchild e he).2)
        · rw [List.map_append]
          intro hc
          rcases List.mem_append.mp hc with hc | hc
          · exact hb.hch0 hc
          · have h0u : (0 : Nat) = u := by simpa using hc
            exact hvisu (h0u ▸ hb.hzero)
        · intro l1 e l2 hsplit
          dsimp only at hsplit
          rcases List.eq_nil_or_concat l2 with rfl | ⟨l2x, x, rfl⟩
          · obtain ⟨h1, he⟩ := List.append_inj' hsplit rfl
            have he2 : (p, u, w) = e := by injection he
            rw [← he2]
            dsimp only
            have hp0 : p ∈ insert 0 (st.mst_edges.map (fun e => e.2.1)).toFinset :=
              hb.hvis_eq ▸ hpvis
            rcases Finset.mem_insert.mp hp0 with h | h
            · exact Or.inl h
            · rw [← h1]
              exact Or.inr (List.mem_toFinset.mp h)
          · rw [List.concat_eq_append] at hsplit
            have hsplit2 : st.mst_edges ++ [(p, u, w)] = (l1 ++ e :: l2x) ++ [x] := by
              rw [hsplit]
              simp
            obtain ⟨h1, _⟩ := List.append_inj' hsplit2 rfl
            exact hb.hparent l1 e l2x h1
        · intro e he
          rcases List.mem_append.mp he with he | he
          · exact hb.hedgeE e he
          · rw [List.mem_singleton.mp he]
            exact hpE
        · refine acyclic_append_intro hb.hacy ?_
          intro hr
          dsimp only at hr
          rcases reach_endpoint hr with heq | ⟨e, he, hu'⟩
          · exact hvisu (heq ▸ hpvis)
          · rcases hu' with hu' | hu'
            · exact hvisu (hu' ▸ (hb.hchild e he).1)
            · exact hvisu (hu' ▸ (hb.hchild e he).2)
        · intro v hv
          have hsubm : ∀ x ∈ st.mst_edges, x ∈ st.mst_edges ++ [(p, u, w)] :=
            fun x hx => List.mem_append.mpr (Or.inl hx)
          rcases Finset.mem_insert.mp hv with rfl | hv
          · refine reach_trans (reach_mono hsubm (hb.hconn0 p hpvis))
              (reach_single ⟨w, Or.inl ?_⟩)
            exact List.mem_append.mpr (Or.inr (List.mem_singleton.mpr rfl))
          · exact reach_mono hsubm (hb.hconn0 v hv)
        · dsimp only
          rw [hb.hvis_eq, List.map_append, List.toFinset_append]
          simp only [List.map_cons, List.map_nil, List.toFinset_cons, List.toFinset_nil]
          ext x
          simp only [Finset.mem_insert, Finset.mem_union, Finset.mem_singleton,
            Finset.not_mem_empty, or_false]
          tauto
        · intro B0 hB0
          obtain ⟨B, hB, hFB⟩ := hb.hpromo B0 hB0
          have hFS : ∀ f ∈ st.mst_edges, (f.1 ∈ st.visited ↔ f.2.1 ∈ st.visited) := by
            intro f hf
            obtain ⟨h1, h2⟩ := hb.hchild f hf
            exact iff_of_true h1 h2
          have hgE : edgeIn E (p, u, w) := by
            rcases hpE with h | h
            · exact Or.inl h
            · exact Or.inr h
          have hmin : ∀ g : Edge, edgeIn E g →
              ((g.1 ∈ st.visited ∧ g.2.1 ∉ st.visited) ∨
               (g.2.1 ∈ st.visited ∧ g.1 ∉ st.visited)) → w ≤ g.2.2 := by
            intro g hg hcross
            rcases hcross with ⟨h1, h2⟩ | ⟨h1, h2⟩
            · refine hcrossmin g.1 h1 (g.2.1, g.2.2) ?_ h2
              rw [hadj]
              exact (mem_buildAdj hWF g.1 (g.2.1, g.2.2)).mpr (by
                rcases hg with h | h
                · exact Or.inl h
                · exact Or.inr h)
            · refine hcrossmin g.2.1 h1 (g.1, g.2.2) ?_ h2
              rw [hadj]
              exact (mem_buildAdj hWF g.2.1 (g.1, g.2.2)).mpr (by
                rcases hg with h | h
                · exact Or.inr h
                · exact Or.inl h)
          obtain ⟨B2, hB2, hFB2, heB2⟩ :=
            mst_exchange (S := fun z => z ∈ st.visited) hWF hB hFB hFS hgE hpvis hvisu hmin
          refine ⟨B2, hB2, ?_⟩
          intro f hf
          rcases List.mem_append.mp hf with hf | hf
          · exact hFB2 f hf
          · rw [List.mem_singleton.mp hf]
            exact heB2
      have hexc : ∀ a ∈ (insert u st.visited), ∀ vw2 ∈ adj.getD a [],
          vw2.1 ∉ (insert u st.visited) →
          (a = u ∧ vw2 ∈ adj.getD u []) ∨
            ∃ cc, lookupD (eraseD st.in_heap u) vw2.1 = some cc ∧ cc ≤ vw2.2 := by
        intro a ha vw2 hvw2 hnv
        have hnv2 : vw2.1 ∉ st.visited := fun hc => hnv (Finset.mem_insert_of_mem hc)
        have hnvu : vw2.1 ≠ u := fun hc => hnv (by rw [hc]; exact Finset.mem_insert_self u _)
        rcases Finset.mem_insert.mp ha with rfl | ha
        · exact Or.inl ⟨rfl, hvw2⟩
        · obtain ⟨cc, hcc, hccle⟩ := hinv.hcut a ha vw2 hvw2 hnv2
          refine Or.inr ⟨cc, ?_, hccle⟩
          rw [lookupD_eraseD, if_neg hnvu]
          exact hcc
      obtain ⟨hinv4, hvis4, _, hlen4⟩ :=
        relax_fold hadj hWF (adj.getD u []) _ (Finset.mem_insert_self u _)
          (fun x hx => hx) hb3 hexc
      have hcardins : (insert u st.visited).card = st.visited.card + 1 :=
        Finset.card_insert_of_not_mem hvisu
      have hcardle : (insert u st.visited).card ≤ n := primBase_card_le hb3
      have hmeas : (relax u (adj.getD u []) { st with heap := rest, iterations := st.iterations + 1, edge_comparisons := st.edge_comparisons + 1, visited := insert u st.visited, in_heap := eraseD st.in_heap u, mst_edges := st.mst_edges ++ [(p, u, w)] }).heap.length + (n - (relax u (adj.getD u []) { st with heap := rest, iterations := st.iterations + 1, edge_comparisons := st.edge_comparisons + 1, visited := insert u st.visited, in_heap := eraseD st.in_heap u, mst_edges := st.mst_edges ++ [(p, u, w)] }).visited.card) * (adjTotal adj + 2) ≤ fuel := by
        rw [hvis4]
        dsimp only
        have hlenadj : (adj.getD u []).length ≤ adjTotal adj := adjLen_le_adjTotal adj u
        have hm : n - st.visited.card = (n - (insert u st.visited).card) + 1 := by
          omega
        rw [hm, Nat.add_mul, Nat.one_mul] at hfuel
        dsimp only at hlen4
        omega
      obtain ⟨fin, hrun, hinvfin, hheapfin⟩ := ih _ hinv4 hmeas
      exact ⟨fin, hrun, hinvfin, hheapfin⟩


/-! ### Running `prim_mst` from its initial state -/

theorem primInv_count {n : Nat} {E : List Edge} {st : PState} (hb : PrimBase n E st) :
    st.mst_edges.length + 1 = st.visited.card := by
  rw [hb.hvis_eq]
  rw [Finset.card_insert_of_not_mem (fun hc => hb.hch0 (List.mem_toFinset.mp hc))]
  rw [List.toFinset_card_of_nodup hb.hchild_nodup, List.length_map]

theorem prim_start_base {n : Nat} {E : List Edge} (hn : n ≠ 0) :
    PrimBase n E ⟨{0}, [], [], [], 1, 1⟩ := by
  refine ⟨?_, ?_, ?_, ?_, ?_, ?_, ?_, ?_, ?_, ?_, ?_, ?_, ?_, ?_, ?_, ?_, ?_⟩
  · exact Finset.mem_singleton.mpr rfl
  · intro v hv
    rw [Finset.mem_singleton.mp hv]
    exact ⟨Nat.pos_of_ne_zero hn, reach_refl 0⟩
  · exact List.Pairwise.nil
  · simp
  · intro kv hkv
    cases hkv
  · intro kv hkv
    cases hkv
  · intro en hen
    cases hen
  · intro en hen
    cases hen
  · intro e he
    cases he
  · simp
  · simp
  · intro l1 e l2 h
    rcases l1 with _ | ⟨a, l1⟩ <;> simp at h
  · intro e he
    cases he
  · exact acyclic_nil
  · intro v hv
    rw [Finset.mem_singleton.mp hv]
    exact reach_refl 0
  · simp
  · intro B0 hB0
    exact ⟨B0, hB0, fun f hf => absurd hf (List.not_mem_nil f)⟩

theorem prim_run_from_start {n : Nat} {E : List Edge} (hWF : WFGraph n E) (hn : n ≠ 0) :
    ∃ fin, primLoop (buildAdj n E) (primFuel n (buildAdj n E))
        ⟨∅, [(0, 0, none)], [(0, 0)], [], 0, 0⟩ = Except.ok fin ∧
      PrimInv n E (buildAdj n E) fin ∧ fin.heap = [] := by
  have hfuel_eq : primFuel n (buildAdj n E) = n * (adjTotal (buildAdj n E) + 2) + 1 := by
    unfold primFuel
    omega
  have h1 : primLoop (buildAdj n E) (n * (adjTotal (buildAdj n E) + 2) + 1)
      ⟨∅, [(0, 0, none)], [(0, 0)], [], 0, 0⟩ =
      primLoop (buildAdj n E) (n * (adjTotal (buildAdj n E) + 2))
        (relax 0 ((buildAdj n E).getD 0 []) ⟨insert 0 ∅, [], eraseD [(0, 0)] 0, [], 0 + 1, 0 + 1⟩) := by
    rw [primLoop_cons_none_eq (buildAdj n E) (n * (adjTotal (buildAdj n E) + 2)) _ 0 0 [] rfl]
    rw [if_neg (Finset.not_mem_empty 0)]
    rfl
  have hst : (⟨insert 0 ∅, [], eraseD [(0, 0)] 0, [], 0 + 1, 0 + 1⟩ : PState) =
      ⟨{0}, [], [], [], 1, 1⟩ := by
    have hins : (insert 0 ∅ : Finset Nat) = {0} := by
      decide
    rw [hins]
    rfl
  rw [hst] at h1
  have hbA : PrimBase n E ⟨{0}, [], [], [], 1, 1⟩ := prim_start_base hn
  have hexcA : ∀ a ∈ (⟨{0}, [], [], [], 1, 1⟩ : PState).visited,
      ∀ vw2 ∈ (buildAdj n E).getD a [],
      vw2.1 ∉ (⟨{0}, [], [], [], 1, 1⟩ : PState).visited →
      (a = 0 ∧ vw2 ∈ (buildAdj n E).getD 0 []) ∨
        ∃ c, lookupD (⟨{0}, [], [], [], 1, 1⟩ : PState).in_heap vw2.1 = some c ∧ c ≤ vw2.2 := by
    intro a ha vw2 hvw2 _
    have ha0 : a = 0 := Finset.mem_singleton.mp ha
    subst ha0
    exact Or.inl ⟨rfl, hvw2⟩
  obtain ⟨hinv4, hvis4, _, hlen4⟩ :=
    relax_fold rfl hWF ((buildAdj n E).getD 0 []) ⟨{0}, [], [], [], 1, 1⟩
      (Finset.mem_singleton.mpr rfl) (fun x hx => hx) hbA hexcA
  have hmeas : (relax 0 ((buildAdj n E).getD 0 [])
      (⟨{0}, [], [], [], 1, 1⟩ : PState)).heap.length +
      (n - (relax 0 ((buildAdj n E).getD 0 [])
        (⟨{0}, [], [], [], 1, 1⟩ : PState)).visited.card) *
        (adjTotal (buildAdj n E) + 2) ≤ n * (adjTotal (buildAdj n E) + 2) := by
    rw [hvis4]
    dsimp only
    rw [Finset.card_singleton]
    have hlenadj : ((buildAdj n E).getD 0 []).length ≤ adjTotal (buildAdj n E) :=
      adjLen_le_adjTotal (buildAdj n E) 0
    dsimp only at hlen4
    simp only [List.length_nil, Nat.zero_add] at hlen4
    rw [Nat.sub_one_mul]
    have hX : adjTotal (buildAdj n E) + 2 ≤ n * (adjTotal (buildAdj n E) + 2) :=
      Nat.le_mul_of_pos_left _ (Nat.pos_of_ne_zero hn)
    omega
  obtain ⟨fin, hrun, hinvfin, hheapfin⟩ :=
    primLoop_run rfl hWF (n * (adjTotal (buildAdj n E) + 2)) _ hinv4 hmeas
  refine ⟨fin, ?_, hinvfin, hheapfin⟩
  rw [hfuel_eq, h1]
  exact hrun

theorem prim_visited_comp {n : Nat} {E : List Edge} (hWF : WFGraph n E) {fin : PState}
    (hinv : PrimInv n E (buildAdj n E) fin) (hheap : fin.heap = []) :
    fin.visited = compOfZero n E := by
  have hclosed : ∀ a ∈ fin.visited, ∀ b, adjRel E a b → b ∈ fin.visited := by
    intro a ha b hab
    obtain ⟨w', hw'⟩ := hab
    by_contra hb
    have hvw : ((b, w') : Nat × Nat) ∈ (buildAdj n E).getD a [] :=
      (mem_buildAdj hWF a (b, w')).mpr hw'
    obtain ⟨c, hc, _⟩ := hinv.hcut a ha (b, w') hvw hb
    obtain ⟨q, hq, _, _⟩ := hinv.hbind (b, c) (lookupD_mem hc)
    rw [hheap] at hq
    cases hq
  have hsup : ∀ v, Reach E 0 v → v ∈ fin.visited := by
    intro v h
    induction h with
    | refl => exact hinv.hzero
    | @tail m c h1 h2 ih => exact hclosed m ih c h2
  ext v
  constructor
  · intro hv
    obtain ⟨hlt, hre⟩ := hinv.hvis v hv
    exact Finset.mem_filter.mpr ⟨Finset.mem_range.mpr hlt, (reachD_iff E 0 v).mpr hre⟩
  · intro hv
    obtain ⟨_, hre⟩ := Finset.mem_filter.mp hv
    exact hsup v ((reachD_iff E 0 v).mp hre)

/-- The complete run of `prim_mst` on a well-formed nonempty graph: the loop
terminates cleanly, its final state satisfies the invariant with an empty
queue, the visited set is the connected component of node 0, and the returned
value is assembled from that state. -/
theorem prim_mst_main {n : Nat} {E : List Edge} (hWF : WFGraph n E) (hn : n ≠ 0) :
    ∃ fin : PState, PrimInv n E (buildAdj n E) fin ∧ fin.heap = [] ∧
      fin.visited = compOfZero n E ∧
      prim_mst (mkEngine n E) = Except.ok
        ({ reset_metrics (mkEngine n E) with iterations := fin.iterations, edge_comparisons := fin.edge_comparisons },
         (fin.mst_edges,
          if fin.visited.card < n then some Condition.unconnected else none)) := by
  obtain ⟨fin, hrun, hinv, hheap⟩ := prim_run_from_start hWF hn
  refine ⟨fin, hinv, hheap, prim_visited_comp hWF hinv hheap, ?_⟩
  unfold prim_mst reset_metrics mkEngine
  dsimp only
  rw [if_neg hn]
  rw [hrun]
  dsimp only
  by_cases hc : fin.visited.card < n
  · rw [if_pos hc, if_pos hc]
  · rw [if_neg hc, if_neg hc]


/-! ### Assembled correctness statements for `prim_mst` -/

theorem connected_of_reachD {n : Nat} {E : List Edge}
    (h : ∀ a < n, ∀ b < n, reachD E a b) : Connected n E :=
  fun a ha b hb => (reachD_iff E a b).mp (h a ha b hb)

theorem compOfZero_of_connected {n : Nat} {E : List Edge} (hconn : Connected n E)
    (hn : n ≠ 0) : compOfZero n E = Finset.range n := by
  unfold compOfZero
  rw [Finset.filter_eq_self]
  intro v hv
  exact (reachD_iff E 0 v).mpr (hconn 0 (Nat.pos_of_ne_zero hn) v (Finset.mem_range.mp hv))

theorem prim_spanning_of_connected {n : Nat} {E : List Edge} (hWF : WFGraph n E)
    (hn : n ≠ 0) (hconn : Connected n E) :
    ∃ fin : PState, PrimInv n E (buildAdj n E) fin ∧
      prim_mst (mkEngine n E) = Except.ok
        ({ reset_metrics (mkEngine n E) with iterations := fin.iterations, edge_comparisons := fin.edge_comparisons },
         (fin.mst_edges, none)) ∧
      fin.mst_edges.length + 1 = n ∧ IsSpanningTree n E fin.mst_edges := by
  obtain ⟨fin, hinv, hheap, hcomp, hok⟩ := prim_mst_main hWF hn
  have hvisall : fin.visited = Finset.range n := by
    rw [hcomp]
    exact compOfZero_of_connected hconn hn
  have hcard : fin.visited.card = n := by
    rw [hvisall, Finset.card_range]
  have hcnt : fin.mst_edges.length + 1 = n := by
    rw [primInv_count hinv.toPrimBase, hcard]
  rw [hcard] at hok
  rw [if_neg (Nat.lt_irrefl n)] at hok
  refine ⟨fin, hinv, hok, hcnt, ?_, ?_, ?_⟩
  · intro e he
    rcases hinv.hedgeE e he with h | h
    · exact Or.inl (by rwa [show (e.1, e.2.1, e.2.2) = e from rfl] at h)
    · exact Or.inr h
  · intro a ha b hb
    have hma : a ∈ fin.visited := by
      rw [hvisall]
      exact Finset.mem_range.mpr ha
    have hmb : b ∈ fin.visited := by
      rw [hvisall]
      exact Finset.mem_range.mpr hb
    exact reach_trans (reach_symm (hinv.hconn0 a hma)) (hinv.hconn0 b hmb)
  · exact hinv.hacy

theorem prim_is_mst {n : Nat} {E : List Edge} (hWF : WFGraph n E) (hn : n ≠ 0)
    (hconn : Connected n E) :
    ∃ pr, prim_mst (mkEngine n E) = Except.ok pr ∧ IsMST n E pr.2.1 := by
  obtain ⟨fin, hinv, hok, _, hspan⟩ := prim_spanning_of_connected hWF hn hconn
  refine ⟨_, hok, ?_⟩
  dsimp only
  obtain ⟨B0, hB0⟩ := exists_mst hWF hn hconn
  obtain ⟨B, hB, hsub⟩ := hinv.hpromo B0 hB0
  have hw := spanning_subset_mst hWF hn hspan hB hsub
  refine ⟨hspan, ?_⟩
  intro T2 hT2
  rw [hw]
  exact hB.2 T2 hT2

/-! ### Trace lemmas for the animation generators -/

theorem edgeEvents_append (a b : List AnimEvent) :
    edgeEvents (a ++ b) = edgeEvents a ++ edgeEvents b := by
  unfold edgeEvents
  rw [List.filterMap_append]

theorem finalEvents_append (a b : List AnimEvent) :
    finalEvents (a ++ b) = finalEvents a ++ finalEvents b := by
  unfold finalEvents
  rw [List.filterMap_append]

theorem edgeEvents_kruskalAnimGo :
    ∀ (l : List Edge) (vis : Finset Nat),
      edgeEvents (kruskalAnimGo l vis) = l.map (fun e => (e.1, e.2.1)) := by
  intro l
  induction l with
  | nil =>
    intro vis
    rfl
  | cons e rest ih =>
    intro vis
    unfold kruskalAnimGo
    dsimp only
    split <;> split <;>
      (rw [edgeEvents_append, edgeEvents_append, edgeEvents_append, ih, List.map_cons]; rfl)

theorem finalEvents_kruskalAnimGo :
    ∀ (l : List Edge) (vis : Finset Nat), finalEvents (kruskalAnimGo l vis) = [] := by
  intro l
  induction l with
  | nil =>
    intro vis
    rfl
  | cons e rest ih =>
    intro vis
    unfold kruskalAnimGo
    dsimp only
    split <;> split <;>
      (rw [finalEvents_append, finalEvents_append, finalEvents_append, ih]; rfl)

theorem edgeEvents_primAnimGo :
    ∀ (l : List Edge) (vis : Finset Nat),
      edgeEvents (primAnimGo l vis) = l.map (fun e => (e.1, e.2.1)) := by
  intro l
  induction l with
  | nil =>
    intro vis
    rfl
  | cons e rest ih =>
    intro vis
    unfold primAnimGo
    dsimp only
    split <;> (rw [edgeEvents_append, edgeEvents_append, ih, List.map_cons]; rfl)

theorem finalEvents_primAnimGo :
    ∀ (l : List Edge) (vis : Finset Nat), finalEvents (primAnimGo l vis) = [] := by
  intro l
  induction l with
  | nil =>
    intro vis
    rfl
  | cons e rest ih =>
    intro vis
    unfold primAnimGo
    dsimp only
    split <;> (rw [finalEvents_append, finalEvents_append, ih]; rfl)

theorem kruskal_anim_err (s0 : MSTAlgorithms) (c : Condition)
    (hc : (kruskal_mst s0).2.2 = some c) :
    kruskal_mst_with_animation s0 = [AnimEvent.final ([], some c)] := by
  unfold kruskal_mst_with_animation
  dsimp only
  rw [hc]

theorem kruskal_anim_ok (s0 : MSTAlgorithms) (h : (kruskal_mst s0).2.2 = none) :
    kruskal_mst_with_animation s0 =
      kruskalAnimGo (kruskal_mst s0).2.1 ∅ ++
        [AnimEvent.final ((kruskal_mst s0).2.1, none)] := by
  unfold kruskal_mst_with_animation
  dsimp only
  rw [h]

theorem prim_anim_err (s0 : MSTAlgorithms) (pr : MSTAlgorithms × List Edge × Option Condition)
    (hpr : prim_mst s0 = Except.ok pr) (c : Condition) (hc : pr.2.2 = some c) :
    prim_mst_with_animation s0 = Except.ok [AnimEvent.final ([], some c)] := by
  unfold prim_mst_with_animation
  rw [hpr]
  dsimp only
  rw [hc]

theorem prim_anim_ok (s0 : MSTAlgorithms) (pr : MSTAlgorithms × List Edge × Option Condition)
    (hpr : prim_mst s0 = Except.ok pr) (hc : pr.2.2 = none) :
    prim_mst_with_animation s0 = Except.ok
      ([AnimEvent.vertex 0] ++ primAnimGo pr.2.1 {0} ++ [AnimEvent.final (pr.2.1, none)]) := by
  unfold prim_mst_with_animation
  rw [hpr]
  dsimp only
  rw [hc]


instance (n : Nat) (E : List Edge) : Decidable (WFGraph n E) := by
  unfold WFGraph
  infer_instance

instance (E : List Edge) : Decidable (PosWeights E) := by
  unfold PosWeights
  infer_instance

theorem prim_result_inv {n : Nat} {E : List Edge}
    {pr : MSTAlgorithms × List Edge × Option Condition} (hWF : WFGraph n E) (hn : n ≠ 0)
    (hpr : prim_mst (mkEngine n E) = Except.ok pr) :
    ∃ fin : PState, PrimInv n E (buildAdj n E) fin ∧ pr.2.1 = fin.mst_edges ∧
      fin.visited = compOfZero n E ∧
      pr.2.2 = (if fin.visited.card < n then some Condition.unconnected else none) := by
  obtain ⟨fin, hinv, hheap, hcomp, hok⟩ := prim_mst_main hWF hn
  rw [hok] at hpr
  have heq := Except.ok.inj hpr
  refine ⟨fin, hinv, ?_, hcomp, ?_⟩ <;> rw [← heq]

/-- C1: on a connected graph with `N ≥ 1` nodes and positive weights, both
`kruskal_mst()` and `prim_mst()` return exactly `N - 1` edges with no error
condition, and each returned edge list is a spanning tree of the graph
(acyclic and connecting all nodes). -/
theorem c1_spanning_tree {n : Nat} {E : List Edge} (hWF : WFGraph n E)
    (hpos : PosWeights E) (hn : 1 ≤ n) (hconn : Connected n E) :
    ((kruskal_mst (mkEngine n E)).2.1.length = n - 1 ∧
      (kruskal_mst (mkEngine n E)).2.2 = none ∧
      IsSpanningTree n E (kruskal_mst (mkEngine n E)).2.1) ∧
    ∃ pr, prim_mst (mkEngine n E) = Except.ok pr ∧
      pr.2.1.length = n - 1 ∧ pr.2.2 = none ∧ IsSpanningTree n E pr.2.1 := by
  have hne : n ≠ 0 := by omega
  obtain ⟨herr, _, _, _, hcnt⟩ := kruskal_mst_main hWF hne
  have hone : ncomp n E = 1 := connected_ncomp_one hconn (by omega)
  have hspanK := (kruskal_is_mst hWF hne hconn).1
  obtain ⟨fin, hinv, hok, hcntP, hspanP⟩ := prim_spanning_of_connected hWF hne hconn
  exact ⟨⟨by omega, herr, hspanK⟩, ⟨_, hok, by dsimp only; omega, rfl, hspanP⟩⟩

theorem c1_spanning_tree_witness :
    (WFGraph 2 [(0, 1, 5)] ∧ PosWeights [(0, 1, 5)] ∧ 1 ≤ 2 ∧ Connected 2 [(0, 1, 5)]) ∧
    (((kruskal_mst (mkEngine 2 [(0, 1, 5)])).2.1.length = 2 - 1 ∧
      (kruskal_mst (mkEngine 2 [(0, 1, 5)])).2.2 = none ∧
      IsSpanningTree 2 [(0, 1, 5)] (kruskal_mst (mkEngine 2 [(0, 1, 5)])).2.1) ∧
     ∃ pr, prim_mst (mkEngine 2 [(0, 1, 5)]) = Except.ok pr ∧
       pr.2.1.length = 2 - 1 ∧ pr.2.2 = none ∧ IsSpanningTree 2 [(0, 1, 5)] pr.2.1) :=
  ⟨⟨by decide, by decide, by decide, connected_of_reachD (by decide)⟩,
   c1_spanning_tree (by decide) (by decide) (by decide) (connected_of_reachD (by decide))⟩

/-- C2: on a connected graph with positive weights, the total weight of the
edges returned by `kruskal_mst()` equals the total weight of the edges
returned by `prim_mst()` — both outputs are minimum spanning trees, so the
weight sums agree even when the edge sets differ under ties. -/
theorem c2_equal_weights {n : Nat} {E : List Edge} (hWF : WFGraph n E)
    (hpos : PosWeights E) (hconn : Connected n E) :
    ∃ pr, prim_mst (mkEngine n E) = Except.ok pr ∧
      weightL (kruskal_mst (mkEngine n E)).2.1 = weightL pr.2.1 := by
  by_cases hn : n = 0
  · subst hn
    exact ⟨_, rfl, rfl⟩
  · obtain ⟨pr, hok, hP⟩ := prim_is_mst hWF hn hconn
    have hK := kruskal_is_mst hWF hn hconn
    exact ⟨pr, hok, Nat.le_antisymm (hK.2 pr.2.1 hP.1) (hP.2 _ hK.1)⟩

theorem c2_equal_weights_witness :
    (WFGraph 2 [(0, 1, 5)] ∧ PosWeights [(0, 1, 5)] ∧ Connected 2 [(0, 1, 5)]) ∧
    ∃ pr, prim_mst (mkEngine 2 [(0, 1, 5)]) = Except.ok pr ∧
      weightL (kruskal_mst (mkEngine 2 [(0, 1, 5)])).2.1 = weightL pr.2.1 :=
  ⟨⟨by decide, by decide, connected_of_reachD (by decide)⟩,
   c2_equal_weights (by decide) (by decide) (connected_of_reachD (by decide))⟩

/-- C3: on a disconnected graph whose component of node 0 has `k < N` nodes,
`prim_mst()` returns exactly `k - 1` edges with the `Unconnected` condition,
while `kruskal_mst()` returns a spanning forest of `N - (number of connected
components)` edges with no error condition. -/
theorem c3_disconnected {n : Nat} {E : List Edge} (hWF : WFGraph n E)
    (hk : (compOfZero n E).card < n) :
    ((kruskal_mst (mkEngine n E)).2.1.length = n - ncomp n E ∧
      (kruskal_mst (mkEngine n E)).2.2 = none) ∧
    ∃ pr, prim_mst (mkEngine n E) = Except.ok pr ∧
      pr.2.1.length = (compOfZero n E).card - 1 ∧
      pr.2.2 = some Condition.unconnected := by
  have hn : n ≠ 0 := by
    intro h
    subst h
    omega
  obtain ⟨herr, _, _, _, hcnt⟩ := kruskal_mst_main hWF hn
  obtain ⟨fin, hinv, hheap, hcomp, hok⟩ := prim_mst_main hWF hn
  have hcard : fin.visited.card = (compOfZero n E).card := by
    rw [hcomp]
  have hcnt2 := primInv_count hinv.toPrimBase
  refine ⟨⟨by omega, herr⟩, ⟨_, hok, ?_, ?_⟩⟩
  · dsimp only
    omega
  · dsimp only
    rw [hcard]
    rw [if_pos hk]

theorem c3_disconnected_witness :
    (WFGraph 3 [(0, 1, 4)] ∧ (compOfZero 3 [(0, 1, 4)]).card < 3) ∧
    (((kruskal_mst (mkEngine 3 [(0, 1, 4)])).2.1.length = 3 - ncomp 3 [(0, 1, 4)] ∧
      (kruskal_mst (mkEngine 3 [(0, 1, 4)])).2.2 = none) ∧
     ∃ pr, prim_mst (mkEngine 3 [(0, 1, 4)]) = Except.ok pr ∧
       pr.2.1.length = (compOfZero 3 [(0, 1, 4)]).card - 1 ∧
       pr.2.2 = some Condition.unconnected) :=
  ⟨⟨by decide, by decide⟩, c3_disconnected (by decide) (by decide)⟩

/-- C9: `prim_mst()` is total — on every well-formed input graph it completes
with a result: the `del in_heap[u]` of the visit branch never raises, because
a popped node that is not yet visited always has an `in_heap` binding (the
only queue nodes missing from `in_heap` are already-visited ones, discarded
before the deletion), and the fuel of the embedded loop never runs out. -/
theorem c9_prim_total {n : Nat} {E : List Edge} (hWF : WFGraph n E) :
    ∃ r, prim_mst (mkEngine n E) = Except.ok r := by
  by_cases hn : n = 0
  · subst hn
    exact ⟨_, rfl⟩
  · obtain ⟨fin, _, _, _, hok⟩ := prim_mst_main hWF hn
    exact ⟨_, hok⟩

theorem c9_prim_total_witness :
    WFGraph 2 [(0, 1, 5)] ∧ ∃ r, prim_mst (mkEngine 2 [(0, 1, 5)]) = Except.ok r :=
  ⟨by decide, c9_prim_total (by decide)⟩

/-- C10: the edge sequence returned by `prim_mst()` is a tree rooted at node
0: each node is the child component of at most one returned edge, and the
parent of every returned edge is either node 0 or a node that appeared
earlier in the sequence as a child. -/
theorem c10_prim_tree {n : Nat} {E : List Edge} (hWF : WFGraph n E) :
    ∀ r, prim_mst (mkEngine n E) = Except.ok r →
      (r.2.1.map (fun e => e.2.1)).Nodup ∧
      (∀ l1 e l2, r.2.1 = l1 ++ e :: l2 → e.1 = 0 ∨ e.1 ∈ l1.map (fun f => f.2.1)) := by
  intro r hr
  by_cases hn : n = 0
  · subst hn
    have h0 : prim_mst (mkEngine 0 E) =
        Except.ok (reset_metrics (mkEngine 0 E), ([], some Condition.emptyGraph)) := rfl
    rw [h0] at hr
    have heq := Except.ok.inj hr
    rw [← heq]
    refine ⟨by simp, ?_⟩
    intro l1 e l2 h
    rcases l1 with _ | ⟨a, l1⟩ <;> simp at h
  · obtain ⟨fin, hinv, hout, _, _⟩ := prim_result_inv hWF hn hr
    rw [hout]
    exact ⟨hinv.hchild_nodup, hinv.hparent⟩

theorem c10_prim_tree_witness :
    WFGraph 2 [(0, 1, 5)] ∧
    ∀ r, prim_mst (mkEngine 2 [(0, 1, 5)]) = Except.ok r →
      (r.2.1.map (fun e => e.2.1)).Nodup ∧
      (∀ l1 e l2, r.2.1 = l1 ++ e :: l2 → e.1 = 0 ∨ e.1 ∈ l1.map (fun f => f.2.1)) :=
  ⟨by decide, c10_prim_tree (by decide)⟩

/-- C4: whenever an algorithm call completes without error, its trace's final
event carries exactly the returned edge list, the trace's edge events are in
one-to-one order-preserving correspondence with the returned edges, and their
unordered pairs are pairwise distinct; on error the trace is the single final
event with an empty list and the error. -/
theorem c4_trace_replay {n : Nat} {E : List Edge} (hWF : WFGraph n E) :
    ((kruskal_mst (mkEngine n E)).2.2 = none →
      finalEvents (kruskal_mst_with_animation (mkEngine n E)) =
        [((kruskal_mst (mkEngine n E)).2.1, none)] ∧
      edgeEvents (kruskal_mst_with_animation (mkEngine n E)) =
        (kruskal_mst (mkEngine n E)).2.1.map (fun e => (e.1, e.2.1)) ∧
      ((edgeEvents (kruskal_mst_with_animation (mkEngine n E))).map unord).Nodup) ∧
    (∀ c, (kruskal_mst (mkEngine n E)).2.2 = some c →
      kruskal_mst_with_animation (mkEngine n E) = [AnimEvent.final ([], some c)]) ∧
    (∀ pr, prim_mst (mkEngine n E) = Except.ok pr →
      ∃ tr, prim_mst_with_animation (mkEngine n E) = Except.ok tr ∧
        (pr.2.2 = none →
          finalEvents tr = [(pr.2.1, none)] ∧
          edgeEvents tr = pr.2.1.map (fun e => (e.1, e.2.1)) ∧
          ((edgeEvents tr).map unord).Nodup) ∧
        (∀ c, pr.2.2 = some c → tr = [AnimEvent.final ([], some c)])) := by
  refine ⟨?_, ?_, ?_⟩
  · intro h
    have hne : n ≠ 0 := by
      intro h0
      subst h0
      have hc : (kruskal_mst (mkEngine 0 E)).2.2 = some Condition.emptyGraph := rfl
      rw [h] at hc
      cases hc
    have htr := kruskal_anim_ok (mkEngine n E) h
    obtain ⟨_, _, hacy, _, _⟩ := kruskal_mst_main hWF hne
    rw [htr]
    have hedge : edgeEvents (kruskalAnimGo (kruskal_mst (mkEngine n E)).2.1 ∅ ++
        [AnimEvent.final ((kruskal_mst (mkEngine n E)).2.1, none)]) =
        (kruskal_mst (mkEngine n E)).2.1.map (fun e => (e.1, e.2.1)) := by
      rw [edgeEvents_append, edgeEvents_kruskalAnimGo,
        show edgeEvents [AnimEvent.final ((kruskal_mst (mkEngine n E)).2.1, none)] = [] from rfl,
        List.append_nil]
    refine ⟨?_, hedge, ?_⟩
    · rw [finalEvents_append, finalEvents_kruskalAnimGo]
      rfl
    · rw [hedge, List.map_map]
      exact acyclic_nodup_unord hacy
  · intro c hc
    exact kruskal_anim_err (mkEngine n E) c hc
  · intro pr hpr
    by_cases hnone : pr.2.2 = none
    · refine ⟨_, prim_anim_ok (mkEngine n E) pr hpr hnone, ?_, ?_⟩
      · intro _
        have hne : n ≠ 0 := by
          intro h0
          subst h0
          have h1 : prim_mst (mkEngine 0 E) =
              Except.ok (reset_metrics (mkEngine 0 E), ([], some Condition.emptyGraph)) := rfl
          rw [h1] at hpr
          have heq := Except.ok.inj hpr
          rw [← heq] at hnone
          cases hnone
        obtain ⟨fin, hinv, hout, _, _⟩ := prim_result_inv hWF hne hpr
        have hedge : edgeEvents ([AnimEvent.vertex 0] ++ primAnimGo pr.2.1 {0} ++
            [AnimEvent.final (pr.2.1, none)]) = pr.2.1.map (fun e => (e.1, e.2.1)) := by
          rw [edgeEvents_append, edgeEvents_append, edgeEvents_primAnimGo,
            show edgeEvents [AnimEvent.vertex 0] = [] from rfl,
            show edgeEvents [AnimEvent.final (pr.2.1, none)] = [] from rfl,
            List.nil_append, List.append_nil]
        refine ⟨?_, hedge, ?_⟩
        · rw [finalEvents_append, finalEvents_append, finalEvents_primAnimGo]
          rfl
        · rw [hedge, List.map_map, hout]
          exact acyclic_nodup_unord hinv.hacy
      · intro c hc
        rw [hnone] at hc
        cases hc
    · obtain ⟨c, hc⟩ : ∃ c, pr.2.2 = some c := by
        rcases h2 : pr.2.2 with _ | c
        · exact absurd h2 hnone
        · exact ⟨c, rfl⟩
      refine ⟨_, prim_anim_err (mkEngine n E) pr hpr c hc, ?_, ?_⟩
      · intro h0
        rw [h0] at hc
        cases hc
      · intro c2 hc2
        rw [hc] at hc2
        have : c = c2 := Option.some.inj hc2
        rw [this]

theorem c4_trace_replay_witness :
    WFGraph 2 [(0, 1, 5)] ∧
    (((kruskal_mst (mkEngine 2 [(0, 1, 5)])).2.2 = none →
      finalEvents (kruskal_mst_with_animation (mkEngine 2 [(0, 1, 5)])) =
        [((kruskal_mst (mkEngine 2 [(0, 1, 5)])).2.1, none)] ∧
      edgeEvents (kruskal_mst_with_animation (mkEngine 2 [(0, 1, 5)])) =
        (kruskal_mst (mkEngine 2 [(0, 1, 5)])).2.1.map (fun e => (e.1, e.2.1)) ∧
      ((edgeEvents (kruskal_mst_with_animation (mkEngine 2 [(0, 1, 5)]))).map unord).Nodup) ∧
    (∀ c, (kruskal_mst (mkEngine 2 [(0, 1, 5)])).2.2 = some c →
      kruskal_mst_with_animation (mkEngine 2 [(0, 1, 5)]) = [AnimEvent.final ([], some c)]) ∧
    (∀ pr, prim_mst (mkEngine 2 [(0, 1, 5)]) = Except.ok pr →
      ∃ tr, prim_mst_with_animation (mkEngine 2 [(0, 1, 5)]) = Except.ok tr ∧
        (pr.2.2 = none →
          finalEvents tr = [(pr.2.1, none)] ∧
          edgeEvents tr = pr.2.1.map (fun e => (e.1, e.2.1)) ∧
          ((edgeEvents tr).map unord).Nodup) ∧
        (∀ c, pr.2.2 = some c → tr = [AnimEvent.final ([], some c)]))) :=
  ⟨by decide, c4_trace_replay (by decide)⟩


end MST
